import Mathlib

/-! # Spreadsheet cell/graph engine: embedding of `cell.cpp` and `sheet.cpp`

The sheet owns its cells in a map `Position -> unique_ptr<Cell>`.  A map entry
is in one of three states: no entry, an entry holding a live `Cell`, or an
entry whose pointer was `reset()` by `Sheet::ClearCell`.  `Sheet::SetCell`
emplaces a `Cell` only when the key is absent, so every key owns at most one
`Cell` object during the whole life of the sheet.  A `Cell*` is therefore
modelled by the `Position` of the entry that owns (or owned) the object; a
pointer to a cell whose entry was reset is dangling, and dereferencing it (or
a null pointer) is the outcome `Outcome.ub`.

The sets `l_nodes_` / `r_nodes_` (`unordered_set<Cell*>`) are lists without
duplicates.  The standard fixes no iteration order for `unordered_set`; the
lists keep the order of insertion, which is one of the admissible orders.
The order can only matter where a loop stops early or fails part-way (the
search, and the walks that meet a dangling pointer); the general theorems
speak of the members of the sets, and every example of such a failure below
uses sets with at most one member.
-/

namespace Spreadsheet

/-! ## Positions and values -/

/-- A cell address (`Position` of `common.h`). -/
structure Position where
  row : Int
  col : Int
deriving DecidableEq, Repr

/-- Modelled from the spec: the bound of the valid address space
(`Position::MAX_ROWS` of the absent `common.h`). -/
def MAX_ROWS : Int := 16384

/-- Modelled from the spec: the bound of the valid address space
(`Position::MAX_COLS` of the absent `common.h`). -/
def MAX_COLS : Int := 16384

/-- Modelled from the spec: `Position::IsValid` of the absent `common.h`; a
position is valid only within the externally defined bound. -/
def Position.IsValid (p : Position) : Bool :=
  decide (0 ≤ p.row) && decide (0 ≤ p.col) && decide (p.row < MAX_ROWS) && decide (p.col < MAX_COLS)

/-- Modelled from the spec: the escape marker `ESCAPE_SIGN` of the absent
`common.h` (the apostrophe, code point 39). -/
def ESCAPE_SIGN : Char := Char.ofNat 39

/-- The formula marker `FORMULA_SIGN` (the literal `'='` of `Cell::Set`). -/
def FORMULA_SIGN : Char := '='

/-- The category of an evaluation error-token (`FormulaError`). -/
inductive FormulaError
  | Ref
  | Value
  | Div0
deriving DecidableEq, Repr

/-- The result of evaluating a formula: `FormulaInterface::Value`, a number or
an error-token.  Numbers are integers here; no statement below depends on
rounding. -/
inductive FValue
  | num (x : Int)
  | err (e : FormulaError)
deriving DecidableEq, Repr

/-- The value of a cell: `CellInterface::Value`. -/
inductive Value
  | str (t : String)
  | num (x : Int)
  | err (e : FormulaError)
deriving DecidableEq, Repr

/-- The conversion at the end of `FormulaImpl::GetValue` (lines 60-62). -/
def FValue.toValue : FValue → Value
  | .num x => .num x
  | .err e => .err e

/-- A parsed formula as seen through `FormulaInterface`: its canonical
expression text (`GetExpression`), the positions it reads
(`GetReferencedCells`) and its evaluation against a cell-lookup context
(`Evaluate`); the lookup yields `none` where the sheet stores no cell. -/
structure Formula where
  expr : String
  refs : List Position
  eval : (Position → Option Value) → FValue

/-- The external parser `ParseFormula`: `none` stands for the raised
`FormulaException`. -/
abbrev Parser := String → Option Formula

/-! ## Cells -/

/-- The three representations `EmptyImpl`, `TextImpl`, `FormulaImpl`; the
formula variant carries the `mutable std::optional` cache. -/
inductive Impl
  | empty
  | text (t : String)
  | formula (f : Formula) (cache : Option FValue)

/-- The method `Impl::GetText` (lines 23, 38-40, 65-67). -/
def Impl.GetText : Impl → String
  | .empty => ""
  | .text t => t
  | .formula f _ => String.mk (FORMULA_SIGN :: f.expr.data)

/-- The method `Impl::GetReferencedCells` (lines 15, 77-79). -/
def Impl.GetReferencedCells : Impl → List Position
  | .formula f _ => f.refs
  | _ => []

/-- The method `Impl::IsCacheValid` (lines 16, 69-71): the base class answers
`true`, the formula variant answers whether the cache holds a value. -/
def Impl.IsCacheValid : Impl → Bool
  | .formula _ cache => cache.isSome
  | _ => true

/-- The method `Impl::InvalidateCache` (lines 17, 73-75). -/
def Impl.InvalidateCache : Impl → Impl
  | .formula f _ => .formula f none
  | i => i

/-- The value of a `TextImpl` (lines 33-36). -/
def TextImpl.GetValue (t : String) : String :=
  match t.data with
  | c :: rest => if c = ESCAPE_SIGN then String.mk rest else t
  | [] => t

/-- A pointer to a `Cell`: the position of the map entry that owns it. -/
abbrev CellPtr := Position

/-- A `Cell` object: its representation, the incoming set `l_nodes_` (cells
that read it) and the outgoing set `r_nodes_` (cells it reads). -/
structure Cell where
  impl : Impl
  l_nodes : List CellPtr
  r_nodes : List CellPtr

/-- The constructor `Cell::Cell` (lines 124-126). -/
def Cell.new : Cell := ⟨.empty, [], []⟩

/-- The method `Cell::IsReferenced` (lines 182-184). -/
def Cell.IsReferenced (c : Cell) : Bool := !c.l_nodes.isEmpty

/-! ## The sheet storage -/

/-- The map `cells` of the sheet: each entry holds a live cell (`some c`) or a
reset pointer (`none`). -/
structure Sheet where
  cells : List (Position × Option Cell)

/-- The empty sheet made by `CreateSheet`. -/
def Sheet.empty : Sheet := ⟨[]⟩

/-- Lookup in the entry list (`cells.find`). -/
def findSlot : List (Position × Option Cell) → Position → Option (Option Cell)
  | [], _ => none
  | (k, v) :: rest, pos => if k = pos then some v else findSlot rest pos

/-- Replace the pointer held by the entry of a key. -/
def setSlot : List (Position × Option Cell) → Position → Option Cell → List (Position × Option Cell)
  | [], _, _ => []
  | (k, v) :: rest, pos, nv => if k = pos then (k, nv) :: rest else (k, v) :: setSlot rest pos nv

/-- The entry of a key: `cells.find(pos)`. -/
def Sheet.find (s : Sheet) (pos : Position) : Option (Option Cell) := findSlot s.cells pos

/-- Dereference of a cell pointer: the live cell it points to, if any. -/
def Sheet.deref (s : Sheet) (p : CellPtr) : Option Cell :=
  match s.find p with
  | some (some c) => some c
  | _ => none

/-- Store a new cell object in the entry of a key that has a live cell. -/
def Sheet.store (s : Sheet) (p : CellPtr) (c : Cell) : Sheet := ⟨setSlot s.cells p (some c)⟩

/-- The call `cells.emplace(pos, std::make_unique<Cell>(*this))` for an absent key. -/
def Sheet.emplace (s : Sheet) (pos : Position) : Sheet := ⟨s.cells ++ [(pos, some Cell.new)]⟩

/-- The call `cell->second.reset()`. -/
def Sheet.reset (s : Sheet) (pos : Position) : Sheet := ⟨setSlot s.cells pos none⟩

/-! ## Outcomes -/

/-- The exceptions the sheet raises. -/
inductive Exn
  | InvalidPosition
  | FormulaException
  | CircularDependency
deriving DecidableEq, Repr

/-- The outcome of a call: a result, an exception that leaves the sheet in the
state it carries, undefined behaviour (null or dangling dereference), or an
exhausted recursion budget of the model. -/
inductive Outcome (α : Type)
  | ok (a : α)
  | raised (e : Exn) (s : Sheet)
  | ub
  | outOfFuel

/-- Sequencing of outcomes. -/
def Outcome.bind {α β : Type} (o : Outcome α) (k : α → Outcome β) : Outcome β :=
  match o with
  | .ok a => k a
  | .raised e s => .raised e s
  | .ub => .ub
  | .outOfFuel => .outOfFuel

/-- A loop over a list that threads the sheet and stops at the first outcome
that is not a normal return. -/
def forEach {α : Type} (f : Sheet → α → Outcome Sheet) : List α → Sheet → Outcome Sheet
  | [], s => .ok s
  | x :: rest, s =>
    match f s x with
    | .ok s1 => forEach f rest s1
    | .raised e s1 => .raised e s1
    | .ub => .ub
    | .outOfFuel => .outOfFuel

/-- The method `Sheet::GetCellPtr` (lines 88-97): the pointer stored for a
position, `none` for a null pointer or an absent key. -/
def Sheet.GetCellPtr (s : Sheet) (pos : Position) : Outcome (Option CellPtr) :=
  if !pos.IsValid then .raised .InvalidPosition s
  else match s.find pos with
    | none => .ok none
    | some none => .ok none
    | some (some _) => .ok (some pos)

/-- The method `Sheet::GetCell` (lines 80-86). -/
def Sheet.GetCell (s : Sheet) (pos : Position) : Outcome (Option CellPtr) := s.GetCellPtr pos

/-! ## Cycle detection -/

/-- The set operation `insert` of `unordered_set`.  A new member goes to the
end of the list; the iteration order of the real container is unspecified,
and this is one admissible choice. -/
def insertSet (x : CellPtr) (l : List CellPtr) : List CellPtr :=
  if x ∈ l then l else l ++ [x]

/-- The set operation `erase` of `unordered_set`. -/
def eraseSet (x : CellPtr) (l : List CellPtr) : List CellPtr :=
  l.filter (fun y => decide (y ≠ x))

/-- The `while` loop of `Cell::SearchCircularDependency` (lines 100-110):
`referenced` holds the pointers returned by `GetCellPtr`, `visited` the
visited set and the last argument the work stack, top first. -/
def searchLoop (s : Sheet) (referenced : List (Option CellPtr)) :
    Nat → List CellPtr → List CellPtr → Outcome Bool
  | 0, _, _ => .outOfFuel
  | _ + 1, _, [] => .ok false
  | fuel + 1, visited, current :: rest =>
    if some current ∈ referenced then .ok true
    else
      match s.deref current with
      | none => .ub
      | some c =>
        searchLoop s referenced fuel (insertSet current visited)
          ((c.l_nodes.filter (fun x => decide (x ∉ insertSet current visited))).reverse ++ rest)

/-- The first loop of `Cell::SearchCircularDependency` (lines 92-95). -/
def collectReferenced (s : Sheet) : List Position → Outcome (List (Option CellPtr))
  | [] => .ok []
  | pos :: rest =>
    (s.GetCellPtr pos).bind fun p => (collectReferenced s rest).bind fun ps => .ok (p :: ps)

/-- The weight of an entry in the iteration budget of the search. -/
def slotWeight : Option Cell → Nat
  | some c => c.l_nodes.length + 1
  | none => 0

/-- An iteration budget that the search loop never exhausts: one step per
entry and per incoming edge, plus the start. -/
def Sheet.searchFuel (s : Sheet) : Nat :=
  (s.cells.map (fun e => slotWeight e.2)).sum + 2

/-- The method `Cell::SearchCircularDependency` (lines 87-113) of the cell
`this`. -/
def Cell.SearchCircularDependency (s : Sheet) (this : CellPtr) (new_impl : Impl) : Outcome Bool :=
  if new_impl.GetReferencedCells.isEmpty then .ok false
  else
    (collectReferenced s new_impl.GetReferencedCells).bind fun referenced =>
      searchLoop s referenced s.searchFuel [] [this]

/-! ## Cache invalidation -/

/-- Apply a mutation to the cell a pointer names; a pointer that names no live
cell makes the access undefined. -/
def Sheet.modify (s : Sheet) (p : CellPtr) (f : Cell → Cell) : Outcome Sheet :=
  match s.deref p with
  | some c => .ok (s.store p (f c))
  | none => .ub

/-- The method `Cell::InvalidateCacheRecursive` (lines 115-122); the first
argument bounds the recursion depth. -/
def Cell.InvalidateCacheRecursive : Nat → Sheet → CellPtr → Bool → Outcome Sheet
  | 0, _, _, _ => .outOfFuel
  | d + 1, s, this, need_swap =>
    match s.deref this with
    | none => .ub
    | some c =>
      if c.impl.IsCacheValid || need_swap then
        forEach (fun st incoming => Cell.InvalidateCacheRecursive d st incoming false) c.l_nodes
          (s.store this { c with impl := c.impl.InvalidateCache })
      else .ok s

/-- The depth budget of the recursions along edges. -/
def Sheet.depthFuel (s : Sheet) : Nat := s.cells.length + 1

/-! ## Editing -/

/-- The construction of the candidate representation in `Cell::Set`
(lines 131-139); `none` stands for the `FormulaException` of the parser. -/
def Cell.newImpl (pf : Parser) (text : String) : Option Impl :=
  match text.data with
  | [] => some .empty
  | c :: rest =>
    if c = FORMULA_SIGN ∧ rest ≠ [] then (pf (String.mk rest)).map (fun f => Impl.formula f none)
    else some (.text text)

/-- The body of the loop of lines 153-161 of `Cell::Set` for one referenced
position; `setCell` is `Sheet::SetCell`. -/
def Cell.linkRef (setCell : Sheet → Position → String → Outcome Sheet) (this : CellPtr)
    (s : Sheet) (pos : Position) : Outcome Sheet :=
  (s.GetCellPtr pos).bind fun out0 =>
    (match out0 with
      | some _ => Outcome.ok s
      | none => setCell s pos "").bind fun s1 =>
    (s1.GetCellPtr pos).bind fun out1 =>
      match out1 with
      | none => .ub
      | some out =>
        (s1.modify this (fun c => { c with r_nodes := insertSet out c.r_nodes })).bind fun s2 =>
          s2.modify out (fun oc => { oc with l_nodes := insertSet this oc.l_nodes })

/-- The loop of lines 147-149 of `Cell::Set`. -/
def Cell.unlinkAll (this : CellPtr) (s : Sheet) : Outcome Sheet :=
  match s.deref this with
  | none => .ub
  | some c =>
    forEach (fun st out => st.modify out (fun oc => { oc with l_nodes := eraseSet this oc.l_nodes }))
      c.r_nodes s

/-- The first part of the commit of `Cell::Set` (lines 145-161): install the
representation, drop the old outgoing edges with their mirrors, and link the
referenced cells (creating the missing ones). -/
def Cell.relink (setCell : Sheet → Position → String → Outcome Sheet)
    (s : Sheet) (this : CellPtr) (impl : Impl) : Outcome Sheet :=
  (s.modify this (fun c => { c with impl := impl })).bind fun s1 =>
  (Cell.unlinkAll this s1).bind fun s2 =>
  (s2.modify this (fun c => { c with r_nodes := [] })).bind fun s3 =>
  forEach (Cell.linkRef setCell this) impl.GetReferencedCells s3

/-- The commit of `Cell::Set` (lines 145-162): the edges are rebuilt, then the
caches are invalidated from the cell. -/
def Cell.commit (setCell : Sheet → Position → String → Outcome Sheet)
    (s : Sheet) (this : CellPtr) (impl : Impl) : Outcome Sheet :=
  (Cell.relink setCell s this impl).bind fun s4 =>
  Cell.InvalidateCacheRecursive s4.depthFuel s4 this true

/-- The method `Cell::Set` (lines 130-163) of the cell `this`; `setCell` is
`Sheet::SetCell`, called back for a referenced position without a cell. -/
def Cell.Set (pf : Parser) (setCell : Sheet → Position → String → Outcome Sheet)
    (s : Sheet) (this : CellPtr) (text : String) : Outcome Sheet :=
  match Cell.newImpl pf text with
  | none => .raised .FormulaException s
  | some impl =>
    (Cell.SearchCircularDependency s this impl).bind fun circular =>
      if circular then .raised .CircularDependency s
      else Cell.commit setCell s this impl

/-- The method `Sheet::SetCell` (lines 16-23); the first argument bounds the
nesting of the call-back from `Cell::Set`. -/
def Sheet.SetCellN (pf : Parser) : Nat → Sheet → Position → String → Outcome Sheet
  | 0, _, _, _ => .outOfFuel
  | n + 1, s, pos, text =>
    if !pos.IsValid then .raised .InvalidPosition s
    else
      match s.find pos with
      | none => Cell.Set pf (Sheet.SetCellN pf n) (s.emplace pos) pos text
      | some none => .ub
      | some (some _) => Cell.Set pf (Sheet.SetCellN pf n) s pos text

/-- The method `Sheet::SetCell`: the call-back is only made with the empty
text, which makes no further call-back, so nesting depth two is all there is. -/
def Sheet.SetCell (pf : Parser) (s : Sheet) (pos : Position) (text : String) : Outcome Sheet :=
  Sheet.SetCellN pf 2 s pos text

/-- The method `Sheet::ClearCell` (lines 26-36) with `Cell::Clear`
(lines 165-168) inlined. -/
def Sheet.ClearCell (s : Sheet) (pos : Position) : Outcome Sheet :=
  if !pos.IsValid then .raised .InvalidPosition s
  else
    match s.find pos with
    | some (some c) =>
      if !(Cell.IsReferenced { c with impl := .empty }) then .ok (s.reset pos)
      else .ok (s.store pos { c with impl := .empty })
    | _ => .ok s

/-- The type `Size` of `common.h`. -/
structure Size where
  rows : Int
  cols : Int
deriving DecidableEq, Repr

/-- The method `Sheet::GetPrintableSize` (lines 38-51). -/
def Sheet.GetPrintableSize (s : Sheet) : Size :=
  s.cells.foldl
    (fun result e =>
      match e.2 with
      | some _ => ⟨max result.rows (e.1.row + 1), max result.cols (e.1.col + 1)⟩
      | none => result)
    ⟨0, 0⟩

/-! ## Reading values -/

/-- The values the lookup context hands to a formula, gathered by calling
`GetValue` on each referenced position that has a cell; the last component
counts the formula evaluations made on the way. -/
def evalRefs (gv : Sheet → CellPtr → Outcome (Sheet × Value × Nat)) :
    List Position → Sheet → Outcome (Sheet × List (Position × Value) × Nat)
  | [], s => .ok (s, [], 0)
  | q :: rest, s =>
    match s.deref q with
    | none => evalRefs gv rest s
    | some _ =>
      (gv s q).bind fun r1 =>
        (evalRefs gv rest r1.1).bind fun r2 =>
          .ok (r2.1, (q, r1.2.1) :: r2.2.1, r1.2.2 + r2.2.2)

/-- The lookup context built from the gathered values. -/
def lookupValue : List (Position × Value) → Position → Option Value
  | [], _ => none
  | (k, v) :: rest, q => if k = q then some v else lookupValue rest q

/-- Modelled from the spec: `Formula.evaluate(lookupContext)` of the absent
formula module: the context returns the current value of each referenced
cell (reading a formula cell calls its `GetValue`) and nothing where no cell
is stored.  The count of evaluations grows by one. -/
def Evaluate (gv : Sheet → CellPtr → Outcome (Sheet × Value × Nat)) (s : Sheet) (f : Formula) :
    Outcome (Sheet × FValue × Nat) :=
  (evalRefs gv f.refs s).bind fun r => .ok (r.1, f.eval (lookupValue r.2.1), r.2.2 + 1)

/-- Assignment to the `cache` member of a `FormulaImpl`. -/
def Impl.setCache (v : FValue) : Impl → Impl
  | .formula f _ => .formula f (some v)
  | i => i

/-- The method `Cell::GetValue` (lines 170-172) dispatching to `EmptyImpl`
(line 22), `TextImpl` (lines 33-36) and `FormulaImpl::GetValue` (lines 54-63).
The first argument bounds the recursion depth; the result carries the sheet
(caches are mutable), the value, and the number of formula evaluations made. -/
def Cell.GetValue : Nat → Sheet → CellPtr → Outcome (Sheet × Value × Nat)
  | 0, _, _ => .outOfFuel
  | d + 1, s, this =>
    match s.deref this with
    | none => .ub
    | some c =>
      match c.impl with
      | .empty => .ok (s, .str "", 0)
      | .text t => .ok (s, .str (TextImpl.GetValue t), 0)
      | .formula f cache =>
        (match cache with
          | some _ => Outcome.ok (s, 0)
          | none =>
            (Evaluate (Cell.GetValue d) s f).bind fun r =>
              (r.1.modify this (fun c1 => { c1 with impl := c1.impl.setCache r.2.1 })).bind fun s1 =>
                .ok (s1, r.2.2)).bind fun r1 =>
        (Evaluate (Cell.GetValue d) r1.1 f).bind fun r2 =>
          .ok (r2.1, r2.2.1.toValue, r1.2 + r2.2.2)

/-- The call `sheet.GetCell(pos)->GetValue()` of a client. -/
def Sheet.GetValue (s : Sheet) (pos : Position) : Outcome (Sheet × Value × Nat) :=
  (s.GetCell pos).bind fun p =>
    match p with
    | none => .ub
    | some this => Cell.GetValue s.depthFuel s this

/-! ## A concrete formula language

The formula module is not part of the sources.  For closed examples the parser
is instantiated with sums of cell references (`A1`, `B2`, ...) and numerals. -/

/-- A summand of a formula. -/
inductive Term
  | num (n : Nat)
  | cell (p : Position)

/-- The number written by a non-empty list of decimal digits. -/
def digitsValue : List Char → Option Nat
  | [] => none
  | c :: cs =>
    (c :: cs).foldl
      (fun acc d => acc.bind fun n => if d.isDigit then some (10 * n + (d.toNat - 48)) else none)
      (some 0)

/-- A summand: a capital letter followed by a row number, or a numeral. -/
def parseTerm : List Char → Option Term
  | [] => none
  | c :: rest =>
    if c.isUpper then
      (digitsValue rest).bind fun n =>
        if n = 0 then none else some (.cell ⟨(n : Int) - 1, (c.toNat : Int) - 65⟩)
    else (digitsValue (c :: rest)).map Term.num

/-- Split the text at the character `+`. -/
def splitPlus : List Char → List (List Char)
  | [] => [[]]
  | c :: rest =>
    match splitPlus rest with
    | [] => [[c]]
    | t :: ts => if c = '+' then [] :: t :: ts else (c :: t) :: ts

/-- Parse every summand. -/
def parseTerms : List (List Char) → Option (List Term)
  | [] => some []
  | t :: ts => (parseTerm t).bind fun x => (parseTerms ts).map fun xs => x :: xs

/-- The positions read by the summands, each once. -/
def termRefs : List Term → List Position
  | [] => []
  | .num _ :: ts => termRefs ts
  | .cell p :: ts => if p ∈ termRefs ts then termRefs ts else p :: termRefs ts

/-- The number a referenced cell stands for. -/
def cellNumber : Option Value → FValue
  | none => .num 0
  | some (.str t) =>
    match t.data with
    | [] => .num 0
    | c :: cs =>
      match digitsValue (c :: cs) with
      | some n => .num n
      | none => .err .Value
  | some (.num x) => .num x
  | some (.err e) => .err e

/-- The sum of the summands under a lookup context. -/
def evalTerms (ctx : Position → Option Value) : List Term → FValue
  | [] => .num 0
  | t :: ts =>
    match (match t with
        | .num n => FValue.num n
        | .cell p => cellNumber (ctx p)), evalTerms ctx ts with
    | .num a, .num b => .num (a + b)
    | .err e, _ => .err e
    | .num _, .err e => .err e

/-- Modelled from the spec: `ParseFormula` of the absent formula module,
restricted to sums of cell references and numerals: `parse(expressionText)`
gives a formula with its referenced positions, canonical text and
evaluation, or a parse error. -/
def ParseFormula : Parser := fun text =>
  (parseTerms (splitPlus text.data)).map fun ts =>
    ⟨text, termRefs ts, fun ctx => evalTerms ctx ts⟩

/-! ## Observations and reachable states -/

/-- Whether `GetCell` returns a cell at the position. -/
def Sheet.stored (s : Sheet) (p : Position) : Bool := (s.deref p).isSome

/-- The text `GetCell(p)->GetText()` of a stored cell (the empty text where no
cell is stored). -/
def Sheet.GetText (s : Sheet) (p : Position) : String :=
  match s.deref p with
  | some c => c.impl.GetText
  | none => ""

/-- The incoming set of the cell stored at a position. -/
def Sheet.incoming (s : Sheet) (p : Position) : List CellPtr :=
  match s.deref p with
  | some c => c.l_nodes
  | none => []

/-- The outgoing set of the cell stored at a position. -/
def Sheet.outgoing (s : Sheet) (p : Position) : List CellPtr :=
  match s.deref p with
  | some c => c.r_nodes
  | none => []

/-- The positions the current representation of the cell at a position reads. -/
def Sheet.refsAt (s : Sheet) (p : Position) : List Position :=
  match s.deref p with
  | some c => c.impl.GetReferencedCells
  | none => []

/-- The cache of the formula cell stored at a position, if it is present. -/
def Sheet.cacheAt (s : Sheet) (p : Position) : Option FValue :=
  match s.deref p with
  | some ⟨.formula _ cache, _, _⟩ => cache
  | _ => none

/-- Whether a formula cell with a present cache is stored at the position. -/
def Sheet.cachePresent (s : Sheet) (p : Position) : Bool := (s.cacheAt p).isSome

/-- The sheet a call leaves behind, when it returns or raises. -/
def Outcome.sheet : Outcome Sheet → Option Sheet
  | .ok s => some s
  | .raised _ s => some s
  | .ub => none
  | .outOfFuel => none

/-- Whether the outcome is undefined behaviour. -/
def Outcome.isUb {α : Type} : Outcome α → Bool
  | .ub => true
  | _ => false

/-- Whether the outcome is a normal return. -/
def Outcome.isOk {α : Type} : Outcome α → Bool
  | .ok _ => true
  | _ => false

/-- The exception an outcome raises, if it raises one. -/
def Outcome.exn {α : Type} : Outcome α → Option Exn
  | .raised e _ => some e
  | _ => none

/-- One call of the public interface, with its arguments. -/
inductive Call
  | SetCell (pos : Position) (text : String)
  | ClearCell (pos : Position)
  | GetValue (pos : Position)

/-- The sheet after a call, when the call returns or raises. -/
def Call.run (pf : Parser) (s : Sheet) : Call → Option Sheet
  | .SetCell pos text => (s.SetCell pf pos text).sheet
  | .ClearCell pos => (s.ClearCell pos).sheet
  | .GetValue pos =>
    match s.GetValue pos with
    | .ok r => some r.1
    | .raised _ s1 => some s1
    | _ => none

/-- The sheet after a sequence of calls, each of which returns or raises. -/
def runCalls (pf : Parser) : List Call → Sheet → Option Sheet
  | [], s => some s
  | c :: rest, s => (c.run pf s).bind (runCalls pf rest)

/-- Whether a call is an edit (`SetCell` or `ClearCell`). -/
def Call.isEdit : Call → Bool
  | .GetValue _ => false
  | _ => true

/-- Whether a call is a `SetCell`. -/
def Call.isSet : Call → Bool
  | .SetCell _ _ => true
  | _ => false

/-- The states reachable from the empty sheet by calls of the public
interface (`SetCell`, `ClearCell`, reading a value), failed calls included. -/
def Reachable (pf : Parser) (s : Sheet) : Prop :=
  ∃ calls, runCalls pf calls Sheet.empty = some s

/-- The states reachable from the empty sheet by `SetCell` and `ClearCell`. -/
def ReachableByEdits (pf : Parser) (s : Sheet) : Prop :=
  ∃ calls, (∀ c ∈ calls, c.isEdit = true) ∧ runCalls pf calls Sheet.empty = some s

/-- The states reachable from the empty sheet by `SetCell` calls only. -/
def ReachableBySet (pf : Parser) (s : Sheet) : Prop :=
  ∃ calls, (∀ c ∈ calls, c.isSet = true) ∧ runCalls pf calls Sheet.empty = some s

/-- The sheet after a sequence of calls from the empty sheet (the empty sheet
when some call neither returns nor raises). -/
def sheetAfter (pf : Parser) (calls : List Call) : Sheet :=
  (runCalls pf calls Sheet.empty).getD Sheet.empty

/-- Whether every call of the sequence, run from the empty sheet, returns or
raises. -/
def completes (pf : Parser) (calls : List Call) : Bool :=
  (runCalls pf calls Sheet.empty).isSome

/-- The value and the number of formula evaluations of a `GetValue` call. -/
def valueAndEvals : Outcome (Sheet × Value × Nat) → Option (Value × Nat)
  | .ok r => some (r.2.1, r.2.2)
  | _ => none

/-- Named positions of the examples. -/
def A1 : Position := ⟨0, 0⟩

/-- The position in row 1, column B. -/
def B1 : Position := ⟨0, 1⟩

/-- The position in row 1, column C. -/
def C1 : Position := ⟨0, 2⟩

/-- The text made of the escape marker followed by `x`. -/
def escapedX : String := String.mk [ESCAPE_SIGN, 'x']

/-- The sheet with an Empty cell at `A1` and the escaped text at `B1`. -/
def textSheet : Sheet := sheetAfter ParseFormula [.SetCell A1 "", .SetCell B1 escapedX]

/-! ## The dependency graph -/

/-- An incoming edge: `y` is in the incoming set of the stored cell `x` (the
cell `y` reads `x`). -/
def IncomingEdge (s : Sheet) (x y : CellPtr) : Prop :=
  ∃ c, s.deref x = some c ∧ y ∈ c.l_nodes

/-- An outgoing edge: `y` is in the outgoing set of the stored cell `x` (the
cell `x` reads `y`). -/
def OutgoingEdge (s : Sheet) (x y : CellPtr) : Prop :=
  ∃ c, s.deref x = some c ∧ y ∈ c.r_nodes

/-- The cell `y` is `x` or is reached from `x` along incoming edges: `y`
depends on `x`. -/
def DependsOn (s : Sheet) (x y : CellPtr) : Prop :=
  Relation.ReflTransGen (IncomingEdge s) x y

/-- The budget still owed to the entries whose key is not yet visited. -/
def unvisitedWeight (visited : List CellPtr) : List (Position × Option Cell) → Nat
  | [] => 0
  | (k, v) :: rest =>
    (if k ∈ visited then 0 else slotWeight v) + unvisitedWeight visited rest

/-- The stack discipline of the search: below a visited cell on the stack, every
one of its incoming pointers is visited or lies above it. -/
def stackOrdered (s : Sheet) (visited : List CellPtr) : List CellPtr → List CellPtr → Prop
  | _, [] => True
  | above, v :: below =>
    (v ∈ visited → ∀ c, s.deref v = some c → ∀ y ∈ c.l_nodes, y ∈ visited ∨ y ∈ above) ∧
      stackOrdered s visited (v :: above) below

/-- A cell with its cache dropped: what stays of a cell when only caches are
compared. -/
def Cell.eraseCache (c : Cell) : Cell := { c with impl := c.impl.InvalidateCache }

/-- Two sheets that differ at most in the caches of their formula cells. -/
def SameSkeleton (s s1 : Sheet) : Prop :=
  (∀ q, (s1.find q).map (Option.map Cell.eraseCache) = (s.find q).map (Option.map Cell.eraseCache)) ∧
    s1.cells.map Prod.fst = s.cells.map Prod.fst

/-- The cell of key `q` after the loop of lines 147-149 run for the cell `this`
with outgoing set `rs`. -/
def unlinkedCell (this : CellPtr) (rs : List CellPtr) (q : CellPtr) (c : Cell) : Cell :=
  if q ∈ rs then { c with l_nodes := eraseSet this c.l_nodes } else c

/-- The entry of a referenced key after the loop of lines 153-161 run for the
cell `this`: a stored cell gains `this` in its incoming set, a missing cell
is created Empty with `this` as its only incoming pointer. -/
def linkedSlot (this : CellPtr) : Option (Option Cell) → Option (Option Cell)
  | some (some c) => some (some { c with l_nodes := insertSet this c.l_nodes })
  | some none => some none
  | none => some (some ⟨.empty, [this], []⟩)

/-- The outgoing set built by the loop of lines 153-161. -/
def linkedRefs (refs : List Position) (init : List CellPtr) : List CellPtr :=
  refs.foldl (fun acc p => insertSet p acc) init

/-- The entry of key `q` after the commit of `Cell::Set` for the cell `this`
(whose state before was `c0`) with the representation `impl`, caches aside. -/
def committedSlot (s : Sheet) (this : CellPtr) (c0 : Cell) (impl : Impl) (q : Position) :
    Option (Option Cell) :=
  if q = this then
    some (some ⟨impl, (unlinkedCell this c0.r_nodes this c0).l_nodes,
      linkedRefs impl.GetReferencedCells []⟩)
  else if q ∈ impl.GetReferencedCells then
    linkedSlot this ((s.find q).map (Option.map (unlinkedCell this c0.r_nodes q)))
  else (s.find q).map (Option.map (unlinkedCell this c0.r_nodes q))

/-! ## Invariants of reachable sheets -/

/-- The invariants every reachable sheet satisfies: the keys are valid and
distinct; every outgoing edge leads to a stored cell and is mirrored by an
incoming edge; every position the representation of a stored cell reads is
in its outgoing set; and the incoming-edge graph has no cycle. -/
structure WellFormed (s : Sheet) : Prop where
  keysValid : ∀ k ∈ s.cells.map Prod.fst, k.IsValid = true
  keysNodup : (s.cells.map Prod.fst).Nodup
  mirror : ∀ x c, s.deref x = some c → ∀ y ∈ c.r_nodes, ∃ cy, s.deref y = some cy ∧ x ∈ cy.l_nodes
  refsLinked : ∀ x c, s.deref x = some c → ∀ q ∈ c.impl.GetReferencedCells, q ∈ c.r_nodes
  acyclic : ∀ x, ¬ Relation.TransGen (IncomingEdge s) x x

/-- The further invariants of a sheet that was only ever edited by `SetCell`:
no entry was reset, every incoming edge is mirrored by an outgoing edge, and
every outgoing edge comes from the current representation. -/
structure SetOnly (s : Sheet) : Prop where
  noReset : ∀ q, s.find q ≠ some none
  mirrorBack : ∀ x c, s.deref x = some c → ∀ y ∈ c.l_nodes,
    ∃ cy, s.deref y = some cy ∧ x ∈ cy.r_nodes
  outRefs : ∀ x c, s.deref x = some c → ∀ y ∈ c.r_nodes, y ∈ c.impl.GetReferencedCells

/-- Installing a representation that reads `refs` at `pos` would close a cycle
of references: some position of `refs` is `pos` itself or leads to `pos`
through the positions read by the current representations of other cells. -/
def WouldCycle (s : Sheet) (pos : Position) (refs : List Position) : Prop :=
  ∃ q ∈ refs, Relation.ReflTransGen (fun a b => a ≠ pos ∧ b ∈ s.refsAt a) q pos

/-! ## Cells that an invalidation leaves alone -/

/-- An invalidation that arrives at the cell along an incoming edge changes
nothing: the cell is a formula cell without cache (the traversal stops), or
it has no cache to drop and every cell of its incoming set is quiet too. -/
inductive Quiet (t : Sheet) : CellPtr → Prop
  | formula {x : CellPtr} {c : Cell} : t.deref x = some c → c.impl.IsCacheValid = false →
      Quiet t x
  | plain {x : CellPtr} {c : Cell} : t.deref x = some c → c.impl.InvalidateCache = c.impl →
      (∀ y ∈ c.l_nodes, Quiet t y) → Quiet t x

/-- An invalidation that starts at the cell changes nothing. -/
def QuietTop (t : Sheet) (x : CellPtr) : Prop :=
  ∃ c, t.deref x = some c ∧ c.impl.InvalidateCache = c.impl ∧ ∀ y ∈ c.l_nodes, Quiet t y

/-- The sheet `t1` is `t` with the caches of some formula cells dropped. -/
def Invalidated (t t1 : Sheet) : Prop :=
  ∀ q, t1.find q = t.find q ∨
    ∃ c, t.find q = some (some c) ∧ t1.find q = some (some { c with impl := c.impl.InvalidateCache })

/-- The sheet `t1` has the entries of `t`, with the same representations,
caches and outgoing sets, and the same incoming sets up to order. -/
def SameGraph (t t1 : Sheet) : Prop :=
  ∀ q, t1.find q = t.find q ∨
    ∃ c c1, t.find q = some (some c) ∧ t1.find q = some (some c1) ∧ c1.impl = c.impl ∧
      c1.r_nodes = c.r_nodes ∧ ∀ y, y ∈ c1.l_nodes ↔ y ∈ c.l_nodes

/-- No edge set holds a pointer twice. -/
def EdgesNodup (s : Sheet) : Prop :=
  ∀ q c, s.deref q = some c → c.l_nodes.Nodup ∧ c.r_nodes.Nodup

/-! ## Caches and the cells they rest on -/

/-- C1: `SetCell(P, "=P")` does not raise on every reachable sheet.  On the
empty sheet `SetCell(A1,"=A1")` raises `CircularDependencyException`.  After
`SetCell(A1,"x")`, `ClearCell(A1)` no cell is stored at `A1`, but the entry of
`A1` is kept with its pointer reset; the text "=A1" reads `A1` itself, and
`SetCell(A1,"=A1")` raises nothing: `Sheet::SetCell` finds the key, creates
no cell, and calls `Set` through the reset pointer. -/
theorem C1_self_reference_after_clear_not_raised :
    (Sheet.empty.SetCell ParseFormula A1 "=A1").exn = some .CircularDependency ∧
    completes ParseFormula [.SetCell A1 "x", .ClearCell A1] = true ∧
    (sheetAfter ParseFormula [.SetCell A1 "x", .ClearCell A1]).stored A1 = false ∧
    (sheetAfter ParseFormula [.SetCell A1 "x", .ClearCell A1]).cells.map Prod.fst = [A1] ∧
    A1.IsValid = true ∧
    (Cell.newImpl ParseFormula "=A1").map Impl.GetReferencedCells = some [A1] ∧
    ((sheetAfter ParseFormula [.SetCell A1 "x", .ClearCell A1]).SetCell
      ParseFormula A1 "=A1").exn = none ∧
    ((sheetAfter ParseFormula [.SetCell A1 "x", .ClearCell A1]).SetCell
      ParseFormula A1 "=A1").isUb = true := by
  decide

/-- C4: a `SetCell` that raises leaves a cell behind where none was stored.
On the empty sheet `SetCell(A1, "=A1")` raises `CircularDependencyException`,
and afterwards `GetCell(A1)` returns a cell and `GetPrintableSize()` is (1, 1)
although no cell was stored and the size was (0, 0) before the call. -/
theorem C4_failed_set_leaves_cell :
    Sheet.empty.stored A1 = false ∧ Sheet.empty.GetPrintableSize = ⟨0, 0⟩ ∧
    (Sheet.empty.SetCell ParseFormula A1 "=A1").exn = some .CircularDependency ∧
    (sheetAfter ParseFormula [.SetCell A1 "=A1"]).stored A1 = true ∧
    (sheetAfter ParseFormula [.SetCell A1 "=A1"]).GetPrintableSize = ⟨1, 1⟩ := by
  decide

/-- C5: an incoming set names a cell that is no longer stored.  After
`SetCell(A1,"x")`, `SetCell(B1,"=A1")`, `ClearCell(B1)` no cell is stored at
`B1`, and the incoming set of `A1` still holds `B1`. -/
theorem C5_incoming_names_freed_cell :
    completes ParseFormula [.SetCell A1 "x", .SetCell B1 "=A1", .ClearCell B1] = true ∧
    (sheetAfter ParseFormula [.SetCell A1 "x", .SetCell B1 "=A1", .ClearCell B1]).stored A1
      = true ∧
    (sheetAfter ParseFormula [.SetCell A1 "x", .SetCell B1 "=A1", .ClearCell B1]).incoming A1
      = [B1] ∧
    (sheetAfter ParseFormula [.SetCell A1 "x", .SetCell B1 "=A1", .ClearCell B1]).stored B1
      = false := by
  decide

/-- C6 (as stated, refuted): after `SetCell(A1,"")` on the empty sheet a cell
is stored at `A1` that has empty text and no incoming edge; and after
`SetCell(B1,"=A1")`, `SetCell(B1,"x")` the placeholder `A1` is still stored,
with empty text and no incoming edge. -/
theorem C6_unreferenced_empty_cell_retained :
    (Sheet.empty.SetCell ParseFormula A1 "").isOk = true ∧
    (sheetAfter ParseFormula [.SetCell A1 ""]).stored A1 = true ∧
    (sheetAfter ParseFormula [.SetCell A1 ""]).GetText A1 = "" ∧
    (sheetAfter ParseFormula [.SetCell A1 ""]).incoming A1 = [] ∧
    completes ParseFormula [.SetCell B1 "=A1", .SetCell B1 "x"] = true ∧
    (sheetAfter ParseFormula [.SetCell B1 "=A1", .SetCell B1 "x"]).stored A1 = true ∧
    (sheetAfter ParseFormula [.SetCell B1 "=A1", .SetCell B1 "x"]).GetText A1 = "" ∧
    (sheetAfter ParseFormula [.SetCell B1 "=A1", .SetCell B1 "x"]).incoming A1 = [] := by
  decide

/-- C8: `GetValue` evaluates the formula also when the cache is present, and
twice when it is absent; it returns the fresh result, not the cache.  With
`A1 = "5"`, `B1 = "=A1+1"`: the first `GetValue(B1)` (cache absent) makes two
evaluations; the next one (cache 6 present) makes one; and after
`ClearCell(A1)` the cache still holds 6 while `GetValue(B1)` evaluates again
and returns 1. -/
theorem C8_getvalue_reevaluates :
    (sheetAfter ParseFormula [.SetCell A1 "5", .SetCell B1 "=A1+1"]).cacheAt B1 = none ∧
    valueAndEvals ((sheetAfter ParseFormula [.SetCell A1 "5", .SetCell B1 "=A1+1"]).GetValue B1)
      = some (.num 6, 2) ∧
    (sheetAfter ParseFormula [.SetCell A1 "5", .SetCell B1 "=A1+1", .GetValue B1]).cacheAt B1
      = some (.num 6) ∧
    valueAndEvals
      ((sheetAfter ParseFormula [.SetCell A1 "5", .SetCell B1 "=A1+1", .GetValue B1]).GetValue B1)
      = some (.num 6, 1) ∧
    (sheetAfter ParseFormula
      [.SetCell A1 "5", .SetCell B1 "=A1+1", .GetValue B1, .ClearCell A1]).cacheAt B1
      = some (.num 6) ∧
    valueAndEvals
      ((sheetAfter ParseFormula
        [.SetCell A1 "5", .SetCell B1 "=A1+1", .GetValue B1, .ClearCell A1]).GetValue B1)
      = some (.num 1, 1) := by
  decide

/-- C9: a stale cache survives `ClearCell`.  After `SetCell(A1,"5")`,
`SetCell(B1,"=A1+1")`, `GetValue(B1)`, `ClearCell(A1)` the cell `A1` is Empty
with text "", the cache of `B1` is still present and holds 6, and evaluating
the formula of `B1` against the current sheet gives 1. -/
theorem C9_stale_cache_after_clear :
    completes ParseFormula [.SetCell A1 "5", .SetCell B1 "=A1+1", .GetValue B1, .ClearCell A1]
      = true ∧
    (sheetAfter ParseFormula
      [.SetCell A1 "5", .SetCell B1 "=A1+1", .GetValue B1, .ClearCell A1]).GetText A1 = "" ∧
    (sheetAfter ParseFormula
      [.SetCell A1 "5", .SetCell B1 "=A1+1", .GetValue B1, .ClearCell A1]).GetText B1 = "=A1+1" ∧
    (sheetAfter ParseFormula
      [.SetCell A1 "5", .SetCell B1 "=A1+1", .GetValue B1, .ClearCell A1]).refsAt B1 = [A1] ∧
    (sheetAfter ParseFormula
      [.SetCell A1 "5", .SetCell B1 "=A1+1", .GetValue B1, .ClearCell A1]).cacheAt B1
      = some (.num 6) ∧
    (valueAndEvals
      ((sheetAfter ParseFormula
        [.SetCell A1 "5", .SetCell B1 "=A1+1", .GetValue B1, .ClearCell A1]).GetValue B1)).map
      (fun r => r.1) = some (.num 1) := by
  decide

/-- C11: `ClearCell` on a formula cell keeps the mirror incoming edges.  After
`SetCell(A1,"5")`, `SetCell(B1,"=A1")`, `ClearCell(A1)`, `ClearCell(B1)` no
cell is stored at `B1` and no stored cell reads `A1`, but `B1` is still in the
incoming set of `A1`; a further `ClearCell(A1)` leaves `A1` stored. -/
theorem C11_clear_keeps_mirror_edges :
    completes ParseFormula
      [.SetCell A1 "5", .SetCell B1 "=A1", .ClearCell A1, .ClearCell B1, .ClearCell A1] = true ∧
    (sheetAfter ParseFormula
      [.SetCell A1 "5", .SetCell B1 "=A1", .ClearCell A1, .ClearCell B1]).stored B1 = false ∧
    (sheetAfter ParseFormula
      [.SetCell A1 "5", .SetCell B1 "=A1", .ClearCell A1, .ClearCell B1]).incoming A1 = [B1] ∧
    (sheetAfter ParseFormula
      [.SetCell A1 "5", .SetCell B1 "=A1", .ClearCell A1, .ClearCell B1, .ClearCell A1]).stored A1
      = true ∧
    (sheetAfter ParseFormula
      [.SetCell A1 "5", .SetCell B1 "=A1", .ClearCell A1, .ClearCell B1, .ClearCell A1]).incoming A1
      = [B1] := by
  decide

/-- C13: `SetCell` on a position whose cell was removed by `ClearCell`
dereferences the reset pointer.  After `SetCell(A1,"x")`, `ClearCell(A1)` the
entry of `A1` holds no cell, and `SetCell(A1,"y")` neither returns nor raises:
it is undefined behaviour, and no text "y" is stored. -/
theorem C13_set_after_clear_dereferences_null :
    completes ParseFormula [.SetCell A1 "x", .ClearCell A1] = true ∧
    (sheetAfter ParseFormula [.SetCell A1 "x", .ClearCell A1]).stored A1 = false ∧
    ((sheetAfter ParseFormula [.SetCell A1 "x", .ClearCell A1]).SetCell ParseFormula A1 "y").isOk
      = false ∧
    ((sheetAfter ParseFormula [.SetCell A1 "x", .ClearCell A1]).SetCell ParseFormula A1 "y").isUb
      = true ∧
    completes ParseFormula [.SetCell A1 "x", .ClearCell A1, .SetCell A1 "y"] = false := by
  decide

/-- C14: re-setting the printed text of a stored cell can fail.  After
`SetCell(A1,"x")`, `SetCell(B1,"=A1")`, `ClearCell(B1)` the cell `A1` is
stored with text "x" and its incoming set names only the freed cell `B1`;
`SetCell(A1,"x")` then dereferences the freed `B1` during cache invalidation
and does not complete. -/
theorem C14_roundtrip_dereferences_freed_cell :
    completes ParseFormula [.SetCell A1 "x", .SetCell B1 "=A1", .ClearCell B1] = true ∧
    (sheetAfter ParseFormula [.SetCell A1 "x", .SetCell B1 "=A1", .ClearCell B1]).stored A1
      = true ∧
    (sheetAfter ParseFormula [.SetCell A1 "x", .SetCell B1 "=A1", .ClearCell B1]).GetText A1
      = "x" ∧
    (sheetAfter ParseFormula [.SetCell A1 "x", .SetCell B1 "=A1", .ClearCell B1]).incoming A1
      = [B1] ∧
    (sheetAfter ParseFormula [.SetCell A1 "x", .SetCell B1 "=A1", .ClearCell B1]).stored B1
      = false ∧
    ((sheetAfter ParseFormula [.SetCell A1 "x", .SetCell B1 "=A1", .ClearCell B1]).SetCell
      ParseFormula A1 "x").isOk = false ∧
    ((sheetAfter ParseFormula [.SetCell A1 "x", .SetCell B1 "=A1", .ClearCell B1]).SetCell
      ParseFormula A1 "x").isUb = true := by
  decide

/-! ## Storage lemmas -/

theorem findSlot_setSlot (l : List (Position × Option Cell)) (p : Position) (v : Option Cell)
    (q : Position) :
    findSlot (setSlot l p v) q = if q = p then (findSlot l p).map (fun _ => v) else findSlot l q := by
  induction l with
  | nil => simp [setSlot, findSlot]
  | cons e rest ih =>
    obtain ⟨k, w⟩ := e
    by_cases hk : k = p
    · subst hk
      by_cases hq : q = k
      · subst hq; simp [setSlot, findSlot]
      · have hq2 : ¬ k = q := fun h => hq h.symm
        simp [setSlot, findSlot, hq, hq2]
    · by_cases hq : q = p
      · subst hq
        simp [setSlot, findSlot, hk, ih]
      · by_cases hkq : k = q
        · simp [setSlot, findSlot, hk, hkq, hq]
        · simp [setSlot, findSlot, hk, hkq, hq, ih]

theorem findSlot_append (l l2 : List (Position × Option Cell)) (q : Position) :
    findSlot (l ++ l2) q = match findSlot l q with
      | some v => some v
      | none => findSlot l2 q := by
  induction l with
  | nil => simp [findSlot]
  | cons e rest ih =>
    obtain ⟨k, w⟩ := e
    by_cases hk : k = q
    · simp [findSlot, hk]
    · simp [findSlot, hk, ih]

theorem setSlot_keys (l : List (Position × Option Cell)) (p : Position) (v : Option Cell) :
    (setSlot l p v).map Prod.fst = l.map Prod.fst := by
  induction l with
  | nil => simp [setSlot]
  | cons e rest ih =>
    obtain ⟨k, w⟩ := e
    by_cases hk : k = p
    · simp [setSlot, hk]
    · simp [setSlot, hk, ih]

theorem find_store (s : Sheet) (p : CellPtr) (c : Cell) (q : Position) :
    (s.store p c).find q = if q = p then (s.find p).map (fun _ => some c) else s.find q := by
  simp [Sheet.store, Sheet.find, findSlot_setSlot]

theorem find_reset (s : Sheet) (p : CellPtr) (q : Position) :
    (s.reset p).find q = if q = p then (s.find p).map (fun _ => none) else s.find q := by
  simp [Sheet.reset, Sheet.find, findSlot_setSlot]

theorem find_emplace (s : Sheet) (p : Position) (q : Position) (h : s.find p = none) :
    (s.emplace p).find q = if q = p then some (some Cell.new) else s.find q := by
  simp only [Sheet.emplace, Sheet.find, findSlot_append]
  by_cases hq : q = p
  · subst hq
    simp only [Sheet.find] at h
    simp [h, findSlot]
  · have : ¬ p = q := fun h => hq h.symm
    simp only [hq, if_false]
    cases hf : findSlot s.cells q <;> simp [findSlot, this]

theorem deref_of_find {s : Sheet} {p : Position} {c : Cell} (h : s.find p = some (some c)) :
    s.deref p = some c := by
  simp [Sheet.deref, h]

theorem find_of_deref {s : Sheet} {p : Position} {c : Cell} (h : s.deref p = some c) :
    s.find p = some (some c) := by
  unfold Sheet.deref at h
  split at h
  · rename_i c1 hc; simp at h; subst h; exact hc
  · simp at h

theorem deref_store_same {s : Sheet} {p : CellPtr} {c0 : Cell} (c : Cell)
    (h : s.deref p = some c0) : (s.store p c).deref p = some c := by
  apply deref_of_find
  rw [find_store, find_of_deref h]; simp

theorem deref_store_other (s : Sheet) {p q : CellPtr} (c : Cell) (h : q ≠ p) :
    (s.store p c).deref q = s.deref q := by
  simp [Sheet.deref, find_store, h]

theorem deref_store {s : Sheet} {p : CellPtr} {c0 : Cell} (c : Cell) (q : CellPtr)
    (h : s.deref p = some c0) : (s.store p c).deref q = if q = p then some c else s.deref q := by
  by_cases hq : q = p
  · subst hq; simp [deref_store_same c h]
  · simp [hq, deref_store_other s c hq]

theorem deref_emplace (s : Sheet) (p q : Position) (h : s.find p = none) :
    (s.emplace p).deref q = if q = p then some Cell.new else s.deref q := by
  unfold Sheet.deref
  rw [find_emplace s p q h]
  by_cases hq : q = p <;> simp [hq]

theorem deref_reset (s : Sheet) (p q : Position) :
    (s.reset p).deref q = if q = p then none else s.deref q := by
  unfold Sheet.deref
  rw [find_reset]
  by_cases hq : q = p
  · simp [hq]
  · simp [hq]

theorem modify_ok {s s1 : Sheet} {p : CellPtr} {f : Cell → Cell} (h : s.modify p f = .ok s1) :
    ∃ c, s.deref p = some c ∧ s1 = s.store p (f c) := by
  unfold Sheet.modify at h
  split at h
  · rename_i c hc
    refine ⟨c, hc, ?_⟩
    injection h with h; exact h.symm
  · cases h

theorem modify_not_raised {s s1 : Sheet} {p : CellPtr} {f : Cell → Cell} {e : Exn}
    (h : s.modify p f = .raised e s1) : False := by
  unfold Sheet.modify at h
  split at h <;> cases h

/-! ## Outcome lemmas -/

theorem bind_ok {α β : Type} {o : Outcome α} {k : α → Outcome β} {b : β}
    (h : o.bind k = .ok b) : ∃ a, o = .ok a ∧ k a = .ok b := by
  cases o with
  | ok a => exact ⟨a, rfl, h⟩
  | raised e s => cases h
  | ub => cases h
  | outOfFuel => cases h

theorem bind_raised {α β : Type} {o : Outcome α} {k : α → Outcome β} {e : Exn} {s1 : Sheet}
    (h : o.bind k = .raised e s1) : o = .raised e s1 ∨ ∃ a, o = .ok a ∧ k a = .raised e s1 := by
  cases o with
  | ok a => exact Or.inr ⟨a, rfl, h⟩
  | raised e s => left; simpa [Outcome.bind] using h
  | ub => cases h
  | outOfFuel => cases h

theorem forEach_ok_invariant {α : Type} {f : Sheet → α → Outcome Sheet} (I : Sheet → Prop)
    {l : List α} (hf : ∀ st x st1, x ∈ l → I st → f st x = .ok st1 → I st1) :
    ∀ {s s1 : Sheet}, I s → forEach f l s = .ok s1 → I s1 := by
  induction l with
  | nil => intro s s1 hs h; simp [forEach] at h; subst h; exact hs
  | cons x rest ih =>
    intro s s1 hs h
    simp only [forEach] at h
    split at h
    · rename_i st hst
      exact ih (fun st x st1 hx => hf st x st1 (List.mem_cons_of_mem _ hx))
        (hf s x st (List.mem_cons_self _ _) hs hst) h
    · cases h
    · cases h
    · cases h

theorem forEach_raised {α : Type} {f : Sheet → α → Outcome Sheet} {l : List α} :
    ∀ {s : Sheet} {e : Exn} {s1 : Sheet}, forEach f l s = .raised e s1 →
      ∃ st x, x ∈ l ∧ f st x = .raised e s1 := by
  induction l with
  | nil => intro s e s1 h; simp [forEach] at h
  | cons x rest ih =>
    intro s e s1 h
    simp only [forEach] at h
    split at h
    · obtain ⟨st, y, hy, hf⟩ := ih h
      exact ⟨st, y, List.mem_cons_of_mem _ hy, hf⟩
    · rename_i e2 s2 hst
      injection h with h1 h2
      subst h1; subst h2
      exact ⟨s, x, List.mem_cons_self _ _, hst⟩
    · cases h
    · cases h

theorem icr_not_raised : ∀ (d : Nat) (s : Sheet) (p : CellPtr) (b : Bool) (e : Exn) (s1 : Sheet),
    Cell.InvalidateCacheRecursive d s p b ≠ .raised e s1 := by
  intro d
  induction d with
  | zero => intro s p b e s1 h; simp [Cell.InvalidateCacheRecursive] at h
  | succ d ih =>
    intro s p b e s1 h
    simp only [Cell.InvalidateCacheRecursive] at h
    split at h
    · cases h
    · split at h
      · obtain ⟨st, x, _, hx⟩ := forEach_raised h
        exact ih _ _ _ _ _ hx
      · cases h

theorem searchLoop_not_raised (s : Sheet) (referenced : List (Option CellPtr)) :
    ∀ (fuel : Nat) (visited stack : List CellPtr) (e : Exn) (s1 : Sheet),
      searchLoop s referenced fuel visited stack ≠ .raised e s1 := by
  intro fuel
  induction fuel with
  | zero => intro v st e s1 h; simp [searchLoop] at h
  | succ n ih =>
    intro v st e s1 h
    cases st with
    | nil => simp [searchLoop] at h
    | cons c rest =>
      simp only [searchLoop] at h
      split at h
      · cases h
      · split at h
        · cases h
        · exact ih _ _ _ _ h

theorem GetCellPtr_raised {s : Sheet} {pos : Position} {e : Exn} {s1 : Sheet}
    (h : s.GetCellPtr pos = .raised e s1) : e = .InvalidPosition ∧ s1 = s ∧ pos.IsValid = false := by
  unfold Sheet.GetCellPtr at h
  split at h
  · rename_i hv
    injection h with h1 h2
    simp at hv
    exact ⟨h1.symm, h2.symm, hv⟩
  · split at h <;> cases h

theorem collectReferenced_raised {s : Sheet} : ∀ {refs : List Position} {e : Exn} {s1 : Sheet},
    collectReferenced s refs = .raised e s1 → e = .InvalidPosition ∧ s1 = s := by
  intro refs
  induction refs with
  | nil => intro e s1 h; simp [collectReferenced] at h
  | cons q rest ih =>
    intro e s1 h
    simp only [collectReferenced] at h
    rcases bind_raised h with h1 | ⟨a, _, h2⟩
    · exact ⟨(GetCellPtr_raised h1).1, (GetCellPtr_raised h1).2.1⟩
    · rcases bind_raised h2 with h3 | ⟨b, _, h4⟩
      · exact ih h3
      · cases h4

theorem search_raised {s : Sheet} {this : CellPtr} {impl : Impl} {e : Exn} {s1 : Sheet}
    (h : Cell.SearchCircularDependency s this impl = .raised e s1) :
    e = .InvalidPosition ∧ s1 = s := by
  unfold Cell.SearchCircularDependency at h
  split at h
  · cases h
  · rcases bind_raised h with h1 | ⟨a, _, h2⟩
    · exact collectReferenced_raised h1
    · exact absurd h2 (searchLoop_not_raised _ _ _ _ _ _ _)

theorem unlinkAll_not_raised {this : CellPtr} {s : Sheet} {e : Exn} {s1 : Sheet} :
    Cell.unlinkAll this s ≠ .raised e s1 := by
  intro h
  unfold Cell.unlinkAll at h
  split at h
  · cases h
  · obtain ⟨st, x, _, hx⟩ := forEach_raised h
    exact modify_not_raised hx

theorem linkRef_raised {sc : Sheet → Position → String → Outcome Sheet}
    (hsc : ∀ st pos e st1, sc st pos "" = .raised e st1 → e = .InvalidPosition)
    {this : CellPtr} {s : Sheet} {pos : Position} {e : Exn} {s1 : Sheet}
    (h : Cell.linkRef sc this s pos = .raised e s1) : e = .InvalidPosition := by
  unfold Cell.linkRef at h
  rcases bind_raised h with h1 | ⟨a, _, h2⟩
  · exact (GetCellPtr_raised h1).1
  · rcases bind_raised h2 with h3 | ⟨b, _, h4⟩
    · split at h3
      · cases h3
      · exact hsc _ _ _ _ h3
    · rcases bind_raised h4 with h5 | ⟨c, _, h6⟩
      · exact (GetCellPtr_raised h5).1
      · split at h6
        · cases h6
        · rcases bind_raised h6 with h7 | ⟨d, _, h8⟩
          · exact (modify_not_raised h7).elim
          · exact (modify_not_raised h8).elim

theorem commit_raised {sc : Sheet → Position → String → Outcome Sheet}
    (hsc : ∀ st pos e st1, sc st pos "" = .raised e st1 → e = .InvalidPosition)
    {s : Sheet} {this : CellPtr} {impl : Impl} {e : Exn} {s1 : Sheet}
    (h : Cell.commit sc s this impl = .raised e s1) : e = .InvalidPosition := by
  unfold Cell.commit at h
  rcases bind_raised h with h0 | ⟨d, _, h8⟩
  · unfold Cell.relink at h0
    rcases bind_raised h0 with h1 | ⟨a, _, h2⟩
    · exact (modify_not_raised h1).elim
    · rcases bind_raised h2 with h3 | ⟨b, _, h4⟩
      · exact (unlinkAll_not_raised h3).elim
      · rcases bind_raised h4 with h5 | ⟨c, _, h7⟩
        · exact (modify_not_raised h5).elim
        · obtain ⟨st, x, _, hx⟩ := forEach_raised h7
          exact linkRef_raised hsc hx
  · exact absurd h8 (icr_not_raised _ _ _ _ _ _)

theorem Set_raised {pf : Parser} {sc : Sheet → Position → String → Outcome Sheet}
    (hsc : ∀ st pos e st1, sc st pos "" = .raised e st1 → e = .InvalidPosition)
    {s : Sheet} {this : CellPtr} {text : String} {e : Exn} {s1 : Sheet}
    (h : Cell.Set pf sc s this text = .raised e s1) :
    e = .InvalidPosition ∨ s1 = s := by
  unfold Cell.Set at h
  split at h
  · injection h with _ h2; exact Or.inr h2.symm
  · rcases bind_raised h with h1 | ⟨a, _, h2⟩
    · exact Or.inl (search_raised h1).1
    · split at h2
      · injection h2 with _ h3; exact Or.inr h3.symm
      · exact Or.inl (commit_raised hsc h2)

theorem newImpl_empty (pf : Parser) : Cell.newImpl pf "" = some .empty := by
  rfl

theorem SetCellN_empty_raised (pf : Parser) : ∀ (n : Nat) (st : Sheet) (pos : Position) (e : Exn)
    (st1 : Sheet), Sheet.SetCellN pf n st pos "" = .raised e st1 → e = .InvalidPosition := by
  intro n
  induction n with
  | zero => intro st pos e st1 h; simp [Sheet.SetCellN] at h
  | succ n ih =>
    intro st pos e st1 h
    simp only [Sheet.SetCellN] at h
    split at h
    · injection h with h1 _; exact h1.symm
    · split at h
      · simp only [Cell.Set, newImpl_empty, Cell.SearchCircularDependency,
          Impl.GetReferencedCells, List.isEmpty, if_true, Outcome.bind] at h
        exact commit_raised ih (by simpa using h)
      · cases h
      · simp only [Cell.Set, newImpl_empty, Cell.SearchCircularDependency,
          Impl.GetReferencedCells, List.isEmpty, if_true, Outcome.bind] at h
        exact commit_raised ih (by simpa using h)

/-- What a raising `SetCell` leaves behind: the sheet itself, or the sheet with a
fresh cell emplaced at the position, unless the exception is
`InvalidPositionException`. -/
theorem SetCell_raised {pf : Parser} {s : Sheet} {pos : Position} {text : String} {e : Exn}
    {s1 : Sheet} (h : s.SetCell pf pos text = .raised e s1) :
    e = .InvalidPosition ∨ s1 = s ∨ (s.find pos = none ∧ s1 = s.emplace pos) := by
  unfold Sheet.SetCell at h
  simp only [Sheet.SetCellN] at h
  split at h
  · injection h with h1 _; exact Or.inl h1.symm
  · split at h
    · rename_i hf
      rcases Set_raised (SetCellN_empty_raised pf 1) h with h1 | h1
      · exact Or.inl h1
      · exact Or.inr (Or.inr ⟨hf, h1⟩)
    · cases h
    · rcases Set_raised (SetCellN_empty_raised pf 1) h with h1 | h1
      · exact Or.inl h1
      · exact Or.inr (Or.inl h1)

/-- C18: for a position that is not valid, `SetCell`, `ClearCell` and `GetCell`
each raise `InvalidPositionException` and leave the sheet as it was (the
sheet carried by the raised outcome is the sheet before the call). -/
theorem C18_invalid_position_raises (pf : Parser) (s : Sheet) (pos : Position) (text : String)
    (h : pos.IsValid = false) :
    s.SetCell pf pos text = .raised .InvalidPosition s ∧
    s.ClearCell pos = .raised .InvalidPosition s ∧
    s.GetCell pos = .raised .InvalidPosition s := by
  refine ⟨?_, ?_, ?_⟩
  · simp [Sheet.SetCell, Sheet.SetCellN, h]
  · simp [Sheet.ClearCell, h]
  · simp [Sheet.GetCell, Sheet.GetCellPtr, h]

/-- C18, witness: the position with row -1 is not valid; the three calls on
the sheet holding `A1 = "x"` raise and leave it unchanged. -/
theorem C18_invalid_position_raises_witness :
    (Position.mk (-1) 0).IsValid = false ∧
    (sheetAfter ParseFormula [.SetCell A1 "x"]).SetCell ParseFormula ⟨-1, 0⟩ "y"
      = .raised .InvalidPosition (sheetAfter ParseFormula [.SetCell A1 "x"]) ∧
    (sheetAfter ParseFormula [.SetCell A1 "x"]).ClearCell ⟨-1, 0⟩
      = .raised .InvalidPosition (sheetAfter ParseFormula [.SetCell A1 "x"]) ∧
    (sheetAfter ParseFormula [.SetCell A1 "x"]).GetCell ⟨-1, 0⟩
      = .raised .InvalidPosition (sheetAfter ParseFormula [.SetCell A1 "x"]) :=
  ⟨by decide, C18_invalid_position_raises ParseFormula _ ⟨-1, 0⟩ "y" (by decide)⟩

/-- C3: when `SetCell(pos, text)` raises a parse failure or a circular
dependency, every cell stored before the call is still stored and is the
same cell object state (representation, cache and both edge sets), and at
every position the text and the outgoing and incoming edge sets read as
before the call. -/
theorem C3_failed_set_keeps_cells (pf : Parser) (s s1 : Sheet) (pos : Position) (text : String)
    (e : Exn) (h : s.SetCell pf pos text = .raised e s1)
    (he : e = .FormulaException ∨ e = .CircularDependency) (p : Position) :
    (s.stored p = true → s1.stored p = true ∧ s1.deref p = s.deref p) ∧
    s1.GetText p = s.GetText p ∧ s1.outgoing p = s.outgoing p ∧ s1.incoming p = s.incoming p := by
  rcases SetCell_raised h with h1 | h1 | ⟨hf, h1⟩
  · rcases he with he | he <;> (rw [he] at h1; cases h1)
  · subst h1; simp
  · subst h1
    have hd : s.deref pos = none := by simp [Sheet.deref, hf]
    by_cases hp : p = pos
    · subst hp
      simp [Sheet.stored, Sheet.GetText, Sheet.outgoing, Sheet.incoming, deref_emplace s p p hf, hd,
        Cell.new, Impl.GetText]
    · simp [Sheet.stored, Sheet.GetText, Sheet.outgoing, Sheet.incoming, deref_emplace s pos p hf, hp]

/-- C3, witness: with `B1 = "=A1"` stored, `SetCell(C1,"=C1")` raises
`CircularDependencyException` and leaves a fresh cell at `C1`; the cell `B1`
is still stored, and its state, text and edge sets are what they were. -/
theorem C3_failed_set_keeps_cells_witness :
    (sheetAfter ParseFormula [.SetCell B1 "=A1"]).SetCell ParseFormula C1 "=C1"
      = .raised .CircularDependency ((sheetAfter ParseFormula [.SetCell B1 "=A1"]).emplace C1) ∧
    (((sheetAfter ParseFormula [.SetCell B1 "=A1"]).stored B1 = true →
        ((sheetAfter ParseFormula [.SetCell B1 "=A1"]).emplace C1).stored B1 = true ∧
        ((sheetAfter ParseFormula [.SetCell B1 "=A1"]).emplace C1).deref B1
          = (sheetAfter ParseFormula [.SetCell B1 "=A1"]).deref B1) ∧
      ((sheetAfter ParseFormula [.SetCell B1 "=A1"]).emplace C1).GetText B1
        = (sheetAfter ParseFormula [.SetCell B1 "=A1"]).GetText B1 ∧
      ((sheetAfter ParseFormula [.SetCell B1 "=A1"]).emplace C1).outgoing B1
        = (sheetAfter ParseFormula [.SetCell B1 "=A1"]).outgoing B1 ∧
      ((sheetAfter ParseFormula [.SetCell B1 "=A1"]).emplace C1).incoming B1
        = (sheetAfter ParseFormula [.SetCell B1 "=A1"]).incoming B1) :=
  ⟨by rfl, C3_failed_set_keeps_cells ParseFormula _ _ C1 "=C1" .CircularDependency (by rfl)
    (Or.inr rfl) B1⟩

theorem TextImpl_GetValue_eq (t : String) :
    TextImpl.GetValue t
      = if t.data.head? = some ESCAPE_SIGN then String.mk (t.data.drop 1) else t := by
  unfold TextImpl.GetValue
  cases hd : t.data with
  | nil => simp
  | cons c rest =>
    by_cases hc : c = ESCAPE_SIGN <;> simp [hc]

theorem newImpl_eq (pf : Parser) (text : String) :
    Cell.newImpl pf text
      = if text.length = 0 then some .empty
        else if text.data.head? = some FORMULA_SIGN ∧ 1 < text.length then
          (pf (String.mk (text.data.drop 1))).map (fun f => Impl.formula f none)
        else some (.text text) := by
  unfold Cell.newImpl
  have hl : text.length = text.data.length := rfl
  cases hd : text.data with
  | nil => simp [hl, hd]
  | cons c rest =>
    have h1 : ¬ text.length = 0 := by simp [hl, hd]
    have h2 : (1 < text.length) ↔ rest ≠ [] := by
      simp [hl, hd]
      exact List.length_pos
    simp only [h1, if_false, List.head?, List.drop, h2, Option.some.injEq]

/-! ## The search loop -/

theorem mem_insertSet {x y : CellPtr} {l : List CellPtr} : y ∈ insertSet x l ↔ y = x ∨ y ∈ l := by
  unfold insertSet
  by_cases h : x ∈ l
  · simp only [h, if_true]
    constructor
    · exact Or.inr
    · rintro (h1 | h1)
      · subst h1; exact h
      · exact h1
  · simp only [h, if_false, List.mem_append, List.mem_singleton]
    tauto

theorem insertSet_of_mem {x : CellPtr} {l : List CellPtr} (h : x ∈ l) : insertSet x l = l := by
  simp [insertSet, h]

theorem mem_eraseSet {x y : CellPtr} {l : List CellPtr} : y ∈ eraseSet x l ↔ y ∈ l ∧ y ≠ x := by
  simp [eraseSet]

theorem unvisitedWeight_insert_le (visited : List CellPtr) (k : CellPtr)
    (l : List (Position × Option Cell)) :
    unvisitedWeight (insertSet k visited) l ≤ unvisitedWeight visited l := by
  induction l with
  | nil => simp [unvisitedWeight]
  | cons e rest ih =>
    obtain ⟨k1, v⟩ := e
    simp only [unvisitedWeight]
    by_cases h1 : k1 ∈ visited
    · have : k1 ∈ insertSet k visited := mem_insertSet.2 (Or.inr h1)
      simp only [h1, this, if_true]; omega
    · by_cases h2 : k1 ∈ insertSet k visited
      · simp only [h2, if_true]; omega
      · simp only [h1, h2, if_false]; omega

theorem unvisitedWeight_visit (visited : List CellPtr) (k : CellPtr) (v : Option Cell)
    (hk : k ∉ visited) (l : List (Position × Option Cell)) (hf : findSlot l k = some v) :
    unvisitedWeight (insertSet k visited) l + slotWeight v ≤ unvisitedWeight visited l := by
  induction l with
  | nil => simp [findSlot] at hf
  | cons e rest ih =>
    obtain ⟨k1, v1⟩ := e
    simp only [unvisitedWeight]
    by_cases hk1 : k1 = k
    · subst hk1
      simp only [findSlot, if_true, Option.some.injEq] at hf
      subst hf
      have h2 : k1 ∈ insertSet k1 visited := mem_insertSet.2 (Or.inl rfl)
      have := unvisitedWeight_insert_le visited k1 rest
      simp only [hk, h2, if_true, if_false]; omega
    · simp only [findSlot, hk1, if_false] at hf
      have := ih hf
      by_cases h1 : k1 ∈ visited
      · have h2 : k1 ∈ insertSet k visited := mem_insertSet.2 (Or.inr h1)
        simp only [h1, h2, if_true]; omega
      · have h2 : k1 ∉ insertSet k visited := by
          intro h; rcases mem_insertSet.1 h with h | h
          · exact hk1 h
          · exact h1 h
        simp only [h1, h2, if_false]; omega

theorem unvisitedWeight_nil (l : List (Position × Option Cell)) :
    unvisitedWeight [] l = (l.map (fun e => slotWeight e.2)).sum := by
  induction l with
  | nil => rfl
  | cons e rest ih =>
    obtain ⟨k1, v1⟩ := e
    simp [unvisitedWeight, ih]

theorem stackOrdered_mono {s : Sheet} {V V2 : List CellPtr} (hV : ∀ y, y ∈ V → y ∈ V2) :
    ∀ {stack A A2 : List CellPtr}, (∀ y, y ∈ A → y ∈ A2 ∨ y ∈ V2) →
      (∀ v ∈ stack, v ∈ V2 → v ∉ V → ∀ c, s.deref v = some c → ∀ y ∈ c.l_nodes, y ∈ V2 ∨ y ∈ A2) →
      stackOrdered s V A stack → stackOrdered s V2 A2 stack := by
  intro stack
  induction stack with
  | nil => intro A A2 _ _ _; trivial
  | cons v below ih =>
    intro A A2 hA hnew h
    obtain ⟨h1, h2⟩ := h
    refine ⟨?_, ?_⟩
    · intro hv c hc y hy
      by_cases hvV : v ∈ V
      · rcases h1 hvV c hc y hy with h3 | h3
        · exact Or.inl (hV y h3)
        · rcases hA y h3 with h4 | h4
          · exact Or.inr h4
          · exact Or.inl h4
      · exact hnew v (List.mem_cons_self _ _) hv hvV c hc y hy
    · apply ih _ _ h2
      · intro y hy
        rcases List.mem_cons.1 hy with h3 | h3
        · exact Or.inl (h3 ▸ List.mem_cons_self _ _)
        · rcases hA y h3 with h4 | h4
          · exact Or.inl (List.mem_cons_of_mem _ h4)
          · exact Or.inr h4
      · intro w hw hw2 hwV c hc y hy
        rcases hnew w (List.mem_cons_of_mem _ hw) hw2 hwV c hc y hy with h3 | h3
        · exact Or.inl h3
        · exact Or.inr (List.mem_cons_of_mem _ h3)

theorem stackOrdered_push {s : Sheet} {V : List CellPtr} {rest : List CellPtr} :
    ∀ {P A : List CellPtr}, (∀ v ∈ P, v ∉ V) → stackOrdered s V (P.reverse ++ A) rest →
      stackOrdered s V A (P ++ rest) := by
  intro P
  induction P with
  | nil => intro A _ h; simpa using h
  | cons v P2 ih =>
    intro A hP h
    refine ⟨fun hv => absurd hv (hP v (List.mem_cons_self _ _)), ?_⟩
    apply ih (fun w hw => hP w (List.mem_cons_of_mem _ hw))
    simpa using h

theorem searchLoop_terminates (s : Sheet) (R : List (Option CellPtr)) :
    ∀ (fuel : Nat) (V stack : List CellPtr), stackOrdered s V [] stack →
      stack.length + unvisitedWeight V s.cells < fuel →
      searchLoop s R fuel V stack ≠ .outOfFuel := by
  intro fuel
  induction fuel with
  | zero => intro V stack _ h; omega
  | succ n ih =>
    intro V stack hK hm
    cases stack with
    | nil => simp [searchLoop]
    | cons current rest =>
      simp only [searchLoop]
      split
      · simp
      · cases hd : s.deref current with
        | none => simp
        | some c =>
          simp only
          obtain ⟨hK1, hK2⟩ := hK
          by_cases hcur : current ∈ V
          · have hall : ∀ y ∈ c.l_nodes, y ∈ V := by
              intro y hy
              rcases hK1 hcur c hd y hy with h | h
              · exact h
              · simp at h
            have hfil : c.l_nodes.filter (fun x => decide (x ∉ insertSet current V)) = [] := by
              rw [insertSet_of_mem hcur, List.filter_eq_nil_iff]
              intro y hy
              simp [hall y hy]
            rw [hfil, insertSet_of_mem hcur]
            apply ih
            · exact stackOrdered_mono (fun y h => h)
                (fun y hy => by
                  rcases List.mem_singleton.1 hy with h
                  subst h; exact Or.inr hcur)
                (fun v _ hv hv2 => absurd hv hv2) hK2
            · simp only [List.reverse_nil, List.nil_append, List.length_cons] at hm ⊢
              omega
          · apply ih
            · have hP : ∀ v ∈ (c.l_nodes.filter (fun x => decide (x ∉ insertSet current V))).reverse,
                  v ∉ insertSet current V := by
                intro v hv
                have := (List.mem_filter.1 (List.mem_reverse.1 hv)).2
                simpa using this
              apply stackOrdered_push hP
              rw [List.reverse_reverse, List.append_nil]
              apply stackOrdered_mono (fun y h => mem_insertSet.2 (Or.inr h)) _ _ hK2
              · intro y hy
                rcases List.mem_singleton.1 hy with h
                subst h
                exact Or.inr (mem_insertSet.2 (Or.inl rfl))
              · intro v _ hv hv2 c2 hc2 y hy
                rcases mem_insertSet.1 hv with h | h
                · subst h
                  rw [hd] at hc2
                  injection hc2 with hc2
                  subst hc2
                  by_cases hy2 : y ∈ insertSet v V
                  · exact Or.inl hy2
                  · right
                    exact List.mem_filter.2 ⟨hy, by simpa using hy2⟩
                · exact absurd h hv2
            · have h1 := unvisitedWeight_visit V current (some c) hcur s.cells
                (find_of_deref hd)
              have h2 : (c.l_nodes.filter (fun x => decide (x ∉ insertSet current V))).length
                  ≤ c.l_nodes.length := List.length_filter_le _ _
              simp only [slotWeight] at h1
              simp only [List.length_append, List.length_reverse, List.length_cons] at hm ⊢
              omega

theorem searchLoop_sound (s : Sheet) (R : List (Option CellPtr)) (this : CellPtr) :
    ∀ (fuel : Nat) (V stack : List CellPtr), (∀ x ∈ stack, DependsOn s this x) →
      searchLoop s R fuel V stack = .ok true → ∃ y, DependsOn s this y ∧ some y ∈ R := by
  intro fuel
  induction fuel with
  | zero => intro V stack _ h; simp [searchLoop] at h
  | succ n ih =>
    intro V stack hst h
    cases stack with
    | nil => simp [searchLoop] at h
    | cons current rest =>
      simp only [searchLoop] at h
      split at h
      · rename_i hhit
        exact ⟨current, hst current (List.mem_cons_self _ _), hhit⟩
      · split at h
        · cases h
        · rename_i c hd
          apply ih _ _ _ h
          intro x hx
          rcases List.mem_append.1 hx with h1 | h1
          · have hx1 := (List.mem_filter.1 (List.mem_reverse.1 h1)).1
            exact Relation.ReflTransGen.tail (hst current (List.mem_cons_self _ _)) ⟨c, hd, hx1⟩
          · exact hst x (List.mem_cons_of_mem _ h1)

theorem searchLoop_complete (s : Sheet) (R : List (Option CellPtr)) :
    ∀ (fuel : Nat) (V stack : List CellPtr),
      (∀ v ∈ V, some v ∉ R ∧ ∃ c, s.deref v = some c ∧ ∀ y ∈ c.l_nodes, y ∈ V ∨ y ∈ stack) →
      searchLoop s R fuel V stack = .ok false →
      ∃ V2 : List CellPtr, (∀ v, v ∈ V ∨ v ∈ stack → v ∈ V2) ∧
        ∀ v ∈ V2, some v ∉ R ∧ ∃ c, s.deref v = some c ∧ ∀ y ∈ c.l_nodes, y ∈ V2 := by
  intro fuel
  induction fuel with
  | zero => intro V stack _ h; simp [searchLoop] at h
  | succ n ih =>
    intro V stack hV h
    cases stack with
    | nil =>
      refine ⟨V, fun v hv => ?_, fun v hv => ?_⟩
      · rcases hv with h1 | h1
        · exact h1
        · simp at h1
      · obtain ⟨h1, c, hc, h2⟩ := hV v hv
        refine ⟨h1, c, hc, fun y hy => ?_⟩
        rcases h2 y hy with h3 | h3
        · exact h3
        · simp at h3
    | cons current rest =>
      simp only [searchLoop] at h
      split at h
      · cases h
      · rename_i hhit
        split at h
        · cases h
        · rename_i c hd
          obtain ⟨V2, hsub, hclosed⟩ := ih _ _ (by
            intro v hv
            rcases mem_insertSet.1 hv with h1 | h1
            · subst h1
              refine ⟨hhit, c, hd, fun y hy => ?_⟩
              by_cases hy2 : y ∈ insertSet v V
              · exact Or.inl hy2
              · right
                apply List.mem_append_left
                exact List.mem_reverse.2 (List.mem_filter.2 ⟨hy, by simpa using hy2⟩)
            · obtain ⟨h2, c2, hc2, h3⟩ := hV v h1
              refine ⟨h2, c2, hc2, fun y hy => ?_⟩
              rcases h3 y hy with h4 | h4
              · exact Or.inl (mem_insertSet.2 (Or.inr h4))
              · rcases List.mem_cons.1 h4 with h5 | h5
                · exact Or.inl (mem_insertSet.2 (Or.inl h5))
                · exact Or.inr (List.mem_append_right _ h5)) h
          refine ⟨V2, fun v hv => ?_, hclosed⟩
          rcases hv with h1 | h1
          · exact hsub v (Or.inl (mem_insertSet.2 (Or.inr h1)))
          · rcases List.mem_cons.1 h1 with h2 | h2
            · exact hsub v (Or.inl (mem_insertSet.2 (Or.inl h2)))
            · exact hsub v (Or.inr (List.mem_append_right _ h2))

/-! ## The search as a whole -/

theorem stored_iff {s : Sheet} {p : Position} : s.stored p = true ↔ ∃ c, s.deref p = some c := by
  unfold Sheet.stored
  cases s.deref p <;> simp

theorem GetCellPtr_ok {s : Sheet} {pos : Position} {r : Option CellPtr}
    (h : s.GetCellPtr pos = .ok r) :
    pos.IsValid = true ∧ r = if s.stored pos then some pos else none := by
  unfold Sheet.GetCellPtr at h
  split at h
  · cases h
  · rename_i hv
    simp at hv
    refine ⟨hv, ?_⟩
    split at h <;> rename_i hf <;> injection h with h <;> subst h <;>
      simp [Sheet.stored, Sheet.deref, hf]

theorem GetCellPtr_valid {s : Sheet} {pos : Position} (h : pos.IsValid = true) :
    s.GetCellPtr pos = .ok (if s.stored pos then some pos else none) := by
  unfold Sheet.GetCellPtr
  simp only [h, Bool.not_true, Bool.false_eq_true, if_false]
  cases hf : s.find pos with
  | none => simp [Sheet.stored, Sheet.deref, hf]
  | some v =>
    cases v with
    | none => simp [Sheet.stored, Sheet.deref, hf]
    | some c => simp [Sheet.stored, Sheet.deref, hf]

theorem GetCellPtr_invalid {s : Sheet} {pos : Position} (h : pos.IsValid = false) :
    s.GetCellPtr pos = .raised .InvalidPosition s := by
  simp [Sheet.GetCellPtr, h]

theorem collectReferenced_ok {s : Sheet} : ∀ {refs : List Position} {R : List (Option CellPtr)},
    collectReferenced s refs = .ok R →
      (∀ q ∈ refs, q.IsValid = true) ∧ ∀ y, some y ∈ R ↔ y ∈ refs ∧ s.stored y = true := by
  intro refs
  induction refs with
  | nil =>
    intro R h
    simp only [collectReferenced] at h
    injection h with h; subst h
    simp
  | cons q rest ih =>
    intro R h
    simp only [collectReferenced] at h
    obtain ⟨r, hr, h1⟩ := bind_ok h
    obtain ⟨R2, hR2, h2⟩ := bind_ok h1
    injection h2 with h2; subst h2
    obtain ⟨hv, hr2⟩ := GetCellPtr_ok hr
    obtain ⟨ih1, ih2⟩ := ih hR2
    refine ⟨?_, ?_⟩
    · intro x hx
      rcases List.mem_cons.1 hx with h3 | h3
      · subst h3; exact hv
      · exact ih1 x h3
    · intro y
      simp only [List.mem_cons, ih2]
      subst hr2
      by_cases hs : s.stored q = true
      · simp only [hs, if_true, Option.some.injEq]
        constructor
        · rintro (h3 | h3)
          · subst h3; exact ⟨Or.inl rfl, hs⟩
          · exact ⟨Or.inr h3.1, h3.2⟩
        · rintro ⟨h3 | h3, h4⟩
          · exact Or.inl h3
          · exact Or.inr ⟨h3, h4⟩
      · simp only [hs, if_false]
        constructor
        · rintro (h3 | h3)
          · cases h3
          · exact ⟨Or.inr h3.1, h3.2⟩
        · rintro ⟨h3 | h3, h4⟩
          · subst h3; exact absurd h4 hs
          · exact Or.inr ⟨h3, h4⟩

theorem collectReferenced_total {s : Sheet} : ∀ {refs : List Position},
    (∀ q ∈ refs, q.IsValid = true) → ∃ R, collectReferenced s refs = .ok R := by
  intro refs
  induction refs with
  | nil => intro _; exact ⟨[], rfl⟩
  | cons q rest ih =>
    intro hv
    obtain ⟨R, hR⟩ := ih (fun x hx => hv x (List.mem_cons_of_mem _ hx))
    refine ⟨(if s.stored q then some q else none) :: R, ?_⟩
    simp only [collectReferenced, GetCellPtr_valid (hv q (List.mem_cons_self _ _)), hR,
      Outcome.bind]

theorem collectReferenced_ne_outOfFuel {s : Sheet} : ∀ {refs : List Position},
    collectReferenced s refs ≠ .outOfFuel ∧ collectReferenced s refs ≠ .ub := by
  intro refs
  induction refs with
  | nil => simp [collectReferenced]
  | cons q rest ih =>
    simp only [collectReferenced]
    by_cases hv : q.IsValid = true
    · rw [GetCellPtr_valid hv]
      simp only [Outcome.bind]
      cases hc : collectReferenced s rest with
      | ok R => simp
      | raised e s1 => simp
      | ub => exact absurd hc ih.2
      | outOfFuel => exact absurd hc ih.1
    · simp at hv
      rw [GetCellPtr_invalid hv]
      simp [Outcome.bind]

theorem search_ne_outOfFuel (s : Sheet) (this : CellPtr) (impl : Impl) :
    Cell.SearchCircularDependency s this impl ≠ .outOfFuel := by
  unfold Cell.SearchCircularDependency
  split
  · simp
  · cases hc : collectReferenced s impl.GetReferencedCells with
    | ok R =>
      simp only [Outcome.bind]
      apply searchLoop_terminates
      · exact ⟨fun h => by simp at h, trivial⟩
      · simp only [Sheet.searchFuel, unvisitedWeight_nil, List.length_singleton]
        omega
    | raised e s1 => simp [Outcome.bind]
    | ub => simp [Outcome.bind]
    | outOfFuel => exact absurd hc collectReferenced_ne_outOfFuel.1

theorem search_ok_true {s : Sheet} {this : CellPtr} {impl : Impl}
    (h : Cell.SearchCircularDependency s this impl = .ok true) :
    ∃ q ∈ impl.GetReferencedCells, s.stored q = true ∧ DependsOn s this q := by
  unfold Cell.SearchCircularDependency at h
  split at h
  · cases h
  · obtain ⟨R, hR, h1⟩ := bind_ok h
    obtain ⟨y, hy, hyR⟩ := searchLoop_sound s R this _ [] [this]
      (fun x hx => by
        rcases List.mem_singleton.1 hx with h2
        subst h2; exact Relation.ReflTransGen.refl) h1
    obtain ⟨h3, h4⟩ := ((collectReferenced_ok hR).2 y).1 hyR
    exact ⟨y, h3, h4, hy⟩

theorem search_ok_valid {s : Sheet} {this : CellPtr} {impl : Impl} {b : Bool}
    (h : Cell.SearchCircularDependency s this impl = .ok b) :
    ∀ q ∈ impl.GetReferencedCells, q.IsValid = true := by
  unfold Cell.SearchCircularDependency at h
  split at h
  · rename_i he
    intro q hq
    cases hr : impl.GetReferencedCells with
    | nil => rw [hr] at hq; simp at hq
    | cons a l => rw [hr] at he; simp at he
  · obtain ⟨R, hR, _⟩ := bind_ok h
    exact (collectReferenced_ok hR).1

theorem search_ok_false {s : Sheet} {this : CellPtr} {impl : Impl}
    (h : Cell.SearchCircularDependency s this impl = .ok false)
    (hne : impl.GetReferencedCells ≠ []) :
    ∀ y, DependsOn s this y →
      s.stored y = true ∧ y ∉ impl.GetReferencedCells := by
  unfold Cell.SearchCircularDependency at h
  split at h
  · rename_i he
    cases hr : impl.GetReferencedCells with
    | nil => exact absurd hr hne
    | cons a l => rw [hr] at he; simp at he
  · obtain ⟨R, hR, h1⟩ := bind_ok h
    obtain ⟨V2, hsub, hclosed⟩ := searchLoop_complete s R _ [] [this]
      (fun v hv => by simp at hv) h1
    have hall : ∀ y, DependsOn s this y → y ∈ V2 := by
      intro y hy
      induction hy with
      | refl => exact hsub this (Or.inr (List.mem_singleton.2 rfl))
      | tail _ hbc ih =>
        obtain ⟨c, hc, hmem⟩ := hbc
        obtain ⟨_, c2, hc2, hcl⟩ := hclosed _ ih
        rw [hc] at hc2
        injection hc2 with hc2
        subst hc2
        exact hcl _ hmem
    intro y hy
    obtain ⟨hnot, c, hc, _⟩ := hclosed y (hall y hy)
    have hst : s.stored y = true := stored_iff.2 ⟨c, hc⟩
    refine ⟨hst, fun hmem => hnot ?_⟩
    exact ((collectReferenced_ok hR).2 y).2 ⟨hmem, hst⟩

theorem searchLoop_ne_ub (s : Sheet) (R : List (Option CellPtr)) (this : CellPtr)
    (hlive : ∀ y, DependsOn s this y → s.stored y = true) :
    ∀ (fuel : Nat) (V stack : List CellPtr), (∀ x ∈ stack, DependsOn s this x) →
      searchLoop s R fuel V stack ≠ .ub := by
  intro fuel
  induction fuel with
  | zero => intro V stack _; simp [searchLoop]
  | succ n ih =>
    intro V stack hst
    cases stack with
    | nil => simp [searchLoop]
    | cons current rest =>
      simp only [searchLoop]
      split
      · simp
      · obtain ⟨c, hc⟩ := stored_iff.1 (hlive current (hst current (List.mem_cons_self _ _)))
        simp only [hc]
        apply ih
        intro x hx
        rcases List.mem_append.1 hx with h1 | h1
        · have hx1 := (List.mem_filter.1 (List.mem_reverse.1 h1)).1
          exact Relation.ReflTransGen.tail (hst current (List.mem_cons_self _ _)) ⟨c, hc, hx1⟩
        · exact hst x (List.mem_cons_of_mem _ h1)

theorem search_total {s : Sheet} {this : CellPtr} {impl : Impl}
    (hlive : ∀ y, DependsOn s this y → s.stored y = true)
    (hvalid : ∀ q ∈ impl.GetReferencedCells, q.IsValid = true) :
    ∃ b, Cell.SearchCircularDependency s this impl = .ok b := by
  cases h : Cell.SearchCircularDependency s this impl with
  | ok b => exact ⟨b, rfl⟩
  | raised e s1 =>
    exfalso
    unfold Cell.SearchCircularDependency at h
    split at h
    · cases h
    · obtain ⟨R, hR⟩ := collectReferenced_total (s := s) hvalid
      rw [hR] at h
      exact searchLoop_not_raised _ _ _ _ _ _ _ h
  | ub =>
    exfalso
    unfold Cell.SearchCircularDependency at h
    split at h
    · cases h
    · obtain ⟨R, hR⟩ := collectReferenced_total (s := s) hvalid
      rw [hR] at h
      exact searchLoop_ne_ub s R this hlive _ _ _ (fun x hx => by
        rcases List.mem_singleton.1 hx with h2
        subst h2; exact Relation.ReflTransGen.refl) h
  | outOfFuel => exact absurd h (search_ne_outOfFuel s this impl)

theorem findSlot_mem {l : List (Position × Option Cell)} {p : Position} {v : Option Cell}
    (h : findSlot l p = some v) : (p, v) ∈ l := by
  induction l with
  | nil => simp [findSlot] at h
  | cons e rest ih =>
    obtain ⟨k, w⟩ := e
    by_cases hk : k = p
    · simp only [findSlot, hk, if_true, Option.some.injEq] at h
      subst h; subst hk; exact List.mem_cons_self _ _
    · simp only [findSlot, hk, if_false] at h
      exact List.mem_cons_of_mem _ (ih h)

theorem setSlot_self {l : List (Position × Option Cell)} {p : Position} {v : Option Cell}
    (h : findSlot l p = some v) : setSlot l p v = l := by
  induction l with
  | nil => rfl
  | cons e rest ih =>
    obtain ⟨k, w⟩ := e
    by_cases hk : k = p
    · simp only [findSlot, hk, if_true, Option.some.injEq] at h
      simp [setSlot, hk, h]
    · simp only [findSlot, hk, if_false] at h
      simp [setSlot, hk, ih h]

theorem store_self {s : Sheet} {p : CellPtr} {c : Cell} (h : s.deref p = some c) :
    s.store p c = s := by
  have := setSlot_self (find_of_deref h)
  simp only [Sheet.store]
  rw [this]

theorem search_no_refs (s : Sheet) (this : CellPtr) (impl : Impl)
    (h : impl.GetReferencedCells = []) : Cell.SearchCircularDependency s this impl = .ok false := by
  simp [Cell.SearchCircularDependency, h]

theorem icr_succ (d : Nat) (s : Sheet) (this : CellPtr) (b : Bool) :
    Cell.InvalidateCacheRecursive (d + 1) s this b =
      match s.deref this with
      | none => .ub
      | some c =>
        if c.impl.IsCacheValid || b then
          forEach (fun st incoming => Cell.InvalidateCacheRecursive d st incoming false) c.l_nodes
            (s.store this { c with impl := c.impl.InvalidateCache })
        else .ok s := rfl

theorem commit_fresh (sc : Sheet → Position → String → Outcome Sheet) (s : Sheet) (pos : Position)
    (h : s.deref pos = some Cell.new) : Cell.commit sc s pos .empty = .ok s := by
  have h1 : s.store pos Cell.new = s := store_self h
  have hm1 : s.modify pos (fun c => { c with impl := Impl.empty }) = .ok s := by
    simp only [Sheet.modify, h]
    show Outcome.ok (s.store pos Cell.new) = _
    rw [h1]
  have hm2 : s.modify pos (fun c => { c with r_nodes := [] }) = .ok s := by
    simp only [Sheet.modify, h]
    show Outcome.ok (s.store pos Cell.new) = _
    rw [h1]
  have hu : Cell.unlinkAll pos s = .ok s := by
    simp [Cell.unlinkAll, h, Cell.new, forEach]
  unfold Cell.commit Cell.relink
  simp only [hm1, hm2, hu, Outcome.bind, Impl.GetReferencedCells, forEach, Sheet.depthFuel,
    icr_succ, h]
  simp only [Cell.new, Impl.IsCacheValid, Bool.true_or, if_true, forEach, Impl.InvalidateCache]
  show Outcome.ok (s.store pos Cell.new) = _
  rw [h1]

theorem SetCellN_empty_absent (pf : Parser) (n : Nat) (s : Sheet) (pos : Position)
    (hv : pos.IsValid = true) (hf : s.find pos = none) :
    Sheet.SetCellN pf (n + 1) s pos "" = .ok (s.emplace pos) := by
  have hd : (s.emplace pos).deref pos = some Cell.new := by
    rw [deref_emplace s pos pos hf]; simp
  simp only [Sheet.SetCellN, hv, hf, Cell.Set, newImpl_empty, Bool.not_true, Bool.false_eq_true,
    if_false]
  rw [search_no_refs _ _ .empty rfl]
  simp only [Outcome.bind, Bool.false_eq_true, if_false]
  exact commit_fresh _ _ _ hd

theorem SetCellN_empty_reset (pf : Parser) (n : Nat) (s : Sheet) (pos : Position)
    (hv : pos.IsValid = true) (hf : s.find pos = some none) :
    Sheet.SetCellN pf (n + 1) s pos "" = .ub := by
  simp [Sheet.SetCellN, hv, hf]

theorem keys_store (s : Sheet) (p : CellPtr) (c : Cell) :
    (s.store p c).cells.map Prod.fst = s.cells.map Prod.fst := by
  simp [Sheet.store, setSlot_keys]

theorem keys_reset (s : Sheet) (p : CellPtr) :
    (s.reset p).cells.map Prod.fst = s.cells.map Prod.fst := by
  simp [Sheet.reset, setSlot_keys]

theorem keys_emplace (s : Sheet) (p : Position) :
    (s.emplace p).cells.map Prod.fst = s.cells.map Prod.fst ++ [p] := by
  simp [Sheet.emplace]

theorem linkRef_ok {pf : Parser} {n : Nat} {this : CellPtr} {s s1 : Sheet} {pos : Position}
    {c : Cell} (hne : pos ≠ this) (hthis : s.deref this = some c)
    (h : Cell.linkRef (Sheet.SetCellN pf (n + 1)) this s pos = .ok s1) :
    pos.IsValid = true ∧ s.find pos ≠ some none ∧
    (∀ q, s1.find q =
      if q = this then some (some { c with r_nodes := insertSet pos c.r_nodes })
      else if q = pos then linkedSlot this (s.find pos) else s.find q) ∧
    s1.cells.map Prod.fst
      = if (s.find pos).isNone then s.cells.map Prod.fst ++ [pos] else s.cells.map Prod.fst := by
  unfold Cell.linkRef at h
  obtain ⟨out0, h0, ha⟩ := bind_ok h
  obtain ⟨hv, hout0⟩ := GetCellPtr_ok h0
  obtain ⟨st, hst, hb⟩ := bind_ok ha
  obtain ⟨out1, h1, hc⟩ := bind_ok hb
  cases out1 with
  | none => cases hc
  | some out =>
    simp only at hc
    obtain ⟨hv1, hout1⟩ := GetCellPtr_ok h1
    have hout : out = pos ∧ st.stored pos = true := by
      by_cases hs : st.stored pos = true
      · simp only [hs, if_true, Option.some.injEq] at hout1
        exact ⟨hout1, hs⟩
      · simp only [hs, if_false] at hout1
        cases hout1
    obtain ⟨hout, hstp⟩ := hout
    subst hout
    obtain ⟨s2, hm1, hm2⟩ := bind_ok hc
    obtain ⟨c1, hc1, hs2⟩ := modify_ok hm1
    obtain ⟨c2, hc2, hs1⟩ := modify_ok hm2
    have hne2 : this ≠ out := fun h => hne h.symm
    -- the state before linking
    have hcases : (s.stored out = true ∧ st = s) ∨ (s.find out = none ∧ st = s.emplace out) := by
      by_cases hs : s.stored out = true
      · left
        simp only [hs, if_true] at hout0
        subst hout0
        simp only at hst
        injection hst with hst
        exact ⟨hs, hst.symm⟩
      · right
        simp only [hs, if_false] at hout0
        subst hout0
        cases hf : s.find out with
        | none =>
          rw [SetCellN_empty_absent pf n s out hv hf] at hst
          injection hst with hst
          exact ⟨rfl, hst.symm⟩
        | some v =>
          cases v with
          | none => rw [SetCellN_empty_reset pf n s out hv hf] at hst; cases hst
          | some c3 =>
            exfalso; apply hs
            exact stored_iff.2 ⟨c3, deref_of_find hf⟩
    rcases hcases with ⟨hs, hst2⟩ | ⟨hf, hst2⟩
    · subst hst2
      obtain ⟨cp, hcp⟩ := stored_iff.1 hs
      have hfp := find_of_deref hcp
      rw [hthis] at hc1
      injection hc1 with hc1
      subst hc1
      have hc2b : c2 = cp := by
        rw [hs2, deref_store_other _ _ hne] at hc2
        rw [hcp] at hc2
        injection hc2 with hc2
        exact hc2.symm
      subst hc2b
      refine ⟨hv, by rw [hfp]; simp, ?_, ?_⟩
      · intro q
        rw [hs1, find_store, hs2, find_store, find_store]
        by_cases hq : q = this
        · subst hq
          simp [hne2, find_of_deref hthis]
        · by_cases hq2 : q = out
          · subst hq2
            simp [hq, hfp, linkedSlot]
          · simp [hq, hq2]
      · rw [hs1, keys_store, hs2, keys_store, hfp]
        simp
    · subst hst2
      have hd1 : (s.emplace out).deref this = some c := by
        rw [deref_emplace s out this hf]; simp [hne2, hthis]
      rw [hd1] at hc1
      injection hc1 with hc1
      subst hc1
      have hc2b : c2 = Cell.new := by
        rw [hs2, deref_store_other _ _ hne, deref_emplace s out out hf] at hc2
        simp at hc2
        exact hc2.symm
      subst hc2b
      refine ⟨hv, by rw [hf]; simp, ?_, ?_⟩
      · intro q
        rw [hs1, find_store, hs2, find_store, find_store, find_emplace s out out hf,
          find_emplace s out q hf, find_emplace s out this hf]
        by_cases hq : q = this
        · subst hq
          simp [hne2, find_of_deref hthis]
        · by_cases hq2 : q = out
          · subst hq2
            simp [hq, hf, linkedSlot, Cell.new, insertSet]
          · simp [hq, hq2]
      · rw [hs1, keys_store, hs2, keys_store, keys_emplace, hf]
        simp

theorem eraseSet_idem (x : CellPtr) (l : List CellPtr) : eraseSet x (eraseSet x l) = eraseSet x l := by
  simp [eraseSet, List.filter_filter]

theorem insertSet_idem (x : CellPtr) (l : List CellPtr) :
    insertSet x (insertSet x l) = insertSet x l :=
  insertSet_of_mem (mem_insertSet.2 (Or.inl rfl))

theorem linkedSlot_idem (this : CellPtr) (x : Option (Option Cell)) :
    linkedSlot this (linkedSlot this x) = linkedSlot this x := by
  cases x with
  | none => simp [linkedSlot, insertSet]
  | some v =>
    cases v with
    | none => rfl
    | some c => simp [linkedSlot, insertSet_idem]

theorem linkedSlot_eq_reset {this : CellPtr} {x : Option (Option Cell)} :
    linkedSlot this x = some none ↔ x = some none := by
  cases x with
  | none => simp [linkedSlot]
  | some v => cases v <;> simp [linkedSlot]

theorem forEach_unlink {this : CellPtr} : ∀ {rs : List CellPtr} {s s1 : Sheet},
    forEach (fun st out => st.modify out
        (fun oc => { oc with l_nodes := eraseSet this oc.l_nodes })) rs s = .ok s1 →
      (∀ q, s1.find q = (s.find q).map (Option.map (unlinkedCell this rs q))) ∧
      s1.cells.map Prod.fst = s.cells.map Prod.fst ∧
      ∀ out ∈ rs, s.stored out = true := by
  intro rs
  induction rs with
  | nil =>
    intro s s1 h
    simp only [forEach] at h
    injection h with h; subst h
    refine ⟨fun q => ?_, rfl, fun out ho => by simp at ho⟩
    cases hf : s.find q with
    | none => rfl
    | some v => cases v <;> simp [unlinkedCell]
  | cons out rest ih =>
    intro s s1 h
    simp only [forEach] at h
    split at h
    · rename_i st hst
      obtain ⟨c, hc, hst2⟩ := modify_ok hst
      obtain ⟨ih1, ih2, ih3⟩ := ih h
      refine ⟨fun q => ?_, ?_, ?_⟩
      · rw [ih1, hst2, find_store]
        by_cases hq : q = out
        · subst hq
          rw [find_of_deref hc]
          simp only [if_true, Option.map, unlinkedCell, List.mem_cons, true_or]
          by_cases hm : q ∈ rest
          · simp [hm, eraseSet_idem]
          · simp [hm]
        · simp only [hq, if_false]
          cases hf : s.find q with
          | none => rfl
          | some v =>
            cases v with
            | none => rfl
            | some c2 => simp [unlinkedCell, hq]
      · rw [ih2, hst2, keys_store]
      · intro o ho
        rcases List.mem_cons.1 ho with h1 | h1
        · subst h1; exact stored_iff.2 ⟨c, hc⟩
        · have hso := ih3 o h1
          obtain ⟨c3, hc3⟩ := stored_iff.1 hso
          rw [hst2, deref_store _ _ hc] at hc3
          by_cases ho2 : o = out
          · subst ho2; exact stored_iff.2 ⟨c, hc⟩
          · simp only [ho2, if_false] at hc3
            exact stored_iff.2 ⟨c3, hc3⟩
    · cases h
    · cases h
    · cases h

theorem linkedRefs_cons (p : Position) (refs : List Position) (init : List CellPtr) :
    linkedRefs (p :: refs) init = linkedRefs refs (insertSet p init) := rfl

theorem mem_linkedRefs {refs : List Position} : ∀ {init : List CellPtr} {q : CellPtr},
    q ∈ linkedRefs refs init ↔ q ∈ refs ∨ q ∈ init := by
  induction refs with
  | nil => intro init q; simp [linkedRefs]
  | cons p rest ih =>
    intro init q
    rw [linkedRefs_cons, ih, mem_insertSet, List.mem_cons]
    tauto

theorem forEach_link {pf : Parser} {n : Nat} {this : CellPtr} :
    ∀ {refs : List Position} {s s1 : Sheet} {c : Cell}, this ∉ refs → s.deref this = some c →
      forEach (Cell.linkRef (Sheet.SetCellN pf (n + 1)) this) refs s = .ok s1 →
      (∀ q ∈ refs, q.IsValid = true ∧ s.find q ≠ some none) ∧
      (∀ q, s1.find q =
        if q = this then some (some { c with r_nodes := linkedRefs refs c.r_nodes })
        else if q ∈ refs then linkedSlot this (s.find q) else s.find q) := by
  intro refs
  induction refs with
  | nil =>
    intro s s1 c _ hc h
    simp only [forEach] at h
    injection h with h; subst h
    refine ⟨fun q hq => by simp at hq, fun q => ?_⟩
    by_cases hq : q = this
    · subst hq; simp [linkedRefs, find_of_deref hc]
    · simp [hq]
  | cons p rest ih =>
    intro s s1 c hnot hc h
    simp only [forEach] at h
    split at h
    · rename_i st hst
      have hp : p ≠ this := fun h => hnot (h ▸ List.mem_cons_self _ _)
      have hrest : this ∉ rest := fun h => hnot (List.mem_cons_of_mem _ h)
      obtain ⟨hv, hnr, hfind, _⟩ := linkRef_ok hp hc hst
      have hc2 : st.deref this = some { c with r_nodes := insertSet p c.r_nodes } := by
        apply deref_of_find; rw [hfind]; simp
      obtain ⟨ih1, ih2⟩ := ih hrest hc2 h
      refine ⟨fun q hq => ?_, fun q => ?_⟩
      · rcases List.mem_cons.1 hq with h1 | h1
        · subst h1; exact ⟨hv, hnr⟩
        · refine ⟨(ih1 q h1).1, fun hx => (ih1 q h1).2 ?_⟩
          have hqt : q ≠ this := fun h => hrest (h ▸ h1)
          rw [hfind]
          simp only [hqt, if_false]
          by_cases hqp : q = p
          · subst hqp; simp only [if_true]; exact linkedSlot_eq_reset.2 hx
          · simp only [hqp, if_false]; exact hx
      · rw [ih2, hfind]
        by_cases hq : q = this
        · simp [hq, linkedRefs_cons]
        · simp only [hq, if_false, List.mem_cons]
          by_cases hqp : q = p
          · subst hqp
            simp only [true_or, if_true]
            by_cases hm : q ∈ rest
            · simp [hm, linkedSlot_idem]
            · simp [hm]
          · simp [hqp]
    · cases h
    · cases h
    · cases h

theorem relink_ok {pf : Parser} {n : Nat} {s s4 : Sheet} {this : CellPtr} {impl : Impl}
    {c0 : Cell} (hthis : s.deref this = some c0) (hnot : this ∉ impl.GetReferencedCells)
    (h : Cell.relink (Sheet.SetCellN pf (n + 1)) s this impl = .ok s4) :
    (∀ q, s4.find q = committedSlot s this c0 impl q) ∧
      (∀ q ∈ impl.GetReferencedCells, q.IsValid = true ∧ s.find q ≠ some none) ∧
      ∀ out ∈ c0.r_nodes, s.stored out = true := by
  unfold Cell.relink at h
  obtain ⟨sa, ha, h2⟩ := bind_ok h
  obtain ⟨sb, hb, h3⟩ := bind_ok h2
  obtain ⟨sc, hc, hd⟩ := bind_ok h3
  obtain ⟨ca, hca, hsa⟩ := modify_ok ha
  rw [hthis] at hca
  injection hca with hca
  subst hca
  have hda : sa.deref this = some { c0 with impl := impl } := by
    rw [hsa]; exact deref_store_same _ hthis
  have hfa : ∀ q, sa.find q = if q = this then some (some { c0 with impl := impl }) else s.find q := by
    intro q
    rw [hsa, find_store, find_of_deref hthis]
    simp
  unfold Cell.unlinkAll at hb
  rw [hda] at hb
  simp only at hb
  obtain ⟨hb1, _, hb3⟩ := forEach_unlink hb
  have hdb : sb.deref this
      = some (unlinkedCell this c0.r_nodes this { c0 with impl := impl }) := by
    apply deref_of_find
    rw [hb1, find_of_deref hda]; rfl
  obtain ⟨cc, hcc, hsc⟩ := modify_ok hc
  rw [hdb] at hcc
  injection hcc with hcc
  subst hcc
  have hdc : sc.deref this
      = some { unlinkedCell this c0.r_nodes this { c0 with impl := impl } with r_nodes := [] } := by
    rw [hsc]; exact deref_store_same _ hdb
  obtain ⟨hd1, hd2⟩ := forEach_link hnot hdc hd
  have hfc : ∀ q, q ≠ this →
      sc.find q = (s.find q).map (Option.map (unlinkedCell this c0.r_nodes q)) := by
    intro q hq
    rw [hsc, find_store]
    simp only [hq, if_false]
    rw [hb1, hfa]
    simp [hq]
  refine ⟨fun q => ?_, fun q hq => ?_, fun out ho => ?_⟩
  · rw [hd2]
    unfold committedSlot
    by_cases hq : q = this
    · subst hq
      simp only [if_true]
      unfold unlinkedCell
      by_cases hm : q ∈ c0.r_nodes <;> simp [hm]
    · simp only [hq, if_false]
      rw [hfc q hq]
  · obtain ⟨hv, hnr⟩ := hd1 q hq
    refine ⟨hv, fun hx => hnr ?_⟩
    have hqt : q ≠ this := fun h => hnot (h ▸ hq)
    rw [hfc q hqt, hx]; rfl
  · have hso := hb3 out ho
    obtain ⟨c3, hc3⟩ := stored_iff.1 hso
    rw [hsa, deref_store _ _ hthis] at hc3
    by_cases ho2 : out = this
    · subst ho2; exact stored_iff.2 ⟨c0, hthis⟩
    · simp only [ho2, if_false] at hc3
      exact stored_iff.2 ⟨c3, hc3⟩

theorem commit_ok {pf : Parser} {n : Nat} {s s1 : Sheet} {this : CellPtr} {impl : Impl}
    {c0 : Cell} (hthis : s.deref this = some c0) (hnot : this ∉ impl.GetReferencedCells)
    (h : Cell.commit (Sheet.SetCellN pf (n + 1)) s this impl = .ok s1) :
    ∃ s4, (∀ q, s4.find q = committedSlot s this c0 impl q) ∧
      Cell.InvalidateCacheRecursive s4.depthFuel s4 this true = .ok s1 ∧
      (∀ q ∈ impl.GetReferencedCells, q.IsValid = true ∧ s.find q ≠ some none) ∧
      ∀ out ∈ c0.r_nodes, s.stored out = true := by
  unfold Cell.commit at h
  obtain ⟨s4, h4, h5⟩ := bind_ok h
  obtain ⟨h1, h2, h3⟩ := relink_ok hthis hnot h4
  exact ⟨s4, h1, h5, h2, h3⟩

/-! ## Sheets that differ in caches only -/

theorem InvalidateCache_idem (i : Impl) : i.InvalidateCache.InvalidateCache = i.InvalidateCache := by
  cases i <;> rfl

theorem InvalidateCache_setCache (v : FValue) (i : Impl) :
    (i.setCache v).InvalidateCache = i.InvalidateCache := by
  cases i <;> rfl

theorem SameSkeleton.refl (s : Sheet) : SameSkeleton s s := ⟨fun _ => rfl, rfl⟩

theorem SameSkeleton.trans {s s1 s2 : Sheet} (h1 : SameSkeleton s s1) (h2 : SameSkeleton s1 s2) :
    SameSkeleton s s2 :=
  ⟨fun q => (h2.1 q).trans (h1.1 q), h2.2.trans h1.2⟩

theorem SameSkeleton.symm {s s1 : Sheet} (h : SameSkeleton s s1) : SameSkeleton s1 s :=
  ⟨fun q => (h.1 q).symm, h.2.symm⟩

theorem SameSkeleton.store {s : Sheet} {p : CellPtr} {c c1 : Cell} (hc : s.deref p = some c)
    (h : c1.eraseCache = c.eraseCache) : SameSkeleton s (s.store p c1) := by
  refine ⟨fun q => ?_, keys_store s p c1⟩
  rw [find_store]
  by_cases hq : q = p
  · subst hq
    simp [find_of_deref hc, h]
  · simp [hq]

theorem SameSkeleton.deref {s s1 : Sheet} (h : SameSkeleton s s1) {q : CellPtr} {c1 : Cell}
    (hc : s1.deref q = some c1) : ∃ c, s.deref q = some c ∧ c.eraseCache = c1.eraseCache := by
  have h1 := h.1 q
  rw [find_of_deref hc] at h1
  cases hf : s.find q with
  | none => rw [hf] at h1; simp at h1
  | some v =>
    cases v with
    | none => rw [hf] at h1; simp at h1
    | some c =>
      rw [hf] at h1
      simp at h1
      exact ⟨c, deref_of_find hf, h1.symm⟩

theorem SameSkeleton.find_none {s s1 : Sheet} (h : SameSkeleton s s1) (q : Position) :
    s1.find q = none ↔ s.find q = none := by
  have h1 := h.1 q
  cases hf : s.find q <;> cases hf1 : s1.find q <;> simp [hf, hf1] at h1 ⊢

theorem SameSkeleton.find_reset_iff {s s1 : Sheet} (h : SameSkeleton s s1) (q : Position) :
    s1.find q = some none ↔ s.find q = some none := by
  have h1 := h.1 q
  cases hf : s.find q with
  | none => cases hf1 : s1.find q <;> simp [hf, hf1] at h1 ⊢
  | some v =>
    cases hf1 : s1.find q with
    | none => simp [hf, hf1] at h1
    | some v1 => cases v <;> cases v1 <;> simp [hf, hf1] at h1 ⊢

theorem eraseCache_fields {c c1 : Cell} (h : c.eraseCache = c1.eraseCache) :
    c.l_nodes = c1.l_nodes ∧ c.r_nodes = c1.r_nodes ∧
      c.impl.GetReferencedCells = c1.impl.GetReferencedCells ∧ c.impl.GetText = c1.impl.GetText := by
  obtain ⟨i, l, r⟩ := c
  obtain ⟨i1, l1, r1⟩ := c1
  simp only [Cell.eraseCache, Cell.mk.injEq] at h
  obtain ⟨hi, hl, hr⟩ := h
  refine ⟨hl, hr, ?_, ?_⟩
  · cases i <;> cases i1 <;> simp [Impl.InvalidateCache] at hi <;>
      simp [Impl.GetReferencedCells, hi]
  · cases i <;> cases i1 <;> simp [Impl.InvalidateCache] at hi <;>
      simp [Impl.GetText, hi]

theorem SameSkeleton.stored {s s1 : Sheet} (h : SameSkeleton s s1) (q : Position) :
    s1.stored q = s.stored q := by
  cases hs : s.stored q with
  | true =>
    obtain ⟨c, hc⟩ := stored_iff.1 hs
    obtain ⟨c1, hc1, _⟩ := h.symm.deref hc
    exact stored_iff.2 ⟨c1, hc1⟩
  | false =>
    cases hs1 : s1.stored q with
    | false => rfl
    | true =>
      obtain ⟨c1, hc1⟩ := stored_iff.1 hs1
      obtain ⟨c, hc, _⟩ := h.deref hc1
      rw [stored_iff.2 ⟨c, hc⟩] at hs
      cases hs

theorem SameSkeleton.incomingEdge {s s1 : Sheet} (h : SameSkeleton s s1) {x y : CellPtr}
    (he : IncomingEdge s1 x y) : IncomingEdge s x y := by
  obtain ⟨c1, hc1, hy⟩ := he
  obtain ⟨c, hc, hcc⟩ := h.deref hc1
  exact ⟨c, hc, by rw [(eraseCache_fields hcc).1]; exact hy⟩

theorem SameSkeleton.wellFormed {s s1 : Sheet} (h : SameSkeleton s s1) (hw : WellFormed s) :
    WellFormed s1 := by
  refine ⟨?_, ?_, ?_, ?_, ?_⟩
  · rw [h.2]; exact hw.keysValid
  · rw [h.2]; exact hw.keysNodup
  · intro x c1 hc1 y hy
    obtain ⟨c, hc, hcc⟩ := h.deref hc1
    obtain ⟨cy, hcy, hx⟩ := hw.mirror x c hc y (by rw [(eraseCache_fields hcc).2.1]; exact hy)
    obtain ⟨cy1, hcy1, hcc1⟩ := h.symm.deref hcy
    exact ⟨cy1, hcy1, by rw [(eraseCache_fields hcc1).1]; exact hx⟩
  · intro x c1 hc1 q hq
    obtain ⟨c, hc, hcc⟩ := h.deref hc1
    rw [← (eraseCache_fields hcc).2.1]
    exact hw.refsLinked x c hc q (by rw [(eraseCache_fields hcc).2.2.1]; exact hq)
  · intro x hx
    apply hw.acyclic x
    exact Relation.TransGen.mono (fun a b hab => h.incomingEdge hab) hx

theorem SameSkeleton.setOnly {s s1 : Sheet} (h : SameSkeleton s s1) (hw : SetOnly s) :
    SetOnly s1 := by
  refine ⟨?_, ?_, ?_⟩
  · intro q hq
    exact hw.noReset q ((h.find_reset_iff q).1 hq)
  · intro x c1 hc1 y hy
    obtain ⟨c, hc, hcc⟩ := h.deref hc1
    obtain ⟨cy, hcy, hx⟩ := hw.mirrorBack x c hc y (by rw [(eraseCache_fields hcc).1]; exact hy)
    obtain ⟨cy1, hcy1, hcc1⟩ := h.symm.deref hcy
    exact ⟨cy1, hcy1, by rw [(eraseCache_fields hcc1).2.1]; exact hx⟩
  · intro x c1 hc1 y hy
    obtain ⟨c, hc, hcc⟩ := h.deref hc1
    rw [← (eraseCache_fields hcc).2.2.1]
    exact hw.outRefs x c hc y (by rw [(eraseCache_fields hcc).2.1]; exact hy)

theorem icr_skeleton : ∀ (d : Nat) (s : Sheet) (p : CellPtr) (b : Bool) (s1 : Sheet),
    Cell.InvalidateCacheRecursive d s p b = .ok s1 → SameSkeleton s s1 := by
  intro d
  induction d with
  | zero => intro s p b s1 h; simp [Cell.InvalidateCacheRecursive] at h
  | succ d ih =>
    intro s p b s1 h
    rw [icr_succ] at h
    split at h
    · cases h
    · rename_i c hc
      split at h
      · have h0 : SameSkeleton s (s.store p { c with impl := c.impl.InvalidateCache }) :=
          SameSkeleton.store hc (by simp [Cell.eraseCache, InvalidateCache_idem])
        exact forEach_ok_invariant (fun st => SameSkeleton s st)
          (fun st x st1 _ hI hst => hI.trans (ih st x false st1 hst)) h0 h
      · injection h with h; subst h; exact SameSkeleton.refl s

theorem evalRefs_skeleton {gv : Sheet → CellPtr → Outcome (Sheet × Value × Nat)}
    (hgv : ∀ s p r, gv s p = .ok r → SameSkeleton s r.1) :
    ∀ (refs : List Position) (s : Sheet) (r : Sheet × List (Position × Value) × Nat),
      evalRefs gv refs s = .ok r → SameSkeleton s r.1 := by
  intro refs
  induction refs with
  | nil =>
    intro s r h
    simp only [evalRefs] at h
    injection h with h; subst h; exact SameSkeleton.refl s
  | cons q rest ih =>
    intro s r h
    simp only [evalRefs] at h
    split at h
    · exact ih s r h
    · obtain ⟨r1, h1, h2⟩ := bind_ok h
      obtain ⟨r2, h3, h4⟩ := bind_ok h2
      injection h4 with h4; subst h4
      exact (hgv _ _ _ h1).trans (ih _ r2 h3)

theorem getValue_skeleton : ∀ (d : Nat) (s : Sheet) (p : CellPtr) (r : Sheet × Value × Nat),
    Cell.GetValue d s p = .ok r → SameSkeleton s r.1 := by
  intro d
  induction d with
  | zero => intro s p r h; simp [Cell.GetValue] at h
  | succ d ih =>
    intro s p r h
    simp only [Cell.GetValue] at h
    split at h
    · cases h
    · rename_i c hc
      split at h
      · injection h with h; subst h; exact SameSkeleton.refl s
      · injection h with h; subst h; exact SameSkeleton.refl s
      · rename_i f cache hi
        obtain ⟨r1, h1, h2⟩ := bind_ok h
        obtain ⟨r2, h3, h4⟩ := bind_ok h2
        injection h4 with h4; subst h4
        have hA : SameSkeleton s r1.1 := by
          split at h1
          · injection h1 with h1; subst h1; exact SameSkeleton.refl s
          · obtain ⟨ra, h5, h6⟩ := bind_ok h1
            obtain ⟨sa, h7, h8⟩ := bind_ok h6
            injection h8 with h8; subst h8
            obtain ⟨ca, hca, hsa⟩ := modify_ok h7
            unfold Evaluate at h5
            obtain ⟨rb, h9, h10⟩ := bind_ok h5
            injection h10 with h10; subst h10
            have hB := evalRefs_skeleton ih _ _ _ h9
            refine hB.trans ?_
            simp only
            rw [hsa]
            exact SameSkeleton.store hca (by simp [Cell.eraseCache, InvalidateCache_setCache])
        unfold Evaluate at h3
        obtain ⟨rb, h9, h10⟩ := bind_ok h3
        injection h10 with h10; subst h10
        exact hA.trans (evalRefs_skeleton ih _ _ _ h9)

/-! ## Reading the committed state -/

theorem committed_this {s s4 : Sheet} {this : CellPtr} {c0 : Cell} {impl : Impl}
    (h4 : ∀ q, s4.find q = committedSlot s this c0 impl q) :
    s4.deref this = some ⟨impl, (unlinkedCell this c0.r_nodes this c0).l_nodes,
      linkedRefs impl.GetReferencedCells []⟩ := by
  apply deref_of_find
  rw [h4]; simp [committedSlot]

theorem mem_unlinkedCell {this q y : CellPtr} {rs : List CellPtr} {c : Cell} :
    y ∈ (unlinkedCell this rs q c).l_nodes ↔ y ∈ c.l_nodes ∧ (q ∈ rs → y ≠ this) := by
  unfold unlinkedCell
  by_cases h : q ∈ rs
  · simp [h, mem_eraseSet]
  · simp [h]

theorem committed_other {s s4 : Sheet} {this : CellPtr} {c0 : Cell} {impl : Impl}
    (h4 : ∀ q, s4.find q = committedSlot s this c0 impl q) {q : CellPtr} (hq : q ≠ this)
    {c1 : Cell} (hc1 : s4.deref q = some c1) :
    (∃ c, s.deref q = some c ∧ c1.impl = c.impl ∧ c1.r_nodes = c.r_nodes ∧
      ∀ y, y ∈ c1.l_nodes ↔
        (y ∈ c.l_nodes ∧ (q ∈ c0.r_nodes → y ≠ this)) ∨
          (y = this ∧ q ∈ impl.GetReferencedCells)) ∨
    (s.find q = none ∧ q ∈ impl.GetReferencedCells ∧ c1 = ⟨.empty, [this], []⟩) := by
  have hf := find_of_deref hc1
  rw [h4] at hf
  unfold committedSlot at hf
  simp only [hq, if_false] at hf
  cases hs : s.find q with
  | none =>
    rw [hs] at hf
    by_cases hm : q ∈ impl.GetReferencedCells
    · simp only [hm, if_true, Option.map, linkedSlot, Option.some.injEq] at hf
      exact Or.inr ⟨rfl, hm, hf.symm⟩
    · simp [hm] at hf
  | some v =>
    cases v with
    | none =>
      rw [hs] at hf
      by_cases hm : q ∈ impl.GetReferencedCells <;> simp [hm, linkedSlot] at hf
    | some c =>
      rw [hs] at hf
      left
      refine ⟨c, deref_of_find hs, ?_⟩
      by_cases hm : q ∈ impl.GetReferencedCells
      · simp only [hm, if_true, Option.map, linkedSlot, Option.some.injEq] at hf
        subst hf
        refine ⟨?_, ?_, fun y => ?_⟩
        · unfold unlinkedCell; split <;> rfl
        · unfold unlinkedCell; split <;> rfl
        · simp only [mem_insertSet, mem_unlinkedCell]
          constructor
          · rintro (h | h)
            · exact Or.inr ⟨h, hm⟩
            · exact Or.inl h
          · rintro (h | h)
            · exact Or.inr h
            · exact Or.inl h.1
      · simp only [hm, if_false, Option.map, Option.some.injEq] at hf
        subst hf
        refine ⟨?_, ?_, fun y => ?_⟩
        · unfold unlinkedCell; split <;> rfl
        · unfold unlinkedCell; split <;> rfl
        · simp only [mem_unlinkedCell]
          constructor
          · intro h; exact Or.inl h
          · rintro (h | h)
            · exact h
            · exact absurd h.2 hm

theorem committed_old {s s4 : Sheet} {this : CellPtr} {c0 : Cell} {impl : Impl}
    (h4 : ∀ q, s4.find q = committedSlot s this c0 impl q) {q : CellPtr} (hq : q ≠ this)
    {c : Cell} (hc : s.deref q = some c) :
    ∃ c1, s4.deref q = some c1 ∧ c1.impl = c.impl ∧ c1.r_nodes = c.r_nodes ∧
      ∀ y, y ∈ c1.l_nodes ↔
        (y ∈ c.l_nodes ∧ (q ∈ c0.r_nodes → y ≠ this)) ∨
          (y = this ∧ q ∈ impl.GetReferencedCells) := by
  have hs := find_of_deref hc
  have hex : ∃ c1, s4.deref q = some c1 := by
    have hf := h4 q
    unfold committedSlot at hf
    simp only [hq, if_false, hs] at hf
    by_cases hm : q ∈ impl.GetReferencedCells
    · simp only [hm, if_true, Option.map, linkedSlot] at hf
      exact ⟨_, deref_of_find hf⟩
    · simp only [hm, if_false, Option.map] at hf
      exact ⟨_, deref_of_find hf⟩
  obtain ⟨c1, hc1⟩ := hex
  refine ⟨c1, hc1, ?_⟩
  rcases committed_other h4 hq hc1 with ⟨c2, hc2, h1, h2, h3⟩ | ⟨hn, _, _⟩
  · rw [hc] at hc2
    injection hc2 with hc2
    subst hc2
    exact ⟨h1, h2, h3⟩
  · rw [hs] at hn; cases hn

theorem committed_ref {s s4 : Sheet} {this : CellPtr} {c0 : Cell} {impl : Impl}
    (h4 : ∀ q, s4.find q = committedSlot s this c0 impl q) {q : CellPtr} (hq : q ≠ this)
    (hm : q ∈ impl.GetReferencedCells) (hnr : s.find q ≠ some none) :
    ∃ c1, s4.deref q = some c1 ∧ this ∈ c1.l_nodes := by
  have hf := h4 q
  unfold committedSlot at hf
  simp only [hq, if_false, hm, if_true] at hf
  cases hs : s.find q with
  | none =>
    rw [hs] at hf
    simp only [Option.map, linkedSlot] at hf
    exact ⟨_, deref_of_find hf, by simp⟩
  | some v =>
    cases v with
    | none => exact absurd hs hnr
    | some c =>
      rw [hs] at hf
      simp only [Option.map, linkedSlot] at hf
      exact ⟨_, deref_of_find hf, mem_insertSet.2 (Or.inl rfl)⟩

theorem committed_edge {s s4 : Sheet} {this : CellPtr} {c0 : Cell} {impl : Impl}
    (hthis : s.deref this = some c0)
    (h4 : ∀ q, s4.find q = committedSlot s this c0 impl q) {a b : CellPtr}
    (he : IncomingEdge s4 a b) :
    IncomingEdge s a b ∨ (b = this ∧ a ∈ impl.GetReferencedCells) := by
  obtain ⟨c1, hc1, hb⟩ := he
  by_cases ha : a = this
  · subst ha
    rw [committed_this h4] at hc1
    injection hc1 with hc1
    subst hc1
    left
    exact ⟨c0, hthis, (mem_unlinkedCell.1 hb).1⟩
  · rcases committed_other h4 ha hc1 with ⟨c, hc, _, _, h3⟩ | ⟨_, hm, hc⟩
    · rcases (h3 b).1 hb with h | h
      · exact Or.inl ⟨c, hc, h.1⟩
      · exact Or.inr h
    · subst hc
      simp at hb
      exact Or.inr ⟨hb, hm⟩

/-! ## Keys -/

theorem findSlot_none_iff {l : List (Position × Option Cell)} {p : Position} :
    findSlot l p = none ↔ p ∉ l.map Prod.fst := by
  induction l with
  | nil => simp [findSlot]
  | cons e rest ih =>
    obtain ⟨k, w⟩ := e
    by_cases hk : k = p
    · simp [findSlot, hk]
    · have hk2 : ¬ p = k := fun h => hk h.symm
      simp [findSlot, hk, hk2, ih]

theorem find_none_iff {s : Sheet} {p : Position} : s.find p = none ↔ p ∉ s.cells.map Prod.fst :=
  findSlot_none_iff

theorem keys_of_deref {s : Sheet} {p : Position} {c : Cell} (h : s.deref p = some c) :
    p ∈ s.cells.map Prod.fst := by
  by_contra hn
  have h1 := find_of_deref h
  rw [find_none_iff.2 hn] at h1
  cases h1

theorem linkRef_keys {pf : Parser} {n : Nat} {this : CellPtr} {s s1 : Sheet} {pos : Position}
    {c : Cell} (hne : pos ≠ this) (hthis : s.deref this = some c)
    (h : Cell.linkRef (Sheet.SetCellN pf (n + 1)) this s pos = .ok s1)
    (hk : (∀ k ∈ s.cells.map Prod.fst, k.IsValid = true) ∧ (s.cells.map Prod.fst).Nodup) :
    ((∀ k ∈ s1.cells.map Prod.fst, k.IsValid = true) ∧ (s1.cells.map Prod.fst).Nodup) ∧
      ∃ c1, s1.deref this = some c1 := by
  obtain ⟨hv, _, hfind, hkeys⟩ := linkRef_ok hne hthis h
  have hd1 : s1.deref this = some { c with r_nodes := insertSet pos c.r_nodes } :=
    deref_of_find (by rw [hfind]; simp)
  refine ⟨?_, ⟨_, hd1⟩⟩
  rw [hkeys]
  cases hf : s.find pos with
  | none =>
    simp only [Option.isNone_none, if_true]
    refine ⟨fun k hk2 => ?_, ?_⟩
    · rcases List.mem_append.1 hk2 with h1 | h1
      · exact hk.1 k h1
      · simp at h1; subst h1; exact hv
    · rw [List.nodup_append]
      refine ⟨hk.2, List.nodup_singleton _, ?_⟩
      intro a ha hb
      simp at hb
      subst hb
      exact (find_none_iff.1 hf) ha
  | some v => simpa using hk

theorem relink_keys {pf : Parser} {n : Nat} {s s4 : Sheet} {this : CellPtr} {impl : Impl}
    (hnot : this ∉ impl.GetReferencedCells)
    (h : Cell.relink (Sheet.SetCellN pf (n + 1)) s this impl = .ok s4)
    (hk : (∀ k ∈ s.cells.map Prod.fst, k.IsValid = true) ∧ (s.cells.map Prod.fst).Nodup) :
    (∀ k ∈ s4.cells.map Prod.fst, k.IsValid = true) ∧ (s4.cells.map Prod.fst).Nodup := by
  unfold Cell.relink at h
  obtain ⟨sa, ha, h2⟩ := bind_ok h
  obtain ⟨sb, hb, h3⟩ := bind_ok h2
  obtain ⟨sc, hc, hd⟩ := bind_ok h3
  obtain ⟨ca, hca, hsa⟩ := modify_ok ha
  have hda : sa.deref this = some { ca with impl := impl } := by
    rw [hsa]; exact deref_store_same _ hca
  unfold Cell.unlinkAll at hb
  rw [hda] at hb
  simp only at hb
  obtain ⟨hb1, hb2, _⟩ := forEach_unlink hb
  obtain ⟨cc, hcc, hsc⟩ := modify_ok hc
  have hkc : sc.cells.map Prod.fst = s.cells.map Prod.fst := by
    rw [hsc, keys_store, hb2, hsa, keys_store]
  have hdc : ∃ c, sc.deref this = some c := ⟨_, by rw [hsc]; exact deref_store_same _ hcc⟩
  have hI := forEach_ok_invariant
    (fun st => ((∀ k ∈ st.cells.map Prod.fst, k.IsValid = true) ∧ (st.cells.map Prod.fst).Nodup) ∧
      ∃ c, st.deref this = some c)
    (fun st x st1 hx hI hst => by
      obtain ⟨hkk, c, hc⟩ := hI
      have hxne : x ≠ this := fun hh => hnot (hh ▸ hx)
      exact linkRef_keys hxne hc hst hkk)
    (by simp only [hkc]; exact ⟨hk, hdc⟩) hd
  exact hI.1

theorem commit_keys {pf : Parser} {n : Nat} {s s1 : Sheet} {this : CellPtr} {impl : Impl}
    (hnot : this ∉ impl.GetReferencedCells)
    (h : Cell.commit (Sheet.SetCellN pf (n + 1)) s this impl = .ok s1)
    (hk : (∀ k ∈ s.cells.map Prod.fst, k.IsValid = true) ∧ (s.cells.map Prod.fst).Nodup) :
    (∀ k ∈ s1.cells.map Prod.fst, k.IsValid = true) ∧ (s1.cells.map Prod.fst).Nodup := by
  unfold Cell.commit at h
  obtain ⟨s4, h4, h5⟩ := bind_ok h
  have hsk := icr_skeleton _ _ _ _ _ h5
  rw [hsk.2]
  exact relink_keys hnot h4 hk

/-! ## Acyclicity under new edges -/

theorem acyclic_add_edges {α : Type} {E E2 : α → α → Prop} {t : α} {S : α → Prop}
    (hE2 : ∀ a b, E2 a b → E a b ∨ (b = t ∧ S a))
    (hac : ∀ x, ¬ Relation.TransGen E x x)
    (hS : ∀ q, Relation.ReflTransGen E t q → ¬ S q) :
    ∀ x, ¬ Relation.TransGen E2 x x := by
  -- a path of the new graph either is a path of the old graph or passes through `t`
  have hsplit : ∀ a b, Relation.TransGen E2 a b →
      Relation.TransGen E a b ∨ (Relation.TransGen E2 a t ∧ Relation.ReflTransGen E2 t b) := by
    intro a b hab
    induction hab with
    | single h =>
      rcases hE2 _ _ h with h1 | ⟨h1, _⟩
      · exact Or.inl (Relation.TransGen.single h1)
      · subst h1
        exact Or.inr ⟨Relation.TransGen.single h, Relation.ReflTransGen.refl⟩
    | tail hab hbc ih =>
      rcases ih with h1 | ⟨h1, h2⟩
      · rcases hE2 _ _ hbc with h3 | ⟨h3, _⟩
        · exact Or.inl (Relation.TransGen.tail h1 h3)
        · subst h3
          exact Or.inr ⟨Relation.TransGen.tail hab hbc, Relation.ReflTransGen.refl⟩
      · exact Or.inr ⟨h1, Relation.ReflTransGen.tail h2 hbc⟩
  -- a path of the new graph from `t` is a path of the old graph, or reaches a source of a new edge
  have hfrom : ∀ b, Relation.TransGen E2 t b →
      Relation.TransGen E t b ∨ ∃ q, S q ∧ Relation.ReflTransGen E t q := by
    intro b htb
    induction htb with
    | single h =>
      rcases hE2 _ _ h with h1 | ⟨_, h2⟩
      · exact Or.inl (Relation.TransGen.single h1)
      · exact Or.inr ⟨t, h2, Relation.ReflTransGen.refl⟩
    | tail _ hbc ih =>
      rcases ih with h1 | h1
      · rcases hE2 _ _ hbc with h3 | ⟨_, h4⟩
        · exact Or.inl (Relation.TransGen.tail h1 h3)
        · exact Or.inr ⟨_, h4, h1.to_reflTransGen⟩
      · exact Or.inr h1
  intro x hx
  rcases hsplit x x hx with h1 | ⟨h1, h2⟩
  · exact hac x h1
  · have htt : Relation.TransGen E2 t t := Relation.TransGen.trans_right h2 h1
    rcases hfrom t htt with h3 | ⟨q, hq, h4⟩
    · exact hac t h3
    · exact hS q h4 hq

theorem acyclic_sub_edges {α : Type} {E E2 : α → α → Prop}
    (hE2 : ∀ a b, E2 a b → E a b) (hac : ∀ x, ¬ Relation.TransGen E x x) :
    ∀ x, ¬ Relation.TransGen E2 x x :=
  fun x hx => hac x (Relation.TransGen.mono hE2 hx)

/-! ## The commit keeps the invariants -/

theorem search_false_not_ref {s : Sheet} {this : CellPtr} {impl : Impl}
    (h : Cell.SearchCircularDependency s this impl = .ok false) :
    ∀ q, DependsOn s this q → q ∉ impl.GetReferencedCells := by
  intro q hq hm
  have hne : impl.GetReferencedCells ≠ [] := by
    intro h0; rw [h0] at hm; simp at hm
  exact (search_ok_false h hne q hq).2 hm

theorem wellFormed_no_self {s : Sheet} (hw : WellFormed s) {x : CellPtr} {c : Cell}
    (hc : s.deref x = some c) : x ∉ c.r_nodes := by
  intro hx
  obtain ⟨cy, hcy, hx2⟩ := hw.mirror x c hc x hx
  exact hw.acyclic x (Relation.TransGen.single ⟨cy, hcy, hx2⟩)

theorem committed_wellFormed {s s4 : Sheet} {this : CellPtr} {c0 : Cell} {impl : Impl}
    (hw : WellFormed s) (hthis : s.deref this = some c0)
    (hsearch : Cell.SearchCircularDependency s this impl = .ok false)
    (h4 : ∀ q, s4.find q = committedSlot s this c0 impl q)
    (hrefs : ∀ q ∈ impl.GetReferencedCells, q.IsValid = true ∧ s.find q ≠ some none)
    (hk : (∀ k ∈ s4.cells.map Prod.fst, k.IsValid = true) ∧ (s4.cells.map Prod.fst).Nodup) :
    WellFormed s4 := by
  have hnot : this ∉ impl.GetReferencedCells :=
    search_false_not_ref hsearch this Relation.ReflTransGen.refl
  have hd4 := committed_this h4
  refine ⟨hk.1, hk.2, ?_, ?_, ?_⟩
  · intro x c1 hc1 y hy
    by_cases hx : x = this
    · subst hx
      rw [hd4] at hc1
      injection hc1 with hc1
      subst hc1
      have hy2 : y ∈ impl.GetReferencedCells := by
        rcases mem_linkedRefs.1 hy with h | h
        · exact h
        · simp at h
      have hyne : y ≠ x := fun h => hnot (h ▸ hy2)
      exact committed_ref h4 hyne hy2 (hrefs y hy2).2
    · rcases committed_other h4 hx hc1 with ⟨c, hc, _, hr, _⟩ | ⟨_, _, hc⟩
      · rw [hr] at hy
        obtain ⟨cy, hcy, hxy⟩ := hw.mirror x c hc y hy
        by_cases hyt : y = this
        · subst hyt
          rw [hthis] at hcy
          injection hcy with hcy
          subst hcy
          exact ⟨_, hd4, mem_unlinkedCell.2 ⟨hxy, fun _ => hx⟩⟩
        · obtain ⟨c2, hc2, _, _, hl⟩ := committed_old h4 hyt hcy
          exact ⟨c2, hc2, (hl x).2 (Or.inl ⟨hxy, fun _ => hx⟩)⟩
      · subst hc; simp at hy
  · intro x c1 hc1 q hq
    by_cases hx : x = this
    · subst hx
      rw [hd4] at hc1
      injection hc1 with hc1
      subst hc1
      exact mem_linkedRefs.2 (Or.inl hq)
    · rcases committed_other h4 hx hc1 with ⟨c, hc, hi, hr, _⟩ | ⟨_, _, hc⟩
      · rw [hr]
        rw [hi] at hq
        exact hw.refsLinked x c hc q hq
      · subst hc; simp [Impl.GetReferencedCells] at hq
  · exact acyclic_add_edges (S := fun a => a ∈ impl.GetReferencedCells)
      (fun a b he => committed_edge hthis h4 he) hw.acyclic
      (fun q hq => search_false_not_ref hsearch q hq)

theorem committed_setOnly {s s4 : Sheet} {this : CellPtr} {c0 : Cell} {impl : Impl}
    (hw : WellFormed s) (ho : SetOnly s) (hthis : s.deref this = some c0)
    (hsearch : Cell.SearchCircularDependency s this impl = .ok false)
    (h4 : ∀ q, s4.find q = committedSlot s this c0 impl q) :
    SetOnly s4 := by
  have hnot : this ∉ impl.GetReferencedCells :=
    search_false_not_ref hsearch this Relation.ReflTransGen.refl
  have hd4 := committed_this h4
  have hself : this ∉ c0.r_nodes := wellFormed_no_self hw hthis
  refine ⟨?_, ?_, ?_⟩
  · intro q hq
    rw [h4] at hq
    unfold committedSlot at hq
    by_cases hqt : q = this
    · simp [hqt] at hq
    · simp only [hqt, if_false] at hq
      have hn := ho.noReset q
      cases hs : s.find q with
      | none =>
        rw [hs] at hq
        by_cases hm : q ∈ impl.GetReferencedCells <;> simp [hm, linkedSlot] at hq
      | some v =>
        cases v with
        | none => exact hn hs
        | some c =>
          rw [hs] at hq
          by_cases hm : q ∈ impl.GetReferencedCells <;> simp [hm, linkedSlot] at hq
  · intro x c1 hc1 y hy
    by_cases hx : x = this
    · subst hx
      rw [hd4] at hc1
      injection hc1 with hc1
      subst hc1
      have hy0 : y ∈ c0.l_nodes := (mem_unlinkedCell.1 hy).1
      obtain ⟨cy, hcy, hxy⟩ := ho.mirrorBack x c0 hthis y hy0
      have hyne : y ≠ x := by
        intro h; subst h
        rw [hthis] at hcy
        injection hcy with hcy
        subst hcy
        exact hself hxy
      obtain ⟨c2, hc2, _, hr2, _⟩ := committed_old h4 hyne hcy
      exact ⟨c2, hc2, by rw [hr2]; exact hxy⟩
    · rcases committed_other h4 hx hc1 with ⟨c, hc, _, _, hl⟩ | ⟨_, hm, hc⟩
      · rcases (hl y).1 hy with ⟨h1, h2⟩ | ⟨h1, h2⟩
        · obtain ⟨cy, hcy, hxy⟩ := ho.mirrorBack x c hc y h1
          by_cases hyt : y = this
          · exfalso
            subst hyt
            rw [hthis] at hcy
            injection hcy with hcy
            subst hcy
            exact h2 hxy rfl
          · obtain ⟨c2, hc2, _, hr2, _⟩ := committed_old h4 hyt hcy
            exact ⟨c2, hc2, by rw [hr2]; exact hxy⟩
        · subst h1
          exact ⟨_, hd4, mem_linkedRefs.2 (Or.inl h2)⟩
      · subst hc
        simp at hy
        subst hy
        exact ⟨_, hd4, mem_linkedRefs.2 (Or.inl hm)⟩
  · intro x c1 hc1 y hy
    by_cases hx : x = this
    · subst hx
      rw [hd4] at hc1
      injection hc1 with hc1
      subst hc1
      rcases mem_linkedRefs.1 hy with h | h
      · exact h
      · simp at h
    · rcases committed_other h4 hx hc1 with ⟨c, hc, hi, hr, _⟩ | ⟨_, _, hc⟩
      · rw [hi]
        rw [hr] at hy
        exact ho.outRefs x c hc y hy
      · subst hc; simp at hy

theorem commit_wellFormed {pf : Parser} {n : Nat} {s s1 : Sheet} {this : CellPtr} {impl : Impl}
    {c0 : Cell} (hw : WellFormed s) (hthis : s.deref this = some c0)
    (hsearch : Cell.SearchCircularDependency s this impl = .ok false)
    (h : Cell.commit (Sheet.SetCellN pf (n + 1)) s this impl = .ok s1) :
    WellFormed s1 ∧ (SetOnly s → SetOnly s1) := by
  have hnot : this ∉ impl.GetReferencedCells :=
    search_false_not_ref hsearch this Relation.ReflTransGen.refl
  obtain ⟨s4, h4, hicr, hrefs, _⟩ := commit_ok hthis hnot h
  have hsk := icr_skeleton _ _ _ _ _ hicr
  have hk1 := commit_keys hnot h ⟨hw.keysValid, hw.keysNodup⟩
  have hk4 : (∀ k ∈ s4.cells.map Prod.fst, k.IsValid = true) ∧ (s4.cells.map Prod.fst).Nodup := by
    rw [← hsk.2]; exact hk1
  have hw4 := committed_wellFormed hw hthis hsearch h4 hrefs hk4
  exact ⟨hsk.wellFormed hw4, fun ho => hsk.setOnly (committed_setOnly hw ho hthis hsearch h4)⟩

/-! ## Every call keeps the invariants -/

theorem linkRef_raised_invalid {sc : Sheet → Position → String → Outcome Sheet}
    (hsc : ∀ st pos e st1, sc st pos "" = .raised e st1 → pos.IsValid = false)
    {this : CellPtr} {s : Sheet} {pos : Position} {e : Exn} {s1 : Sheet}
    (h : Cell.linkRef sc this s pos = .raised e s1) : pos.IsValid = false := by
  unfold Cell.linkRef at h
  rcases bind_raised h with h1 | ⟨a, _, h2⟩
  · exact (GetCellPtr_raised h1).2.2
  · rcases bind_raised h2 with h3 | ⟨b, _, h4⟩
    · split at h3
      · cases h3
      · exact hsc _ _ _ _ h3
    · rcases bind_raised h4 with h5 | ⟨c, _, h6⟩
      · exact (GetCellPtr_raised h5).2.2
      · split at h6
        · cases h6
        · rcases bind_raised h6 with h7 | ⟨d, _, h8⟩
          · exact (modify_not_raised h7).elim
          · exact (modify_not_raised h8).elim

theorem commit_raised_invalid {sc : Sheet → Position → String → Outcome Sheet}
    (hsc : ∀ st pos e st1, sc st pos "" = .raised e st1 → pos.IsValid = false)
    {s : Sheet} {this : CellPtr} {impl : Impl} {e : Exn} {s1 : Sheet}
    (h : Cell.commit sc s this impl = .raised e s1) :
    ∃ q ∈ impl.GetReferencedCells, q.IsValid = false := by
  unfold Cell.commit at h
  rcases bind_raised h with h0 | ⟨d, _, h8⟩
  · unfold Cell.relink at h0
    rcases bind_raised h0 with h1 | ⟨a, _, h2⟩
    · exact (modify_not_raised h1).elim
    · rcases bind_raised h2 with h3 | ⟨b, _, h4⟩
      · exact (unlinkAll_not_raised h3).elim
      · rcases bind_raised h4 with h5 | ⟨c, _, h7⟩
        · exact (modify_not_raised h5).elim
        · obtain ⟨st, x, hx, hx2⟩ := forEach_raised h7
          exact ⟨x, hx, linkRef_raised_invalid hsc hx2⟩
  · exact absurd h8 (icr_not_raised _ _ _ _ _ _)

theorem SetCellN_empty_raised_invalid (pf : Parser) : ∀ (n : Nat) (st : Sheet) (pos : Position)
    (e : Exn) (st1 : Sheet), Sheet.SetCellN pf n st pos "" = .raised e st1 →
      pos.IsValid = false := by
  intro n
  induction n with
  | zero => intro st pos e st1 h; simp [Sheet.SetCellN] at h
  | succ n ih =>
    intro st pos e st1 h
    simp only [Sheet.SetCellN] at h
    split at h
    · rename_i hv; simpa using hv
    · split at h
      · simp only [Cell.Set, newImpl_empty, Cell.SearchCircularDependency,
          Impl.GetReferencedCells, List.isEmpty, if_true, Outcome.bind] at h
        obtain ⟨q, hq, _⟩ := commit_raised_invalid ih (by simpa using h)
        simp [Impl.GetReferencedCells] at hq
      · cases h
      · simp only [Cell.Set, newImpl_empty, Cell.SearchCircularDependency,
          Impl.GetReferencedCells, List.isEmpty, if_true, Outcome.bind] at h
        obtain ⟨q, hq, _⟩ := commit_raised_invalid ih (by simpa using h)
        simp [Impl.GetReferencedCells] at hq

theorem Set_raised_state {pf : Parser} {n : Nat} {s : Sheet} {this : CellPtr} {text : String}
    {e : Exn} {s1 : Sheet}
    (h : Cell.Set pf (Sheet.SetCellN pf (n + 1)) s this text = .raised e s1) : s1 = s := by
  unfold Cell.Set at h
  split at h
  · injection h with _ h2; exact h2.symm
  · rename_i impl _
    rcases bind_raised h with h1 | ⟨a, ha, h2⟩
    · exact (search_raised h1).2
    · split at h2
      · injection h2 with _ h3; exact h3.symm
      · exfalso
        obtain ⟨q, hq, hq2⟩ := commit_raised_invalid (SetCellN_empty_raised_invalid pf (n + 1)) h2
        rw [search_ok_valid ha q hq] at hq2
        cases hq2

/-- What a raising `SetCell` leaves behind: the sheet itself, or the sheet with
a fresh cell emplaced at the (valid, absent) position. -/
theorem SetCell_raised_state {pf : Parser} {s : Sheet} {pos : Position} {text : String} {e : Exn}
    {s1 : Sheet} (h : s.SetCell pf pos text = .raised e s1) :
    s1 = s ∨ (s.find pos = none ∧ pos.IsValid = true ∧ s1 = s.emplace pos) := by
  unfold Sheet.SetCell at h
  simp only [Sheet.SetCellN] at h
  split at h
  · injection h with _ h2; exact Or.inl h2.symm
  · rename_i hv
    simp at hv
    split at h
    · rename_i hf
      have h2 : Cell.Set pf (Sheet.SetCellN pf (0 + 1)) (s.emplace pos) pos text
          = .raised e s1 := h
      exact Or.inr ⟨hf, hv, Set_raised_state h2⟩
    · cases h
    · have h2 : Cell.Set pf (Sheet.SetCellN pf (0 + 1)) s pos text = .raised e s1 := h
      exact Or.inl (Set_raised_state h2)

theorem wellFormed_empty : WellFormed Sheet.empty := by
  refine ⟨?_, ?_, ?_, ?_, ?_⟩
  · intro k hk; simp [Sheet.empty] at hk
  · simp [Sheet.empty]
  · intro x c hc; simp [Sheet.deref, Sheet.find, Sheet.empty, findSlot] at hc
  · intro x c hc; simp [Sheet.deref, Sheet.find, Sheet.empty, findSlot] at hc
  · intro x hx
    obtain ⟨b, hb, _⟩ := Relation.TransGen.head'_iff.1 hx
    obtain ⟨c, hc, _⟩ := hb
    simp [Sheet.deref, Sheet.find, Sheet.empty, findSlot] at hc

theorem setOnly_empty : SetOnly Sheet.empty := by
  refine ⟨?_, ?_, ?_⟩
  · intro q hq; simp [Sheet.find, Sheet.empty, findSlot] at hq
  · intro x c hc; simp [Sheet.deref, Sheet.find, Sheet.empty, findSlot] at hc
  · intro x c hc; simp [Sheet.deref, Sheet.find, Sheet.empty, findSlot] at hc

theorem emplace_deref_cases {s : Sheet} {pos q : Position} {c : Cell} (hf : s.find pos = none)
    (hc : (s.emplace pos).deref q = some c) :
    (q = pos ∧ c = Cell.new) ∨ (q ≠ pos ∧ s.deref q = some c) := by
  rw [deref_emplace s pos q hf] at hc
  by_cases hq : q = pos
  · simp only [hq, if_true, Option.some.injEq] at hc
    exact Or.inl ⟨hq, hc.symm⟩
  · simp only [hq, if_false] at hc
    exact Or.inr ⟨hq, hc⟩

theorem emplace_deref_old {s : Sheet} {pos q : Position} {c : Cell} (hf : s.find pos = none)
    (hc : s.deref q = some c) : (s.emplace pos).deref q = some c := by
  rw [deref_emplace s pos q hf]
  have hq : q ≠ pos := by
    intro h; subst h
    have := find_of_deref hc
    rw [hf] at this; cases this
  simp [hq, hc]

theorem wellFormed_emplace {s : Sheet} {pos : Position} (hw : WellFormed s)
    (hf : s.find pos = none) (hv : pos.IsValid = true) : WellFormed (s.emplace pos) := by
  refine ⟨?_, ?_, ?_, ?_, ?_⟩
  · intro k hk
    rw [keys_emplace] at hk
    rcases List.mem_append.1 hk with h | h
    · exact hw.keysValid k h
    · simp at h; subst h; exact hv
  · rw [keys_emplace, List.nodup_append]
    refine ⟨hw.keysNodup, List.nodup_singleton _, ?_⟩
    intro a ha hb
    simp at hb; subst hb
    exact find_none_iff.1 hf ha
  · intro x c hc y hy
    rcases emplace_deref_cases hf hc with ⟨_, h2⟩ | ⟨_, h2⟩
    · subst h2; simp [Cell.new] at hy
    · obtain ⟨cy, hcy, hxy⟩ := hw.mirror x c h2 y hy
      exact ⟨cy, emplace_deref_old hf hcy, hxy⟩
  · intro x c hc q hq
    rcases emplace_deref_cases hf hc with ⟨_, h2⟩ | ⟨_, h2⟩
    · subst h2; simp [Cell.new, Impl.GetReferencedCells] at hq
    · exact hw.refsLinked x c h2 q hq
  · apply acyclic_sub_edges _ hw.acyclic
    intro a b hab
    obtain ⟨c, hc, hb⟩ := hab
    rcases emplace_deref_cases hf hc with ⟨_, h2⟩ | ⟨_, h2⟩
    · subst h2; simp [Cell.new] at hb
    · exact ⟨c, h2, hb⟩

theorem setOnly_emplace {s : Sheet} {pos : Position} (ho : SetOnly s)
    (hf : s.find pos = none) : SetOnly (s.emplace pos) := by
  refine ⟨?_, ?_, ?_⟩
  · intro q hq
    rw [find_emplace s pos q hf] at hq
    by_cases h : q = pos
    · simp [h] at hq
    · simp only [h, if_false] at hq
      exact ho.noReset q hq
  · intro x c hc y hy
    rcases emplace_deref_cases hf hc with ⟨_, h2⟩ | ⟨_, h2⟩
    · subst h2; simp [Cell.new] at hy
    · obtain ⟨cy, hcy, hxy⟩ := ho.mirrorBack x c h2 y hy
      exact ⟨cy, emplace_deref_old hf hcy, hxy⟩
  · intro x c hc y hy
    rcases emplace_deref_cases hf hc with ⟨_, h2⟩ | ⟨_, h2⟩
    · subst h2; simp [Cell.new] at hy
    · exact ho.outRefs x c h2 y hy

theorem Set_ok {pf : Parser} {sc : Sheet → Position → String → Outcome Sheet} {s s1 : Sheet}
    {this : CellPtr} {text : String} (h : Cell.Set pf sc s this text = .ok s1) :
    ∃ impl, Cell.newImpl pf text = some impl ∧
      Cell.SearchCircularDependency s this impl = .ok false ∧
      Cell.commit sc s this impl = .ok s1 := by
  unfold Cell.Set at h
  split at h
  · cases h
  · rename_i impl himpl
    obtain ⟨b, hb, h2⟩ := bind_ok h
    cases b with
    | true => simp at h2
    | false => exact ⟨impl, himpl, hb, by simpa using h2⟩

/-- A successful `SetCell`: the position is valid, the text gives a
representation, the search finds no cycle, and the commit runs on the sheet
with the cell emplaced if the key was absent. -/
theorem SetCell_ok {pf : Parser} {s s1 : Sheet} {pos : Position} {text : String}
    (h : s.SetCell pf pos text = .ok s1) :
    pos.IsValid = true ∧ ∃ s0 c0 impl,
      ((s.find pos = none ∧ s0 = s.emplace pos) ∨ (s.stored pos = true ∧ s0 = s)) ∧
      s0.deref pos = some c0 ∧ Cell.newImpl pf text = some impl ∧
      Cell.SearchCircularDependency s0 pos impl = .ok false ∧
      Cell.commit (Sheet.SetCellN pf (0 + 1)) s0 pos impl = .ok s1 := by
  unfold Sheet.SetCell at h
  simp only [Sheet.SetCellN] at h
  split at h
  · cases h
  · rename_i hv
    simp at hv
    refine ⟨hv, ?_⟩
    split at h
    · rename_i hf
      obtain ⟨impl, h1, h2, h3⟩ := Set_ok h
      exact ⟨s.emplace pos, Cell.new, impl, Or.inl ⟨hf, rfl⟩,
        by rw [deref_emplace s pos pos hf]; simp, h1, h2, h3⟩
    · cases h
    · rename_i c hf
      obtain ⟨impl, h1, h2, h3⟩ := Set_ok h
      exact ⟨s, c, impl, Or.inr ⟨stored_iff.2 ⟨c, deref_of_find hf⟩, rfl⟩, deref_of_find hf,
        h1, h2, h3⟩

theorem SetCell_wellFormed {pf : Parser} {s s1 : Sheet} {pos : Position} {text : String}
    (hw : WellFormed s) (h : (s.SetCell pf pos text).sheet = some s1) :
    WellFormed s1 ∧ (SetOnly s → SetOnly s1) := by
  cases ho : s.SetCell pf pos text with
  | ok s2 =>
    rw [ho] at h
    simp only [Outcome.sheet, Option.some.injEq] at h
    subst h
    obtain ⟨hv, s0, c0, impl, hs0, hc0, _, hsearch, hcommit⟩ := SetCell_ok ho
    rcases hs0 with ⟨hf, hs0⟩ | ⟨_, hs0⟩
    · subst hs0
      obtain ⟨h1, h2⟩ := commit_wellFormed (wellFormed_emplace hw hf hv) hc0 hsearch hcommit
      exact ⟨h1, fun hso => h2 (setOnly_emplace hso hf)⟩
    · subst hs0
      exact commit_wellFormed hw hc0 hsearch hcommit
  | raised e s2 =>
    rw [ho] at h
    simp only [Outcome.sheet, Option.some.injEq] at h
    subst h
    rcases SetCell_raised_state ho with h1 | ⟨hf, hv, h1⟩
    · subst h1; exact ⟨hw, fun h => h⟩
    · subst h1
      exact ⟨wellFormed_emplace hw hf hv, fun hso => setOnly_emplace hso hf⟩
  | ub => rw [ho] at h; simp [Outcome.sheet] at h
  | outOfFuel => rw [ho] at h; simp [Outcome.sheet] at h

theorem ClearCell_cases (s : Sheet) (pos : Position) :
    (pos.IsValid = false ∧ s.ClearCell pos = .raised .InvalidPosition s) ∨
    (pos.IsValid = true ∧ s.deref pos = none ∧ s.ClearCell pos = .ok s) ∨
    (pos.IsValid = true ∧ ∃ c, s.deref pos = some c ∧ c.l_nodes = [] ∧
      s.ClearCell pos = .ok (s.reset pos)) ∨
    (pos.IsValid = true ∧ ∃ c, s.deref pos = some c ∧ c.l_nodes ≠ [] ∧
      s.ClearCell pos = .ok (s.store pos { c with impl := .empty })) := by
  unfold Sheet.ClearCell
  by_cases hv : pos.IsValid = true
  · simp only [hv, Bool.not_true, Bool.false_eq_true, if_false]
    cases hf : s.find pos with
    | none => right; left; simp [Sheet.deref, hf]
    | some v =>
      cases v with
      | none => right; left; simp [Sheet.deref, hf]
      | some c =>
        right; right
        by_cases hl : c.l_nodes = []
        · left
          exact ⟨trivial, c, deref_of_find hf, hl, by simp [Cell.IsReferenced, hl]⟩
        · right
          refine ⟨trivial, c, deref_of_find hf, hl, ?_⟩
          have : c.l_nodes.isEmpty = false := by
            cases hc : c.l_nodes with
            | nil => exact absurd hc hl
            | cons a l => rfl
          simp [Cell.IsReferenced, this]
  · left
    simp at hv
    simp [hv]

theorem ClearCell_wellFormed {s s1 : Sheet} {pos : Position} (hw : WellFormed s)
    (h : (s.ClearCell pos).sheet = some s1) : WellFormed s1 := by
  rcases ClearCell_cases s pos with ⟨_, h1⟩ | ⟨_, _, h1⟩ | ⟨_, c, hc, hl, h1⟩ | ⟨_, c, hc, hl, h1⟩
  · rw [h1] at h; simp [Outcome.sheet] at h; subst h; exact hw
  · rw [h1] at h; simp [Outcome.sheet] at h; subst h; exact hw
  · rw [h1] at h; simp [Outcome.sheet] at h; subst h
    have hd : ∀ q c1, (s.reset pos).deref q = some c1 → q ≠ pos ∧ s.deref q = some c1 := by
      intro q c1 hq
      rw [deref_reset] at hq
      by_cases hqp : q = pos
      · simp [hqp] at hq
      · simp only [hqp, if_false] at hq; exact ⟨hqp, hq⟩
    refine ⟨?_, ?_, ?_, ?_, ?_⟩
    · rw [keys_reset]; exact hw.keysValid
    · rw [keys_reset]; exact hw.keysNodup
    · intro x c1 hc1 y hy
      obtain ⟨_, hx2⟩ := hd x c1 hc1
      obtain ⟨cy, hcy, hxy⟩ := hw.mirror x c1 hx2 y hy
      have hyp : y ≠ pos := by
        intro hh; subst hh
        rw [hc] at hcy
        injection hcy with hcy
        subst hcy
        rw [hl] at hxy; simp at hxy
      exact ⟨cy, by rw [deref_reset]; simp [hyp, hcy], hxy⟩
    · intro x c1 hc1 q hq
      exact hw.refsLinked x c1 (hd x c1 hc1).2 q hq
    · apply acyclic_sub_edges _ hw.acyclic
      intro a b hab
      obtain ⟨c1, hc1, hb⟩ := hab
      exact ⟨c1, (hd a c1 hc1).2, hb⟩
  · rw [h1] at h; simp [Outcome.sheet] at h; subst h
    have hd : ∀ q c1, (s.store pos { c with impl := Impl.empty }).deref q = some c1 →
        ∃ c2, s.deref q = some c2 ∧ c1.l_nodes = c2.l_nodes ∧ c1.r_nodes = c2.r_nodes ∧
          ∀ r ∈ c1.impl.GetReferencedCells, r ∈ c2.impl.GetReferencedCells := by
      intro q c1 hq
      rw [deref_store _ _ hc] at hq
      by_cases hqp : q = pos
      · simp only [hqp, if_true, Option.some.injEq] at hq
        subst hq
        exact ⟨c, hqp ▸ hc, rfl, rfl, fun r hr => by simp [Impl.GetReferencedCells] at hr⟩
      · simp only [hqp, if_false] at hq
        exact ⟨c1, hq, rfl, rfl, fun r hr => hr⟩
    have hd2 : ∀ q c2, s.deref q = some c2 →
        ∃ c1, (s.store pos { c with impl := Impl.empty }).deref q = some c1 ∧
          c1.l_nodes = c2.l_nodes := by
      intro q c2 hq
      rw [deref_store _ _ hc]
      by_cases hqp : q = pos
      · subst hqp
        rw [hc] at hq
        injection hq with hq
        subst hq
        exact ⟨{ c with impl := Impl.empty }, by simp, rfl⟩
      · exact ⟨c2, by simp [hqp, hq], rfl⟩
    refine ⟨?_, ?_, ?_, ?_, ?_⟩
    · rw [keys_store]; exact hw.keysValid
    · rw [keys_store]; exact hw.keysNodup
    · intro x c1 hc1 y hy
      obtain ⟨c2, hc2, _, hr, _⟩ := hd x c1 hc1
      obtain ⟨cy, hcy, hxy⟩ := hw.mirror x c2 hc2 y (hr ▸ hy)
      obtain ⟨cy1, hcy1, hl1⟩ := hd2 y cy hcy
      exact ⟨cy1, hcy1, hl1 ▸ hxy⟩
    · intro x c1 hc1 q hq
      obtain ⟨c2, hc2, _, hr, hrefs⟩ := hd x c1 hc1
      rw [hr]
      exact hw.refsLinked x c2 hc2 q (hrefs q hq)
    · apply acyclic_sub_edges _ hw.acyclic
      intro a b hab
      obtain ⟨c1, hc1, hb⟩ := hab
      obtain ⟨c2, hc2, hl2, _, _⟩ := hd a c1 hc1
      exact ⟨c2, hc2, hl2 ▸ hb⟩

theorem evalRefs_not_raised {gv : Sheet → CellPtr → Outcome (Sheet × Value × Nat)}
    (hgv : ∀ s p e s1, gv s p ≠ .raised e s1) :
    ∀ (refs : List Position) (s : Sheet) (e : Exn) (s1 : Sheet),
      evalRefs gv refs s ≠ .raised e s1 := by
  intro refs
  induction refs with
  | nil => intro s e s1 h; simp [evalRefs] at h
  | cons q rest ih =>
    intro s e s1 h
    simp only [evalRefs] at h
    split at h
    · exact ih _ _ _ h
    · rcases bind_raised h with h1 | ⟨a, _, h2⟩
      · exact hgv _ _ _ _ h1
      · rcases bind_raised h2 with h3 | ⟨b, _, h4⟩
        · exact ih _ _ _ h3
        · cases h4

theorem evaluate_not_raised {gv : Sheet → CellPtr → Outcome (Sheet × Value × Nat)}
    (hgv : ∀ s p e s1, gv s p ≠ .raised e s1) (s : Sheet) (f : Formula) (e : Exn) (s1 : Sheet) :
    Evaluate gv s f ≠ .raised e s1 := by
  intro h
  unfold Evaluate at h
  rcases bind_raised h with h1 | ⟨a, _, h2⟩
  · exact evalRefs_not_raised hgv _ _ _ _ h1
  · cases h2

theorem getValue_not_raised : ∀ (d : Nat) (s : Sheet) (p : CellPtr) (e : Exn) (s1 : Sheet),
    Cell.GetValue d s p ≠ .raised e s1 := by
  intro d
  induction d with
  | zero => intro s p e s1 h; simp [Cell.GetValue] at h
  | succ d ih =>
    intro s p e s1 h
    simp only [Cell.GetValue] at h
    split at h
    · cases h
    · split at h
      · cases h
      · cases h
      · rcases bind_raised h with h1 | ⟨a, _, h2⟩
        · split at h1
          · cases h1
          · rcases bind_raised h1 with h3 | ⟨b, _, h4⟩
            · exact evaluate_not_raised ih _ _ _ _ h3
            · rcases bind_raised h4 with h5 | ⟨c, _, h6⟩
              · exact modify_not_raised h5
              · cases h6
        · rcases bind_raised h2 with h3 | ⟨b, _, h4⟩
          · exact evaluate_not_raised ih _ _ _ _ h3
          · cases h4

theorem GetValue_run {s s1 : Sheet} {pos : Position}
    (h : (Call.GetValue pos).run pf s = some s1) : SameSkeleton s s1 := by
  simp only [Call.run] at h
  split at h
  · rename_i r hr
    injection h with h; subst h
    unfold Sheet.GetValue at hr
    obtain ⟨p, _, h2⟩ := bind_ok hr
    split at h2
    · cases h2
    · exact getValue_skeleton _ _ _ _ h2
  · rename_i e s2 hr
    injection h with h; subst h
    unfold Sheet.GetValue at hr
    rcases bind_raised hr with h1 | ⟨p, _, h2⟩
    · unfold Sheet.GetCell at h1
      rw [(GetCellPtr_raised h1).2.1]
      exact SameSkeleton.refl s
    · split at h2
      · cases h2
      · exact absurd h2 (getValue_not_raised _ _ _ _ _)
  · cases h

theorem run_wellFormed {pf : Parser} {s s1 : Sheet} {c : Call} (hw : WellFormed s)
    (h : c.run pf s = some s1) : WellFormed s1 := by
  cases c with
  | SetCell pos text => exact (SetCell_wellFormed hw h).1
  | ClearCell pos => exact ClearCell_wellFormed hw h
  | GetValue pos => exact (GetValue_run h).wellFormed hw

theorem runCalls_wellFormed {pf : Parser} : ∀ {calls : List Call} {s s1 : Sheet},
    WellFormed s → runCalls pf calls s = some s1 → WellFormed s1 := by
  intro calls
  induction calls with
  | nil => intro s s1 hw h; simp [runCalls] at h; subst h; exact hw
  | cons c rest ih =>
    intro s s1 hw h
    simp only [runCalls] at h
    cases hc : c.run pf s with
    | none => rw [hc] at h; simp at h
    | some s2 =>
      rw [hc] at h
      exact ih (run_wellFormed hw hc) h

theorem reachable_wellFormed {pf : Parser} {s : Sheet} (h : Reachable pf s) : WellFormed s := by
  obtain ⟨calls, hc⟩ := h
  exact runCalls_wellFormed wellFormed_empty hc

theorem reachableByEdits_reachable {pf : Parser} {s : Sheet} (h : ReachableByEdits pf s) :
    Reachable pf s := by
  obtain ⟨calls, _, hc⟩ := h
  exact ⟨calls, hc⟩

theorem runCalls_setOnly {pf : Parser} : ∀ {calls : List Call} {s s1 : Sheet},
    (∀ c ∈ calls, c.isSet = true) → WellFormed s → SetOnly s →
      runCalls pf calls s = some s1 → WellFormed s1 ∧ SetOnly s1 := by
  intro calls
  induction calls with
  | nil => intro s s1 _ hw ho h; simp [runCalls] at h; subst h; exact ⟨hw, ho⟩
  | cons c rest ih =>
    intro s s1 hall hw ho h
    simp only [runCalls] at h
    cases hc : c.run pf s with
    | none => rw [hc] at h; simp at h
    | some s2 =>
      rw [hc] at h
      have hset := hall c (List.mem_cons_self _ _)
      cases c with
      | SetCell pos text =>
        obtain ⟨h1, h2⟩ := SetCell_wellFormed hw hc
        exact ih (fun c hc => hall c (List.mem_cons_of_mem _ hc)) h1 (h2 ho) h
      | ClearCell pos => simp [Call.isSet] at hset
      | GetValue pos => simp [Call.isSet] at hset

theorem reachableBySet_inv {pf : Parser} {s : Sheet} (h : ReachableBySet pf s) :
    WellFormed s ∧ SetOnly s := by
  obtain ⟨calls, hall, hc⟩ := h
  exact runCalls_setOnly hall wellFormed_empty setOnly_empty hc

/-! ## Statements about reachable sheets -/

theorem reachable_of_completes {pf : Parser} {calls : List Call}
    (h : completes pf calls = true) : Reachable pf (sheetAfter pf calls) := by
  unfold completes at h
  unfold sheetAfter
  cases hr : runCalls pf calls Sheet.empty with
  | none => rw [hr] at h; simp at h
  | some s => exact ⟨calls, by simp [hr]⟩

theorem reachableByEdits_of_completes {pf : Parser} {calls : List Call}
    (he : ∀ c ∈ calls, c.isEdit = true) (h : completes pf calls = true) :
    ReachableByEdits pf (sheetAfter pf calls) := by
  unfold completes at h
  unfold sheetAfter
  cases hr : runCalls pf calls Sheet.empty with
  | none => rw [hr] at h; simp at h
  | some s => exact ⟨calls, he, by simp [hr]⟩

theorem reachableBySet_of_completes {pf : Parser} {calls : List Call}
    (he : ∀ c ∈ calls, c.isSet = true) (h : completes pf calls = true) :
    ReachableBySet pf (sheetAfter pf calls) := by
  unfold completes at h
  unfold sheetAfter
  cases hr : runCalls pf calls Sheet.empty with
  | none => rw [hr] at h; simp at h
  | some s => exact ⟨calls, he, by simp [hr]⟩

/-- C19: in every sheet state reachable from the empty sheet by `SetCell` and
`ClearCell` calls, successful or failing, the dependency graph is acyclic:
no non-empty path along outgoing edges, and none along incoming edges, leads
from a cell back to itself. -/
theorem C19_dependency_graph_acyclic (pf : Parser) (s : Sheet) (h : ReachableByEdits pf s)
    (x : CellPtr) :
    ¬ Relation.TransGen (OutgoingEdge s) x x ∧ ¬ Relation.TransGen (IncomingEdge s) x x := by
  have hw := reachable_wellFormed (reachableByEdits_reachable h)
  refine ⟨fun hx => ?_, hw.acyclic x⟩
  have hmono : Relation.TransGen (Function.swap (IncomingEdge s)) x x :=
    Relation.TransGen.mono (fun a b hab => by
      obtain ⟨c, hc, hb⟩ := hab
      obtain ⟨cy, hcy, hxy⟩ := hw.mirror a c hc b hb
      exact ⟨cy, hcy, hxy⟩) hx
  exact hw.acyclic x (Relation.transGen_swap.1 hmono)

/-- C19, witness: the sheet after `SetCell(B1,"=A1")`, the failing
`SetCell(A1,"=B1")` and `ClearCell(C1)` is reachable by edits, and has no
cycle through `A1`. -/
theorem C19_dependency_graph_acyclic_witness :
    ReachableByEdits ParseFormula
      (sheetAfter ParseFormula [.SetCell B1 "=A1", .SetCell A1 "=B1", .ClearCell C1]) ∧
    (¬ Relation.TransGen
        (OutgoingEdge (sheetAfter ParseFormula
          [.SetCell B1 "=A1", .SetCell A1 "=B1", .ClearCell C1])) A1 A1 ∧
      ¬ Relation.TransGen
        (IncomingEdge (sheetAfter ParseFormula
          [.SetCell B1 "=A1", .SetCell A1 "=B1", .ClearCell C1])) A1 A1) :=
  ⟨reachableByEdits_of_completes (by decide) (by decide),
    C19_dependency_graph_acyclic ParseFormula _
      (reachableByEdits_of_completes (by decide) (by decide)) A1⟩

theorem getValue_empty {s : Sheet} {p : CellPtr} {c : Cell} (d : Nat) (hc : s.deref p = some c)
    (hi : c.impl = .empty) : Cell.GetValue (d + 1) s p = .ok (s, .str "", 0) := by
  simp [Cell.GetValue, hc, hi]

/-- C10: in a reachable sheet state, when the position `A` is read by the
representation of a stored cell `B`, a cell is stored at `A`, and
`ClearCell(A)` returns and leaves a cell stored at `A` whose text is "" and
whose value is the empty string, with the incoming set of `A` unchanged. -/
theorem C10_clear_keeps_referenced_cell (pf : Parser) (s : Sheet) (hr : Reachable pf s)
    (A B : Position) (hB : A ∈ s.refsAt B) :
    s.stored A = true ∧
    ∃ s1, s.ClearCell A = .ok s1 ∧ s1.stored A = true ∧ s1.GetText A = "" ∧
      s1.GetValue A = .ok (s1, .str "", 0) ∧ s1.incoming A = s.incoming A := by
  have hw := reachable_wellFormed hr
  obtain ⟨cB, hcB, hAB⟩ : ∃ cB, s.deref B = some cB ∧ A ∈ cB.impl.GetReferencedCells := by
    unfold Sheet.refsAt at hB
    cases hd : s.deref B with
    | none => rw [hd] at hB; simp at hB
    | some cB => rw [hd] at hB; exact ⟨cB, rfl, hB⟩
  obtain ⟨cA, hcA, hBA⟩ := hw.mirror B cB hcB A (hw.refsLinked B cB hcB A hAB)
  have hne : cA.l_nodes ≠ [] := by
    intro h0; rw [h0] at hBA; simp at hBA
  have hvalid : A.IsValid = true := hw.keysValid A (keys_of_deref hcA)
  rcases ClearCell_cases s A with ⟨h1, _⟩ | ⟨_, h1, _⟩ | ⟨_, c, hc, hl, _⟩ | ⟨_, c, hc, hl, h1⟩
  · rw [hvalid] at h1; cases h1
  · rw [hcA] at h1; cases h1
  · rw [hcA] at hc
    injection hc with hc
    subst hc
    exact absurd hl hne
  · rw [hcA] at hc
    injection hc with hc
    subst hc
    have hd1 : (s.store A { cA with impl := Impl.empty }).deref A
        = some { cA with impl := Impl.empty } := deref_store_same _ hcA
    refine ⟨stored_iff.2 ⟨_, hcA⟩, _, h1, stored_iff.2 ⟨_, hd1⟩, ?_, ?_, ?_⟩
    · simp [Sheet.GetText, hd1, Impl.GetText]
    · have hg : (s.store A { cA with impl := Impl.empty }).GetCell A = .ok (some A) := by
        unfold Sheet.GetCell
        rw [GetCellPtr_valid hvalid, stored_iff.2 ⟨_, hd1⟩]
        rfl
      unfold Sheet.GetValue
      rw [hg]
      simp only [Outcome.bind, Sheet.depthFuel]
      exact getValue_empty _ hd1 rfl
    · simp [Sheet.incoming, hd1, hcA]

/-- C10, witness: after `SetCell(A1,"5")`, `SetCell(B1,"=A1")` the cell `A1` is
stored and read by `B1`; `ClearCell(A1)` keeps it as an Empty cell. -/
theorem C10_clear_keeps_referenced_cell_witness :
    (Reachable ParseFormula (sheetAfter ParseFormula [.SetCell A1 "5", .SetCell B1 "=A1"]) ∧
      A1 ∈ (sheetAfter ParseFormula [.SetCell A1 "5", .SetCell B1 "=A1"]).refsAt B1) ∧
    (sheetAfter ParseFormula [.SetCell A1 "5", .SetCell B1 "=A1"]).stored A1 = true ∧
    ∃ s1, (sheetAfter ParseFormula [.SetCell A1 "5", .SetCell B1 "=A1"]).ClearCell A1 = .ok s1 ∧
      s1.stored A1 = true ∧ s1.GetText A1 = "" ∧
      s1.GetValue A1 = .ok (s1, .str "", 0) ∧
      s1.incoming A1
        = (sheetAfter ParseFormula [.SetCell A1 "5", .SetCell B1 "=A1"]).incoming A1 :=
  ⟨⟨reachable_of_completes (by decide), by decide⟩,
    C10_clear_keeps_referenced_cell ParseFormula _ (reachable_of_completes (by decide)) A1 B1
      (by decide)⟩

/-! ## The printable size -/

theorem printable_fold (l : List (Position × Option Cell)) : ∀ (acc : Size),
    acc.rows ≤ (l.foldl
      (fun result e =>
        match e.2 with
        | some _ => (⟨max result.rows (e.1.row + 1), max result.cols (e.1.col + 1)⟩ : Size)
        | none => result) acc).rows ∧
    acc.cols ≤ (l.foldl
      (fun result e =>
        match e.2 with
        | some _ => (⟨max result.rows (e.1.row + 1), max result.cols (e.1.col + 1)⟩ : Size)
        | none => result) acc).cols ∧
    (∀ k c, (k, some c) ∈ l →
      k.row + 1 ≤ (l.foldl
        (fun result e =>
          match e.2 with
          | some _ => (⟨max result.rows (e.1.row + 1), max result.cols (e.1.col + 1)⟩ : Size)
          | none => result) acc).rows ∧
      k.col + 1 ≤ (l.foldl
        (fun result e =>
          match e.2 with
          | some _ => (⟨max result.rows (e.1.row + 1), max result.cols (e.1.col + 1)⟩ : Size)
          | none => result) acc).cols) ∧
    ((l.foldl
        (fun result e =>
          match e.2 with
          | some _ => (⟨max result.rows (e.1.row + 1), max result.cols (e.1.col + 1)⟩ : Size)
          | none => result) acc).rows = acc.rows ∨
      ∃ k c, (k, some c) ∈ l ∧ (l.foldl
        (fun result e =>
          match e.2 with
          | some _ => (⟨max result.rows (e.1.row + 1), max result.cols (e.1.col + 1)⟩ : Size)
          | none => result) acc).rows = k.row + 1) ∧
    ((l.foldl
        (fun result e =>
          match e.2 with
          | some _ => (⟨max result.rows (e.1.row + 1), max result.cols (e.1.col + 1)⟩ : Size)
          | none => result) acc).cols = acc.cols ∨
      ∃ k c, (k, some c) ∈ l ∧ (l.foldl
        (fun result e =>
          match e.2 with
          | some _ => (⟨max result.rows (e.1.row + 1), max result.cols (e.1.col + 1)⟩ : Size)
          | none => result) acc).cols = k.col + 1) := by
  induction l with
  | nil => intro acc; simp
  | cons e rest ih =>
    intro acc
    obtain ⟨k0, v0⟩ := e
    cases v0 with
    | none =>
      simp only [List.foldl_cons]
      obtain ⟨h1, h2, h3, h4, h5⟩ := ih acc
      refine ⟨h1, h2, ?_, ?_, ?_⟩
      · intro k c hm
        rcases List.mem_cons.1 hm with h | h
        · cases h
        · exact h3 k c h
      · rcases h4 with h | ⟨k, c, hm, h⟩
        · exact Or.inl h
        · exact Or.inr ⟨k, c, List.mem_cons_of_mem _ hm, h⟩
      · rcases h5 with h | ⟨k, c, hm, h⟩
        · exact Or.inl h
        · exact Or.inr ⟨k, c, List.mem_cons_of_mem _ hm, h⟩
    | some c0 =>
      simp only [List.foldl_cons]
      obtain ⟨h1, h2, h3, h4, h5⟩ := ih ⟨max acc.rows (k0.row + 1), max acc.cols (k0.col + 1)⟩
      simp only at h1 h2 h4 h5
      refine ⟨le_trans (le_max_left _ _) h1, le_trans (le_max_left _ _) h2, ?_, ?_, ?_⟩
      · intro k c hm
        rcases List.mem_cons.1 hm with h | h
        · injection h with hk _
          subst hk
          exact ⟨le_trans (le_max_right _ _) h1, le_trans (le_max_right _ _) h2⟩
        · exact h3 k c h
      · rcases h4 with h | ⟨k, c, hm, h⟩
        · rcases max_choice acc.rows (k0.row + 1) with hmax | hmax
          · left; rw [h, hmax]
          · right; exact ⟨k0, c0, List.mem_cons_self _ _, by rw [h, hmax]⟩
        · exact Or.inr ⟨k, c, List.mem_cons_of_mem _ hm, h⟩
      · rcases h5 with h | ⟨k, c, hm, h⟩
        · rcases max_choice acc.cols (k0.col + 1) with hmax | hmax
          · left; rw [h, hmax]
          · right; exact ⟨k0, c0, List.mem_cons_self _ _, by rw [h, hmax]⟩
        · exact Or.inr ⟨k, c, List.mem_cons_of_mem _ hm, h⟩

theorem findSlot_of_mem_nodup {l : List (Position × Option Cell)} (hn : (l.map Prod.fst).Nodup)
    {k : Position} {v : Option Cell} (hm : (k, v) ∈ l) : findSlot l k = some v := by
  induction l with
  | nil => simp at hm
  | cons e rest ih =>
    obtain ⟨k0, v0⟩ := e
    simp only [List.map_cons, List.nodup_cons] at hn
    rcases List.mem_cons.1 hm with h | h
    · injection h with h1 h2
      subst h1; subst h2
      simp [findSlot]
    · have hne : k0 ≠ k := by
        intro hk; subst hk
        exact hn.1 (List.mem_map.2 ⟨(k0, v), h, rfl⟩)
      simp only [findSlot, hne, if_false]
      exact ih hn.2 h

theorem valid_nonneg {p : Position} (h : p.IsValid = true) : 0 ≤ p.row ∧ 0 ≤ p.col := by
  unfold Position.IsValid at h
  simp only [Bool.and_eq_true, decide_eq_true_eq] at h
  exact ⟨h.1.1.1, h.1.1.2⟩

/-- C17: in every reachable sheet state, `GetPrintableSize()` bounds every
stored position (`row + 1 <= rows`, `col + 1 <= cols`; Empty placeholders are
stored cells, cells removed by `ClearCell` are not), it is (0, 0) when no cell
is stored, and when some cell is stored `rows` is `1 +` the row of a stored
cell and `cols` is `1 +` the column of a stored cell: the size is one more
than the largest stored row and column. -/
theorem C17_printable_size_is_bounding_box (pf : Parser) (s : Sheet) (hr : Reachable pf s) :
    (∀ p, s.stored p = true →
      p.row + 1 ≤ s.GetPrintableSize.rows ∧ p.col + 1 ≤ s.GetPrintableSize.cols) ∧
    ((∀ p, s.stored p = false) → s.GetPrintableSize = ⟨0, 0⟩) ∧
    ((∃ p, s.stored p = true) →
      (∃ p, s.stored p = true ∧ s.GetPrintableSize.rows = p.row + 1) ∧
      (∃ p, s.stored p = true ∧ s.GetPrintableSize.cols = p.col + 1)) := by
  have hw := reachable_wellFormed hr
  obtain ⟨_, _, h3, h4, h5⟩ := printable_fold s.cells ⟨0, 0⟩
  have hstored : ∀ k c, (k, some c) ∈ s.cells → s.stored k = true := by
    intro k c hm
    exact stored_iff.2 ⟨c, deref_of_find (findSlot_of_mem_nodup hw.keysNodup hm)⟩
  have hbound : ∀ p, s.stored p = true →
      p.row + 1 ≤ s.GetPrintableSize.rows ∧ p.col + 1 ≤ s.GetPrintableSize.cols := by
    intro p hp
    obtain ⟨c, hc⟩ := stored_iff.1 hp
    exact h3 p c (findSlot_mem (find_of_deref hc))
  refine ⟨hbound, ?_, ?_⟩
  · intro hnone
    have hr0 : s.GetPrintableSize.rows = 0 := by
      rcases h4 with h | ⟨k, c, hm, _⟩
      · exact h
      · have hk := hstored k c hm
        rw [hnone k] at hk
        cases hk
    have hc0 : s.GetPrintableSize.cols = 0 := by
      rcases h5 with h | ⟨k, c, hm, _⟩
      · exact h
      · have hk := hstored k c hm
        rw [hnone k] at hk
        cases hk
    cases hsz : s.GetPrintableSize with
    | mk r c =>
      rw [hsz] at hr0 hc0
      simp only at hr0 hc0
      rw [hr0, hc0]
  · rintro ⟨p, hp⟩
    obtain ⟨c, hc⟩ := stored_iff.1 hp
    obtain ⟨hrow, hcol⟩ := valid_nonneg (hw.keysValid p (keys_of_deref hc))
    obtain ⟨hb1, hb2⟩ := hbound p hp
    refine ⟨?_, ?_⟩
    · rcases h4 with h | ⟨k, c2, hm, h⟩
      · exfalso
        have h0 : s.GetPrintableSize.rows = 0 := h
        omega
      · exact ⟨k, hstored k c2 hm, h⟩
    · rcases h5 with h | ⟨k, c2, hm, h⟩
      · exfalso
        have h0 : s.GetPrintableSize.cols = 0 := h
        omega
      · exact ⟨k, hstored k c2 hm, h⟩

/-- C17, witness: after `SetCell(B1,"=A1")`, `SetCell(C1,"x")`, `ClearCell(C1)`
the stored cells are `B1` and the placeholder `A1`; the printable size is
bounded below by `B1` and attained. -/
theorem C17_printable_size_is_bounding_box_witness :
    Reachable ParseFormula
      (sheetAfter ParseFormula [.SetCell B1 "=A1", .SetCell C1 "x", .ClearCell C1]) ∧
    ((∀ p, (sheetAfter ParseFormula [.SetCell B1 "=A1", .SetCell C1 "x", .ClearCell C1]).stored p
        = true →
      p.row + 1 ≤ (sheetAfter ParseFormula
          [.SetCell B1 "=A1", .SetCell C1 "x", .ClearCell C1]).GetPrintableSize.rows ∧
      p.col + 1 ≤ (sheetAfter ParseFormula
          [.SetCell B1 "=A1", .SetCell C1 "x", .ClearCell C1]).GetPrintableSize.cols) ∧
    (sheetAfter ParseFormula [.SetCell B1 "=A1", .SetCell C1 "x", .ClearCell C1]).GetPrintableSize
      = ⟨1, 2⟩) :=
  ⟨reachable_of_completes (by decide),
    (C17_printable_size_is_bounding_box ParseFormula _ (reachable_of_completes (by decide))).1,
    by decide⟩

/-! ## No false positives of the cycle check -/

theorem Set_circular {pf : Parser} {sc : Sheet → Position → String → Outcome Sheet}
    (hsc : ∀ st pos e st1, sc st pos "" = .raised e st1 → e = .InvalidPosition)
    {s s1 : Sheet} {this : CellPtr} {text : String}
    (h : Cell.Set pf sc s this text = .raised .CircularDependency s1) :
    s1 = s ∧ ∃ impl, Cell.newImpl pf text = some impl ∧
      Cell.SearchCircularDependency s this impl = .ok true := by
  unfold Cell.Set at h
  split at h
  · injection h with h1 _; cases h1
  · rename_i impl himpl
    rcases bind_raised h with h1 | ⟨b, hb, h2⟩
    · have := (search_raised h1).1
      cases this
    · cases b with
      | true =>
        simp only [if_true] at h2
        injection h2 with _ h3
        exact ⟨h3.symm, impl, himpl, hb⟩
      | false =>
        simp only [Bool.false_eq_true, if_false] at h2
        have := commit_raised hsc h2
        cases this

theorem SetCell_circular {pf : Parser} {s s1 : Sheet} {pos : Position} {text : String}
    (h : s.SetCell pf pos text = .raised .CircularDependency s1) :
    (s1 = s ∨ (s.find pos = none ∧ pos.IsValid = true ∧ s1 = s.emplace pos)) ∧
    ∃ impl, Cell.newImpl pf text = some impl ∧
      Cell.SearchCircularDependency s1 pos impl = .ok true := by
  have hst := SetCell_raised_state h
  refine ⟨hst, ?_⟩
  unfold Sheet.SetCell at h
  simp only [Sheet.SetCellN] at h
  split at h
  · injection h with h1 _; cases h1
  · split at h
    · obtain ⟨h1, h2⟩ := Set_circular (SetCellN_empty_raised pf 1) h
      rw [h1]; exact h2
    · cases h
    · obtain ⟨h1, h2⟩ := Set_circular (SetCellN_empty_raised pf 1) h
      rw [h1]; exact h2

theorem refsAt_emplace {s : Sheet} {pos : Position} (hf : s.find pos = none) (a : Position) :
    (s.emplace pos).refsAt a = s.refsAt a := by
  unfold Sheet.refsAt
  rw [deref_emplace s pos a hf]
  by_cases ha : a = pos
  · subst ha
    have : s.deref a = none := by simp [Sheet.deref, hf]
    simp [this, Cell.new, Impl.GetReferencedCells]
  · simp [ha]

theorem dependsOn_references {s : Sheet} (hw : WellFormed s) (ho : SetOnly s) (pos : Position) :
    ∀ b, DependsOn s pos b →
      Relation.ReflTransGen (fun a b => a ≠ pos ∧ b ∈ s.refsAt a) b pos := by
  intro b hb
  induction hb with
  | refl => exact Relation.ReflTransGen.refl
  | tail hab hbc ih =>
    rename_i b c
    have hcne : c ≠ pos := by
      intro hc; subst hc
      exact hw.acyclic c (Relation.TransGen.tail' hab hbc)
    obtain ⟨cb, hcb, hcl⟩ := hbc
    obtain ⟨cc, hcc, hbr⟩ := ho.mirrorBack b cb hcb c hcl
    have href : b ∈ s.refsAt c := by
      simp only [Sheet.refsAt, hcc]
      exact ho.outRefs c cc hcc b hbr
    exact Relation.ReflTransGen.head ⟨hcne, href⟩ ih

/-- C2: the cycle check has no false positives on sheets built by `SetCell`
calls.  In a state reached from the empty sheet by `SetCell` calls only, when
`SetCell(pos, text)` raises `CircularDependencyException`, the text parses to
a representation one of whose referenced positions is `pos` itself or leads
to `pos` through the formulas of the other cells: installing it would close a
cycle of references.  So a call whose references form no cycle does not
raise the exception. -/
theorem C2_cycle_check_no_false_positive (pf : Parser) (s s1 : Sheet) (hr : ReachableBySet pf s)
    (pos : Position) (text : String)
    (h : s.SetCell pf pos text = .raised .CircularDependency s1) :
    ∃ impl, Cell.newImpl pf text = some impl ∧ WouldCycle s pos impl.GetReferencedCells := by
  obtain ⟨hw, ho⟩ := reachableBySet_inv hr
  obtain ⟨hst, impl, himpl, hsearch⟩ := SetCell_circular h
  refine ⟨impl, himpl, ?_⟩
  obtain ⟨q, hq, _, hdep⟩ := search_ok_true hsearch
  refine ⟨q, hq, ?_⟩
  rcases hst with h1 | ⟨hf, hv, h1⟩
  · subst h1
    exact dependsOn_references hw ho pos q hdep
  · subst h1
    have h2 := dependsOn_references (wellFormed_emplace hw hf hv) (setOnly_emplace ho hf) pos q hdep
    exact Relation.ReflTransGen.mono (fun a b hab => ⟨hab.1, by rw [← refsAt_emplace hf a]; exact hab.2⟩)
      h2

/-- C2, witness: after `SetCell(B1,"=A1")`, the call `SetCell(A1,"=B1")` raises
`CircularDependencyException`, and indeed `B1` reads `A1`. -/
theorem C2_cycle_check_no_false_positive_witness :
    (ReachableBySet ParseFormula (sheetAfter ParseFormula [.SetCell B1 "=A1"]) ∧
      (sheetAfter ParseFormula [.SetCell B1 "=A1"]).SetCell ParseFormula A1 "=B1"
        = .raised .CircularDependency (sheetAfter ParseFormula [.SetCell B1 "=A1"])) ∧
    ∃ impl, Cell.newImpl ParseFormula "=B1" = some impl ∧
      WouldCycle (sheetAfter ParseFormula [.SetCell B1 "=A1"]) A1 impl.GetReferencedCells :=
  ⟨⟨reachableBySet_of_completes (by decide) (by decide), by rfl⟩,
    C2_cycle_check_no_false_positive ParseFormula _ _
      (reachableBySet_of_completes (by decide) (by decide)) A1 "=B1" (by rfl)⟩

/-! ## The edges after a successful `SetCell` -/

theorem SameSkeleton.obs {s s1 : Sheet} (h : SameSkeleton s s1) (q : Position) :
    s1.outgoing q = s.outgoing q ∧ s1.incoming q = s.incoming q ∧ s1.refsAt q = s.refsAt q ∧
      s1.GetText q = s.GetText q := by
  cases hd1 : s1.deref q with
  | none =>
    cases hd : s.deref q with
    | none => simp [Sheet.outgoing, Sheet.incoming, Sheet.refsAt, Sheet.GetText, hd, hd1]
    | some c =>
      obtain ⟨c1, hc1, _⟩ := h.symm.deref hd
      rw [hd1] at hc1; cases hc1
  | some c1 =>
    obtain ⟨c, hc, hcc⟩ := h.deref hd1
    obtain ⟨h1, h2, h3, h4⟩ := eraseCache_fields hcc
    simp [Sheet.outgoing, Sheet.incoming, Sheet.refsAt, Sheet.GetText, hc, hd1, h1, h2, h3, h4]

/-- C12: after a successful `SetCell(pos, text)` the cell at `pos` holds the
representation built from the text; its outgoing set is exactly the set of
referenced positions of that representation (empty when it references
nothing, as for Empty and Text content); every referenced position has a
stored cell, and one that had none before is an Empty cell with text "",
whose only incoming pointer is `pos`; every cell of the new outgoing set has
`pos` in its incoming set; and every former target that is no longer
referenced has `pos` removed from its incoming set. -/
theorem C12_successful_set_rebuilds_edges (pf : Parser) (s s1 : Sheet) (pos : Position)
    (text : String) (h : s.SetCell pf pos text = .ok s1) :
    ∃ impl, Cell.newImpl pf text = some impl ∧
      s1.stored pos = true ∧ s1.GetText pos = impl.GetText ∧
      s1.refsAt pos = impl.GetReferencedCells ∧
      (∀ q, q ∈ s1.outgoing pos ↔ q ∈ impl.GetReferencedCells) ∧
      (impl.GetReferencedCells = [] → s1.outgoing pos = []) ∧
      (∀ q ∈ impl.GetReferencedCells, s1.stored q = true ∧
        (s.stored q = false → s1.GetText q = "" ∧ s1.incoming q = [pos] ∧ s1.outgoing q = [])) ∧
      (∀ q ∈ s1.outgoing pos, pos ∈ s1.incoming q) ∧
      (∀ q ∈ s.outgoing pos, q ∉ impl.GetReferencedCells → pos ∉ s1.incoming q) := by
  obtain ⟨hv, s0, c0, impl, hs0, hc0, himpl, hsearch, hcommit⟩ := SetCell_ok h
  have hnot : pos ∉ impl.GetReferencedCells :=
    search_false_not_ref hsearch pos Relation.ReflTransGen.refl
  obtain ⟨s4, h4, hicr, hrefs, _⟩ := commit_ok hc0 hnot hcommit
  have hsk := icr_skeleton _ _ _ _ _ hicr
  have hd4 := committed_this h4
  have hout4 : ∀ q, q ∈ s4.outgoing pos ↔ q ∈ impl.GetReferencedCells := by
    intro q
    simp only [Sheet.outgoing, hd4, mem_linkedRefs]
    simp
  have hin4 : ∀ q ∈ impl.GetReferencedCells, s4.stored q = true ∧ pos ∈ s4.incoming q := by
    intro q hq
    have hqne : q ≠ pos := fun hh => hnot (hh ▸ hq)
    obtain ⟨c1, hc1, hm⟩ := committed_ref h4 hqne hq (hrefs q hq).2
    exact ⟨stored_iff.2 ⟨c1, hc1⟩, by simp [Sheet.incoming, hc1, hm]⟩
  refine ⟨impl, himpl, ?_, ?_, ?_, ?_, ?_, ?_, ?_, ?_⟩
  · rw [hsk.stored]; exact stored_iff.2 ⟨_, hd4⟩
  · rw [(hsk.obs pos).2.2.2]; simp [Sheet.GetText, hd4]
  · rw [(hsk.obs pos).2.2.1]; simp [Sheet.refsAt, hd4]
  · intro q; rw [(hsk.obs pos).1]; exact hout4 q
  · intro he
    rw [(hsk.obs pos).1]
    simp [Sheet.outgoing, hd4, he, linkedRefs]
  · intro q hq
    have hqne : q ≠ pos := fun hh => hnot (hh ▸ hq)
    refine ⟨by rw [hsk.stored]; exact (hin4 q hq).1, fun hns => ?_⟩
    rw [(hsk.obs q).2.2.2, (hsk.obs q).2.1, (hsk.obs q).1]
    have hns0 : s0.deref q = none := by
      rcases hs0 with ⟨hf, hs0⟩ | ⟨_, hs0⟩
      · subst hs0
        rw [deref_emplace s pos q hf]
        simp only [hqne, if_false]
        cases hd : s.deref q with
        | none => rfl
        | some c => rw [stored_iff.2 ⟨c, hd⟩] at hns; cases hns
      · subst hs0
        cases hd : s0.deref q with
        | none => rfl
        | some c => rw [stored_iff.2 ⟨c, hd⟩] at hns; cases hns
    obtain ⟨c1, hc1, _⟩ := committed_ref h4 hqne hq (hrefs q hq).2
    rcases committed_other h4 hqne hc1 with ⟨c, hc, _⟩ | ⟨_, _, hc⟩
    · rw [hns0] at hc; cases hc
    · subst hc
      simp [Sheet.GetText, Sheet.incoming, Sheet.outgoing, hc1, Impl.GetText]
  · intro q hq
    rw [(hsk.obs pos).1] at hq
    rw [(hsk.obs q).2.1]
    exact (hin4 q ((hout4 q).1 hq)).2
  · intro q hq hnr
    rw [(hsk.obs q).2.1]
    have hs : s.stored pos = true ∧ s0 = s := by
      rcases hs0 with ⟨hf, _⟩ | hs0
      · exfalso
        have : s.deref pos = none := by simp [Sheet.deref, hf]
        simp [Sheet.outgoing, this] at hq
      · exact hs0
    obtain ⟨_, hs0eq⟩ := hs
    subst hs0eq
    have hq0 : q ∈ c0.r_nodes := by simpa [Sheet.outgoing, hc0] using hq
    by_cases hqp : q = pos
    · subst hqp
      simp only [Sheet.incoming, hd4]
      intro hm
      exact (mem_unlinkedCell.1 hm).2 hq0 rfl
    · cases hd : s4.deref q with
      | none => simp [Sheet.incoming, hd]
      | some c1 =>
        simp only [Sheet.incoming, hd]
        rcases committed_other h4 hqp hd with ⟨c, _, _, _, hl⟩ | ⟨_, hm, _⟩
        · intro hm
          rcases (hl pos).1 hm with ⟨_, h2⟩ | ⟨_, h2⟩
          · exact h2 hq0 rfl
          · exact hnr h2
        · exact absurd hm hnr

/-- C12, witness: on the sheet with `B1 = "=A1"`, the call `SetCell(B1,"=C1")`
succeeds; `C1` is created Empty, and the former target `A1` loses `B1` from
its incoming set. -/
theorem C12_successful_set_rebuilds_edges_witness :
    (sheetAfter ParseFormula [.SetCell B1 "=A1"]).SetCell ParseFormula B1 "=C1"
      = .ok (sheetAfter ParseFormula [.SetCell B1 "=A1", .SetCell B1 "=C1"]) ∧
    ∃ impl, Cell.newImpl ParseFormula "=C1" = some impl ∧
      (sheetAfter ParseFormula [.SetCell B1 "=A1", .SetCell B1 "=C1"]).stored B1 = true ∧
      (sheetAfter ParseFormula [.SetCell B1 "=A1", .SetCell B1 "=C1"]).GetText B1
        = impl.GetText ∧
      (sheetAfter ParseFormula [.SetCell B1 "=A1", .SetCell B1 "=C1"]).refsAt B1
        = impl.GetReferencedCells ∧
      (∀ q, q ∈ (sheetAfter ParseFormula [.SetCell B1 "=A1", .SetCell B1 "=C1"]).outgoing B1
        ↔ q ∈ impl.GetReferencedCells) ∧
      (impl.GetReferencedCells = [] →
        (sheetAfter ParseFormula [.SetCell B1 "=A1", .SetCell B1 "=C1"]).outgoing B1 = []) ∧
      (∀ q ∈ impl.GetReferencedCells,
        (sheetAfter ParseFormula [.SetCell B1 "=A1", .SetCell B1 "=C1"]).stored q = true ∧
        ((sheetAfter ParseFormula [.SetCell B1 "=A1"]).stored q = false →
          (sheetAfter ParseFormula [.SetCell B1 "=A1", .SetCell B1 "=C1"]).GetText q = "" ∧
          (sheetAfter ParseFormula [.SetCell B1 "=A1", .SetCell B1 "=C1"]).incoming q = [B1] ∧
          (sheetAfter ParseFormula [.SetCell B1 "=A1", .SetCell B1 "=C1"]).outgoing q = [])) ∧
      (∀ q ∈ (sheetAfter ParseFormula [.SetCell B1 "=A1", .SetCell B1 "=C1"]).outgoing B1,
        B1 ∈ (sheetAfter ParseFormula [.SetCell B1 "=A1", .SetCell B1 "=C1"]).incoming q) ∧
      (∀ q ∈ (sheetAfter ParseFormula [.SetCell B1 "=A1"]).outgoing B1,
        q ∉ impl.GetReferencedCells →
        B1 ∉ (sheetAfter ParseFormula [.SetCell B1 "=A1", .SetCell B1 "=C1"]).incoming q) :=
  ⟨by rfl, C12_successful_set_rebuilds_edges ParseFormula _ _ B1 "=C1" (by rfl)⟩

/-! ## The recursion budgets are never exhausted -/

theorem forEach_ne_outOfFuel {α : Type} {f : Sheet → α → Outcome Sheet} (I : Sheet → Prop)
    {l : List α} (hstep : ∀ st x, x ∈ l → I st → f st x ≠ .outOfFuel)
    (hpres : ∀ st x st1, x ∈ l → I st → f st x = .ok st1 → I st1) :
    ∀ {s : Sheet}, I s → forEach f l s ≠ .outOfFuel := by
  induction l with
  | nil => intro s _; simp [forEach]
  | cons x rest ih =>
    intro s hs
    simp only [forEach]
    cases hx : f s x with
    | ok st =>
      simp only
      exact ih (fun st y hy => hstep st y (List.mem_cons_of_mem _ hy))
        (fun st y st1 hy => hpres st y st1 (List.mem_cons_of_mem _ hy))
        (hpres s x st (List.mem_cons_self _ _) hs hx)
    | raised e s1 => simp
    | ub => simp
    | outOfFuel => exact absurd hx (hstep s x (List.mem_cons_self _ _) hs)

theorem nodup_length_le_keys {anc : List CellPtr} {keys : List Position} (hn : anc.Nodup)
    (hsub : ∀ a ∈ anc, a ∈ keys) : anc.length ≤ keys.length :=
  (hn.subperm hsub).length_le

theorem icr_ne_outOfFuel (t : Sheet) (hac : ∀ x, ¬ Relation.TransGen (IncomingEdge t) x x) :
    ∀ (d : Nat) (st : Sheet) (x : CellPtr) (b : Bool) (anc : List CellPtr),
      SameSkeleton t st → anc.Nodup → (∀ a ∈ anc, Relation.TransGen (IncomingEdge t) a x) →
      (∀ a ∈ anc, a ∈ t.cells.map Prod.fst) → t.cells.length + 1 ≤ d + anc.length →
      Cell.InvalidateCacheRecursive d st x b ≠ .outOfFuel := by
  intro d
  induction d with
  | zero =>
    intro st x b anc _ hn _ hk hlen
    have h1 := nodup_length_le_keys hn hk
    simp only [List.length_map] at h1
    omega
  | succ d ih =>
    intro st x b anc hsk hn hpath hk hlen
    rw [icr_succ]
    cases hd : st.deref x with
    | none => simp
    | some c =>
      simp only
      split
      · obtain ⟨ct, hct, hcc⟩ := hsk.deref hd
        have hl : ct.l_nodes = c.l_nodes := (eraseCache_fields hcc).1
        have hxn : x ∉ anc := fun hx => hac x (hpath x hx)
        apply forEach_ne_outOfFuel (fun st1 => SameSkeleton t st1)
        · intro st1 y hy hI
          apply ih st1 y false (x :: anc) hI (List.nodup_cons.2 ⟨hxn, hn⟩)
          · intro a ha
            have hxy : IncomingEdge t x y := ⟨ct, hct, hl ▸ hy⟩
            rcases List.mem_cons.1 ha with h | h
            · subst h; exact Relation.TransGen.single hxy
            · exact Relation.TransGen.tail (hpath a h) hxy
          · intro a ha
            rcases List.mem_cons.1 ha with h | h
            · subst h; exact keys_of_deref hct
            · exact hk a h
          · simp only [List.length_cons]; omega
        · intro st1 y st2 _ hI hst
          exact hI.trans (icr_skeleton _ _ _ _ _ hst)
        · exact hsk.trans (SameSkeleton.store hd (by simp [Cell.eraseCache, InvalidateCache_idem]))
      · simp

theorem icr_top_ne_outOfFuel {s : Sheet} (hw : WellFormed s) (x : CellPtr) (b : Bool) :
    Cell.InvalidateCacheRecursive s.depthFuel s x b ≠ .outOfFuel := by
  apply icr_ne_outOfFuel s hw.acyclic s.depthFuel s x b [] (SameSkeleton.refl s) List.nodup_nil
  · intro a ha; simp at ha
  · intro a ha; simp at ha
  · simp [Sheet.depthFuel]

theorem bind_outOfFuel {α β : Type} {o : Outcome α} {k : α → Outcome β}
    (h : o.bind k = .outOfFuel) : o = .outOfFuel ∨ ∃ a, o = .ok a ∧ k a = .outOfFuel := by
  cases o with
  | ok a => exact Or.inr ⟨a, rfl, h⟩
  | raised e s => simp [Outcome.bind] at h
  | ub => simp [Outcome.bind] at h
  | outOfFuel => exact Or.inl rfl

theorem modify_ne_outOfFuel (s : Sheet) (p : CellPtr) (f : Cell → Cell) :
    s.modify p f ≠ .outOfFuel := by
  unfold Sheet.modify
  split <;> simp

theorem GetCellPtr_ne_outOfFuel (s : Sheet) (pos : Position) : s.GetCellPtr pos ≠ .outOfFuel := by
  unfold Sheet.GetCellPtr
  split
  · simp
  · split <;> simp

theorem relink_wellFormed {pf : Parser} {n : Nat} {s s4 : Sheet} {this : CellPtr} {impl : Impl}
    {c0 : Cell} (hw : WellFormed s) (hthis : s.deref this = some c0)
    (hsearch : Cell.SearchCircularDependency s this impl = .ok false)
    (h : Cell.relink (Sheet.SetCellN pf (n + 1)) s this impl = .ok s4) :
    WellFormed s4 ∧ (SetOnly s → SetOnly s4) := by
  have hnot : this ∉ impl.GetReferencedCells :=
    search_false_not_ref hsearch this Relation.ReflTransGen.refl
  obtain ⟨h4, hrefs, _⟩ := relink_ok hthis hnot h
  have hk4 := relink_keys hnot h ⟨hw.keysValid, hw.keysNodup⟩
  exact ⟨committed_wellFormed hw hthis hsearch h4 hrefs hk4,
    fun ho => committed_setOnly hw ho hthis hsearch h4⟩

theorem linkRef_ne_outOfFuel (pf : Parser) (n : Nat) (this : CellPtr) (s : Sheet)
    (pos : Position) : Cell.linkRef (Sheet.SetCellN pf (n + 1)) this s pos ≠ .outOfFuel := by
  intro h
  unfold Cell.linkRef at h
  rcases bind_outOfFuel h with h1 | ⟨out0, h0, h2⟩
  · exact GetCellPtr_ne_outOfFuel _ _ h1
  · obtain ⟨hv, hout0⟩ := GetCellPtr_ok h0
    rcases bind_outOfFuel h2 with h3 | ⟨st, _, h4⟩
    · split at h3
      · cases h3
      · rename_i hnone
        cases hf : s.find pos with
        | none => rw [SetCellN_empty_absent pf n s pos hv hf] at h3; cases h3
        | some v =>
          cases v with
          | none => rw [SetCellN_empty_reset pf n s pos hv hf] at h3; cases h3
          | some c =>
            have hs : s.stored pos = true := stored_iff.2 ⟨c, deref_of_find hf⟩
            rw [hs] at hout0
            simp at hout0
    · rcases bind_outOfFuel h4 with h5 | ⟨out1, _, h6⟩
      · exact GetCellPtr_ne_outOfFuel _ _ h5
      · split at h6
        · cases h6
        · rcases bind_outOfFuel h6 with h7 | ⟨s2, _, h8⟩
          · exact modify_ne_outOfFuel _ _ _ h7
          · exact modify_ne_outOfFuel _ _ _ h8

theorem relink_ne_outOfFuel (pf : Parser) (n : Nat) (s : Sheet) (this : CellPtr) (impl : Impl) :
    Cell.relink (Sheet.SetCellN pf (n + 1)) s this impl ≠ .outOfFuel := by
  intro h
  unfold Cell.relink at h
  rcases bind_outOfFuel h with h1 | ⟨sa, _, h2⟩
  · exact modify_ne_outOfFuel _ _ _ h1
  · rcases bind_outOfFuel h2 with h3 | ⟨sb, _, h4⟩
    · unfold Cell.unlinkAll at h3
      split at h3
      · cases h3
      · exact forEach_ne_outOfFuel (fun _ => True)
          (fun st x _ _ => modify_ne_outOfFuel _ _ _) (fun _ _ _ _ _ _ => trivial) trivial h3
    · rcases bind_outOfFuel h4 with h5 | ⟨sc, _, h6⟩
      · exact modify_ne_outOfFuel _ _ _ h5
      · exact forEach_ne_outOfFuel (fun _ => True)
          (fun st x _ _ => linkRef_ne_outOfFuel pf n this st x) (fun _ _ _ _ _ _ => trivial)
          trivial h6

/-- On a sheet that satisfies the invariants, `SetCell` never exhausts the
recursion budgets of the model: it returns, raises, or is undefined. -/
theorem SetCell_ne_outOfFuel {pf : Parser} {s : Sheet} (hw : WellFormed s) (pos : Position)
    (text : String) : s.SetCell pf pos text ≠ .outOfFuel := by
  have hset : ∀ (s0 : Sheet) (c0 : Cell), WellFormed s0 → s0.deref pos = some c0 →
      Cell.Set pf (Sheet.SetCellN pf (0 + 1)) s0 pos text ≠ .outOfFuel := by
    intro s0 c0 hw0 hc0 h
    unfold Cell.Set at h
    split at h
    · cases h
    · rename_i impl _
      rcases bind_outOfFuel h with h1 | ⟨b, hb, h2⟩
      · exact search_ne_outOfFuel _ _ _ h1
      · cases b with
        | true => simp at h2
        | false =>
          simp only [Bool.false_eq_true, if_false] at h2
          unfold Cell.commit at h2
          rcases bind_outOfFuel h2 with h3 | ⟨s4, h4, h5⟩
          · exact relink_ne_outOfFuel pf 0 _ _ _ h3
          · exact icr_top_ne_outOfFuel (relink_wellFormed hw0 hc0 hb h4).1 _ _ h5
  intro h
  unfold Sheet.SetCell at h
  simp only [Sheet.SetCellN] at h
  split at h
  · cases h
  · rename_i hv
    simp at hv
    split at h
    · rename_i hf
      exact hset (s.emplace pos) Cell.new (wellFormed_emplace hw hf hv)
        (by rw [deref_emplace s pos pos hf]; simp) h
    · cases h
    · rename_i c hf
      exact hset s c hw (deref_of_find hf) h

theorem evalRefs_ne_outOfFuel {gv : Sheet → CellPtr → Outcome (Sheet × Value × Nat)}
    (I : Sheet → Prop) {refs : List Position}
    (hgv : ∀ st q, q ∈ refs → I st → gv st q ≠ .outOfFuel)
    (hpres : ∀ st q r, I st → gv st q = .ok r → I r.1) :
    ∀ {s : Sheet}, I s → evalRefs gv refs s ≠ .outOfFuel := by
  induction refs with
  | nil => intro s _; simp [evalRefs]
  | cons q rest ih =>
    intro s hs h
    simp only [evalRefs] at h
    split at h
    · exact ih (fun st y hy => hgv st y (List.mem_cons_of_mem _ hy)) hs h
    · rcases bind_outOfFuel h with h1 | ⟨r1, hr1, h2⟩
      · exact hgv s q (List.mem_cons_self _ _) hs h1
      · rcases bind_outOfFuel h2 with h3 | ⟨r2, _, h4⟩
        · exact ih (fun st y hy => hgv st y (List.mem_cons_of_mem _ hy)) (hpres s q r1 hs hr1) h3
        · cases h4

theorem evaluate_skeleton {gv : Sheet → CellPtr → Outcome (Sheet × Value × Nat)}
    (hgv : ∀ s p r, gv s p = .ok r → SameSkeleton s r.1) {s : Sheet} {f : Formula}
    {r : Sheet × FValue × Nat} (h : Evaluate gv s f = .ok r) : SameSkeleton s r.1 := by
  unfold Evaluate at h
  obtain ⟨rb, h9, h10⟩ := bind_ok h
  injection h10 with h10; subst h10
  exact evalRefs_skeleton hgv _ _ _ h9

theorem getValue_ne_outOfFuel (t : Sheet) (hw : WellFormed t) :
    ∀ (d : Nat) (st : Sheet) (x : CellPtr) (anc : List CellPtr),
      SameSkeleton t st → anc.Nodup → (∀ a ∈ anc, Relation.TransGen (IncomingEdge t) x a) →
      (∀ a ∈ anc, a ∈ t.cells.map Prod.fst) → t.cells.length + 1 ≤ d + anc.length →
      Cell.GetValue d st x ≠ .outOfFuel := by
  intro d
  induction d with
  | zero =>
    intro st x anc _ hn _ hk hlen
    have h1 := nodup_length_le_keys hn hk
    simp only [List.length_map] at h1
    omega
  | succ d ih =>
    intro st x anc hsk hn hpath hk hlen h
    simp only [Cell.GetValue] at h
    split at h
    · cases h
    · rename_i c hc
      split at h
      · cases h
      · cases h
      · rename_i f cache hi
        obtain ⟨ct, hct, hcc⟩ := hsk.deref hc
        have hrefs : ct.impl.GetReferencedCells = f.refs := by
          rw [(eraseCache_fields hcc).2.2.1, hi]; rfl
        have hxn : x ∉ anc := fun hx => hw.acyclic x (hpath x hx)
        have hev : ∀ st1, SameSkeleton t st1 → Evaluate (Cell.GetValue d) st1 f ≠ .outOfFuel := by
          intro st1 hst1 he
          unfold Evaluate at he
          rcases bind_outOfFuel he with h1 | ⟨r, _, h2⟩
          · refine evalRefs_ne_outOfFuel (fun st2 => SameSkeleton t st2) ?_ ?_ hst1 h1
            · intro st2 q hq hI
              apply ih st2 q (x :: anc) hI (List.nodup_cons.2 ⟨hxn, hn⟩)
              · intro a ha
                have hqr : q ∈ ct.r_nodes := hw.refsLinked x ct hct q (hrefs ▸ hq)
                obtain ⟨cq, hcq, hxq⟩ := hw.mirror x ct hct q hqr
                have hqx : IncomingEdge t q x := ⟨cq, hcq, hxq⟩
                rcases List.mem_cons.1 ha with h3 | h3
                · subst h3; exact Relation.TransGen.single hqx
                · exact Relation.TransGen.head hqx (hpath a h3)
              · intro a ha
                rcases List.mem_cons.1 ha with h3 | h3
                · subst h3; exact keys_of_deref hct
                · exact hk a h3
              · simp only [List.length_cons]; omega
            · intro st2 q r hI hr
              exact hI.trans (getValue_skeleton _ _ _ _ hr)
          · cases h2
        rcases bind_outOfFuel h with h1 | ⟨r1, hr1, h2⟩
        · split at h1
          · cases h1
          · rcases bind_outOfFuel h1 with h3 | ⟨r, _, h4⟩
            · exact hev st hsk h3
            · rcases bind_outOfFuel h4 with h5 | ⟨s1, _, h6⟩
              · exact modify_ne_outOfFuel _ _ _ h5
              · cases h6
        · have hsk1 : SameSkeleton t r1.1 := by
            split at hr1
            · injection hr1 with hr1; subst hr1; exact hsk
            · obtain ⟨ra, h5, h6⟩ := bind_ok hr1
              obtain ⟨sa, h7, h8⟩ := bind_ok h6
              injection h8 with h8; subst h8
              obtain ⟨ca, hca, hsa⟩ := modify_ok h7
              have hA := evaluate_skeleton (getValue_skeleton d) h5
              simp only
              rw [hsa]
              exact (hsk.trans hA).trans
                (SameSkeleton.store hca (by simp [Cell.eraseCache, InvalidateCache_setCache]))
          rcases bind_outOfFuel h2 with h3 | ⟨r2, _, h4⟩
          · exact hev r1.1 hsk1 h3
          · cases h4

/-- On a sheet that satisfies the invariants, reading a value never exhausts
the recursion budget of the model. -/
theorem GetValue_ne_outOfFuel {s : Sheet} (hw : WellFormed s) (pos : Position) :
    s.GetValue pos ≠ .outOfFuel := by
  intro h
  unfold Sheet.GetValue at h
  rcases bind_outOfFuel h with h1 | ⟨p, _, h2⟩
  · exact GetCellPtr_ne_outOfFuel _ _ h1
  · split at h2
    · cases h2
    · refine getValue_ne_outOfFuel s hw s.depthFuel s _ [] (SameSkeleton.refl s) List.nodup_nil
        ?_ ?_ ?_ h2
      · intro a ha; simp at ha
      · intro a ha; simp at ha
      · simp [Sheet.depthFuel]

/-- In every reachable sheet state no call of the interface exhausts a
recursion budget of the model: the budgets bound recursions that terminate. -/
theorem reachable_calls_terminate {pf : Parser} {s : Sheet} (hr : Reachable pf s)
    (pos : Position) (text : String) :
    s.SetCell pf pos text ≠ .outOfFuel ∧ s.GetValue pos ≠ .outOfFuel ∧
      s.ClearCell pos ≠ .outOfFuel := by
  have hw := reachable_wellFormed hr
  refine ⟨SetCell_ne_outOfFuel hw pos text, GetValue_ne_outOfFuel hw pos, ?_⟩
  rcases ClearCell_cases s pos with ⟨_, h1⟩ | ⟨_, _, h1⟩ | ⟨_, c, _, _, h1⟩ | ⟨_, c, _, _, h1⟩ <;>
    rw [h1] <;> simp

/-! ## Invalidation that changes nothing -/

theorem invalidated_refl (t : Sheet) : Invalidated t t := fun _ => Or.inl rfl

theorem invalidated_trans {t t1 t2 : Sheet} (h1 : Invalidated t t1) (h2 : Invalidated t1 t2) :
    Invalidated t t2 := by
  intro q
  rcases h2 q with h | ⟨c, hc, h⟩
  · rw [h]; exact h1 q
  · rcases h1 q with h3 | ⟨c0, hc0, h3⟩
    · right; exact ⟨c, by rw [← h3]; exact hc, h⟩
    · right
      rw [h3] at hc
      simp only [Option.some.injEq] at hc
      subst hc
      exact ⟨c0, hc0, by rw [h]; simp [InvalidateCache_idem]⟩

theorem invalidated_store {t : Sheet} {x : CellPtr} {c : Cell} (hc : t.deref x = some c) :
    Invalidated t (t.store x { c with impl := c.impl.InvalidateCache }) := by
  intro q
  rw [find_store]
  by_cases hq : q = x
  · subst hq
    right
    exact ⟨c, find_of_deref hc, by simp [find_of_deref hc]⟩
  · left; simp [hq]

theorem invalidated_deref {t t1 : Sheet} (h : Invalidated t t1) {q : CellPtr} {c : Cell}
    (hc : t.deref q = some c) :
    t1.deref q = some c ∨ t1.deref q = some { c with impl := c.impl.InvalidateCache } := by
  rcases h q with h1 | ⟨c0, hc0, h1⟩
  · left; apply deref_of_find; rw [h1]; exact find_of_deref hc
  · right
    rw [find_of_deref hc] at hc0
    simp only [Option.some.injEq] at hc0
    subst hc0
    exact deref_of_find h1

theorem icr_invalidated : ∀ (d : Nat) (t : Sheet) (x : CellPtr) (b : Bool) (t1 : Sheet),
    Cell.InvalidateCacheRecursive d t x b = .ok t1 → Invalidated t t1 := by
  intro d
  induction d with
  | zero => intro t x b t1 h; simp [Cell.InvalidateCacheRecursive] at h
  | succ d ih =>
    intro t x b t1 h
    rw [icr_succ] at h
    split at h
    · cases h
    · rename_i c hc
      split at h
      · exact forEach_ok_invariant (fun st => Invalidated t st)
          (fun st y st1 _ hI hst => invalidated_trans hI (ih st y false st1 hst)) (invalidated_store hc) h
      · injection h with h; subst h; exact invalidated_refl t

theorem isCacheValid_invalidate {i : Impl} (h : i.IsCacheValid = false) :
    i.InvalidateCache.IsCacheValid = false ∧ i.InvalidateCache = i := by
  cases i with
  | empty => simp [Impl.IsCacheValid] at h
  | text t => simp [Impl.IsCacheValid] at h
  | formula f cache =>
    cases cache with
    | none => exact ⟨rfl, rfl⟩
    | some v => simp [Impl.IsCacheValid] at h

theorem quiet_mono {t t1 : Sheet} (hinv : Invalidated t t1) {x : CellPtr} (h : Quiet t x) :
    Quiet t1 x := by
  induction h with
  | formula hc hv =>
    rcases invalidated_deref hinv hc with h1 | h1
    · exact Quiet.formula h1 hv
    · exact Quiet.formula h1 (isCacheValid_invalidate hv).1
  | plain hc hi _ ih =>
    rcases invalidated_deref hinv hc with h1 | h1
    · exact Quiet.plain h1 hi ih
    · exact Quiet.plain h1 (by simp [InvalidateCache_idem]) ih

theorem forEach_establish {α : Type} {f : Sheet → α → Outcome Sheet} (P : Sheet → α → Prop)
    (hstep : ∀ st y st1, f st y = .ok st1 → P st1 y)
    (hmono : ∀ st y z st1, P st y → f st z = .ok st1 → P st1 y) :
    ∀ {l : List α} {s s1 : Sheet}, forEach f l s = .ok s1 → ∀ y ∈ l, P s1 y := by
  intro l
  induction l with
  | nil => intro s s1 _ y hy; simp at hy
  | cons x rest ih =>
    intro s s1 h y hy
    simp only [forEach] at h
    split at h
    · rename_i st hst
      rcases List.mem_cons.1 hy with h1 | h1
      · subst h1
        have hP : P st y := hstep s y st hst
        exact forEach_ok_invariant (fun st2 => P st2 y)
          (fun st2 z st3 _ hI hz => hmono st2 y z st3 hI hz) hP h
      · exact ih h y h1
    · cases h
    · cases h
    · cases h

theorem icr_quiet : ∀ (d : Nat) (t : Sheet) (x : CellPtr) (b : Bool) (t1 : Sheet),
    Cell.InvalidateCacheRecursive d t x b = .ok t1 →
      Quiet t1 x ∧ (b = true → QuietTop t1 x) := by
  intro d
  induction d with
  | zero => intro t x b t1 h; simp [Cell.InvalidateCacheRecursive] at h
  | succ d ih =>
    intro t x b t1 h
    rw [icr_succ] at h
    split at h
    · cases h
    · rename_i c hc
      split at h
      · have h0 : Invalidated (t.store x { c with impl := c.impl.InvalidateCache }) t1 :=
          forEach_ok_invariant
            (fun st => Invalidated (t.store x { c with impl := c.impl.InvalidateCache }) st)
            (fun st y st1 _ hI hst => invalidated_trans hI (icr_invalidated d st y false st1 hst))
            (invalidated_refl _) h
        have hall : ∀ y ∈ c.l_nodes, Quiet t1 y :=
          forEach_establish (fun st y => Quiet st y)
            (fun st y st1 hst => (ih st y false st1 hst).1)
            (fun st y z st1 hq hz => quiet_mono (icr_invalidated d st z false st1 hz) hq) h
        have hd0 : (t.store x { c with impl := c.impl.InvalidateCache }).deref x
            = some { c with impl := c.impl.InvalidateCache } := deref_store_same _ hc
        have htop : QuietTop t1 x := by
          rcases invalidated_deref h0 hd0 with h1 | h1
          · exact ⟨_, h1, by simp [InvalidateCache_idem], hall⟩
          · exact ⟨_, h1, by simp [InvalidateCache_idem], hall⟩
        obtain ⟨c1, hc1, hi1, hl1⟩ := htop
        exact ⟨Quiet.plain hc1 hi1 hl1, fun _ => ⟨c1, hc1, hi1, hl1⟩⟩
      · rename_i hcond
        injection h with h; subst h
        simp only [Bool.or_eq_true, not_or, Bool.not_eq_true] at hcond
        refine ⟨Quiet.formula hc hcond.1, fun hb => ?_⟩
        rw [hb] at hcond
        exact absurd hcond.2 (by simp)

theorem forEach_fixed {α : Type} {f : Sheet → α → Outcome Sheet} {t : Sheet} :
    ∀ {l : List α}, (∀ y ∈ l, f t y = .ok t ∨ f t y = .outOfFuel) →
      forEach f l t = .ok t ∨ forEach f l t = .outOfFuel := by
  intro l
  induction l with
  | nil => intro _; left; rfl
  | cons x rest ih =>
    intro h
    simp only [forEach]
    rcases h x (List.mem_cons_self _ _) with h1 | h1
    · rw [h1]
      exact ih (fun y hy => h y (List.mem_cons_of_mem _ hy))
    · rw [h1]; right; rfl

theorem quiet_icr {t : Sheet} {x : CellPtr} (h : Quiet t x) : ∀ d,
    Cell.InvalidateCacheRecursive d t x false = .ok t ∨
      Cell.InvalidateCacheRecursive d t x false = .outOfFuel := by
  induction h with
  | formula hc hv =>
    intro d
    cases d with
    | zero => right; rfl
    | succ d => left; rw [icr_succ, hc]; simp [hv]
  | @plain x c hc hi _ ih =>
    intro d
    cases d with
    | zero => right; rfl
    | succ d =>
      rw [icr_succ, hc]
      simp only
      split
      · have hst : t.store x { c with impl := c.impl.InvalidateCache } = t := by
          rw [hi]; exact store_self hc
        rw [hst]
        exact forEach_fixed (fun y hy => ih y hy d)
      · left; rfl

theorem quietTop_icr {t : Sheet} {x : CellPtr} (h : QuietTop t x) (d : Nat) :
    Cell.InvalidateCacheRecursive d t x true = .ok t ∨
      Cell.InvalidateCacheRecursive d t x true = .outOfFuel := by
  obtain ⟨c, hc, hi, hall⟩ := h
  cases d with
  | zero => right; rfl
  | succ d =>
    rw [icr_succ, hc]
    simp only [Bool.or_true, if_true]
    have hst : t.store x { c with impl := c.impl.InvalidateCache } = t := by
      rw [hi]; exact store_self hc
    rw [hst]
    exact forEach_fixed (fun y hy => quiet_icr (hall y hy) d)

/-! ## Sheets with the same graph -/

theorem sameGraph_deref {t t1 : Sheet} (h : SameGraph t t1) {q : CellPtr} {c : Cell}
    (hc : t.deref q = some c) :
    ∃ c1, t1.deref q = some c1 ∧ c1.impl = c.impl ∧ c1.r_nodes = c.r_nodes ∧
      ∀ y, y ∈ c1.l_nodes ↔ y ∈ c.l_nodes := by
  rcases h q with h1 | ⟨c0, c1, hc0, hc1, h2, h3, h4⟩
  · exact ⟨c, deref_of_find (by rw [h1]; exact find_of_deref hc), rfl, rfl, fun _ => Iff.rfl⟩
  · rw [find_of_deref hc] at hc0
    simp only [Option.some.injEq] at hc0
    subst hc0
    exact ⟨c1, deref_of_find hc1, h2, h3, h4⟩

theorem sameGraph_deref_back {t t1 : Sheet} (h : SameGraph t t1) {q : CellPtr} {c1 : Cell}
    (hc1 : t1.deref q = some c1) :
    ∃ c, t.deref q = some c ∧ c1.impl = c.impl ∧ c1.r_nodes = c.r_nodes ∧
      ∀ y, y ∈ c1.l_nodes ↔ y ∈ c.l_nodes := by
  rcases h q with h1 | ⟨c0, c2, hc0, hc2, h2, h3, h4⟩
  · exact ⟨c1, deref_of_find (by rw [← h1]; exact find_of_deref hc1), rfl, rfl, fun _ => Iff.rfl⟩
  · rw [find_of_deref hc1] at hc2
    simp only [Option.some.injEq] at hc2
    subst hc2
    exact ⟨c0, deref_of_find hc0, h2, h3, h4⟩

theorem quiet_sameGraph {t t1 : Sheet} (hg : SameGraph t t1) {x : CellPtr} (h : Quiet t x) :
    Quiet t1 x := by
  induction h with
  | formula hc hv =>
    obtain ⟨c1, hc1, hi, _, _⟩ := sameGraph_deref hg hc
    exact Quiet.formula hc1 (by rw [hi]; exact hv)
  | plain hc hi _ ih =>
    obtain ⟨c1, hc1, hi1, _, hl⟩ := sameGraph_deref hg hc
    exact Quiet.plain hc1 (by rw [hi1]; exact hi) (fun y hy => ih y ((hl y).1 hy))

theorem quietTop_sameGraph {t t1 : Sheet} (hg : SameGraph t t1) {x : CellPtr}
    (h : QuietTop t x) : QuietTop t1 x := by
  obtain ⟨c, hc, hi, hall⟩ := h
  obtain ⟨c1, hc1, hi1, _, hl⟩ := sameGraph_deref hg hc
  exact ⟨c1, hc1, by rw [hi1]; exact hi, fun y hy => quiet_sameGraph hg (hall y ((hl y).1 hy))⟩

theorem sameGraph_obs {t t1 : Sheet} (h : SameGraph t t1) (q : Position) :
    t1.stored q = t.stored q ∧ t1.GetText q = t.GetText q ∧ t1.outgoing q = t.outgoing q ∧
      (∀ y, y ∈ t1.incoming q ↔ y ∈ t.incoming q) ∧ t1.cachePresent q = t.cachePresent q := by
  cases hd : t.deref q with
  | none =>
    have hd1 : t1.deref q = none := by
      cases hd1 : t1.deref q with
      | none => rfl
      | some c1 =>
        obtain ⟨c, hc, _⟩ := sameGraph_deref_back h hd1
        rw [hd] at hc; cases hc
    simp [Sheet.stored, Sheet.GetText, Sheet.outgoing, Sheet.incoming, Sheet.cachePresent,
      Sheet.cacheAt, hd, hd1]
  | some c =>
    obtain ⟨c1, hc1, hi, hr, hl⟩ := sameGraph_deref h hd
    obtain ⟨i, l, r⟩ := c
    obtain ⟨i1, l1, r1⟩ := c1
    simp only at hi hr hl
    subst hi; subst hr
    refine ⟨by simp [Sheet.stored, hd, hc1], by simp [Sheet.GetText, hd, hc1],
      by simp [Sheet.outgoing, hd, hc1], by simpa [Sheet.incoming, hd, hc1] using hl, ?_⟩
    simp only [Sheet.cachePresent, Sheet.cacheAt, hd, hc1]
    cases i1 <;> rfl

/-! ## The commit makes progress -/

theorem stored_store {s : Sheet} {p q : CellPtr} {c0 : Cell} (c : Cell)
    (hp : s.deref p = some c0) : (s.store p c).stored q = s.stored q := by
  simp only [Sheet.stored, deref_store c q hp]
  by_cases hq : q = p
  · subst hq; simp [hp]
  · simp [hq]

theorem forEach_unlink_total {this : CellPtr} : ∀ {rs : List CellPtr} {s : Sheet},
    (∀ out ∈ rs, s.stored out = true) →
      ∃ s1, forEach (fun st out => st.modify out
        (fun oc => { oc with l_nodes := eraseSet this oc.l_nodes })) rs s = .ok s1 := by
  intro rs
  induction rs with
  | nil => intro s _; exact ⟨s, rfl⟩
  | cons out rest ih =>
    intro s h
    obtain ⟨c, hc⟩ := stored_iff.1 (h out (List.mem_cons_self _ _))
    simp only [forEach, Sheet.modify, hc]
    apply ih
    intro o ho
    rw [stored_store _ hc]
    exact h o (List.mem_cons_of_mem _ ho)

theorem linkRef_total {pf : Parser} {n : Nat} {this : CellPtr} {s : Sheet} {pos : Position}
    {c : Cell} (hne : pos ≠ this) (hthis : s.deref this = some c) (hv : pos.IsValid = true)
    (hnr : s.find pos ≠ some none) :
    ∃ s1, Cell.linkRef (Sheet.SetCellN pf (n + 1)) this s pos = .ok s1 := by
  have hne2 : this ≠ pos := fun h => hne h.symm
  unfold Cell.linkRef
  rw [GetCellPtr_valid hv]
  cases hf : s.find pos with
  | none =>
    have hns : s.stored pos = false := by simp [Sheet.stored, Sheet.deref, hf]
    have hd1 : (s.emplace pos).deref this = some c := by
      rw [deref_emplace s pos this hf]; simp [hne2, hthis]
    have hs1 : (s.emplace pos).stored pos = true :=
      stored_iff.2 ⟨Cell.new, by rw [deref_emplace s pos pos hf]; simp⟩
    simp only [hns, Bool.false_eq_true, if_false, Outcome.bind,
      SetCellN_empty_absent pf n s pos hv hf, GetCellPtr_valid hv, hs1, if_true, Sheet.modify, hd1]
    have hd2 : ((s.emplace pos).store this { c with r_nodes := insertSet pos c.r_nodes }).deref pos
        = some Cell.new := by
      rw [deref_store_other _ _ hne, deref_emplace s pos pos hf]; simp
    rw [hd2]
    exact ⟨_, rfl⟩
  | some v =>
    cases v with
    | none => exact absurd hf hnr
    | some cp =>
      have hs : s.stored pos = true := stored_iff.2 ⟨cp, deref_of_find hf⟩
      simp only [hs, if_true, Outcome.bind, GetCellPtr_valid hv, Sheet.modify, hthis]
      have hd2 : (s.store this { c with r_nodes := insertSet pos c.r_nodes }).deref pos
          = some cp := by
        rw [deref_store_other _ _ hne]; exact deref_of_find hf
      rw [hd2]
      exact ⟨_, rfl⟩

theorem forEach_link_total {pf : Parser} {n : Nat} {this : CellPtr} :
    ∀ {refs : List Position} {s : Sheet} {c : Cell}, s.deref this = some c →
      (∀ q ∈ refs, q.IsValid = true ∧ q ≠ this ∧ s.find q ≠ some none) →
      ∃ s1, forEach (Cell.linkRef (Sheet.SetCellN pf (n + 1)) this) refs s = .ok s1 := by
  intro refs
  induction refs with
  | nil => intro s c _ _; exact ⟨s, rfl⟩
  | cons p rest ih =>
    intro s c hc h
    obtain ⟨hv, hne, hnr⟩ := h p (List.mem_cons_self _ _)
    obtain ⟨st, hst⟩ := @linkRef_total pf n this s p c hne hc hv hnr
    simp only [forEach, hst]
    obtain ⟨_, _, hfind, _⟩ := linkRef_ok hne hc hst
    have hc2 : st.deref this = some { c with r_nodes := insertSet p c.r_nodes } := by
      apply deref_of_find; rw [hfind]; simp
    apply ih hc2
    intro q hq
    obtain ⟨hv2, hne2, hnr2⟩ := h q (List.mem_cons_of_mem _ hq)
    refine ⟨hv2, hne2, fun hx => hnr2 ?_⟩
    rw [hfind] at hx
    simp only [hne2, if_false] at hx
    by_cases hqp : q = p
    · subst hqp
      simp only [if_true] at hx
      exact linkedSlot_eq_reset.1 hx
    · simpa [hqp] using hx

theorem relink_total {pf : Parser} {n : Nat} {s : Sheet} {this : CellPtr} {impl : Impl}
    {c0 : Cell} (hthis : s.deref this = some c0) (hout : ∀ out ∈ c0.r_nodes, s.stored out = true)
    (hrefs : ∀ q ∈ impl.GetReferencedCells, q.IsValid = true ∧ q ≠ this ∧ s.find q ≠ some none) :
    ∃ s4, Cell.relink (Sheet.SetCellN pf (n + 1)) s this impl = .ok s4 := by
  unfold Cell.relink
  simp only [Sheet.modify, hthis, Outcome.bind]
  have hda : (s.store this { c0 with impl := impl }).deref this = some { c0 with impl := impl } :=
    deref_store_same _ hthis
  unfold Cell.unlinkAll
  simp only [hda]
  obtain ⟨sb, hsb⟩ := @forEach_unlink_total this c0.r_nodes
    (s.store this { c0 with impl := impl })
    (fun o ho => by rw [stored_store _ hthis]; exact hout o ho)
  simp only [hsb]
  obtain ⟨hb1, _, _⟩ := forEach_unlink hsb
  have hdb : sb.deref this
      = some (unlinkedCell this c0.r_nodes this { c0 with impl := impl }) := by
    apply deref_of_find
    rw [hb1, find_of_deref hda]; rfl
  simp only [hdb]
  apply forEach_link_total (deref_store_same _ hdb)
  intro q hq
  obtain ⟨hv, hne, hnr⟩ := hrefs q hq
  refine ⟨hv, hne, fun hx => hnr ?_⟩
  rw [find_store] at hx
  simp only [hne, if_false] at hx
  rw [hb1, find_store] at hx
  simp only [hne, if_false] at hx
  cases hf : s.find q with
  | none => rw [hf] at hx; simp at hx
  | some v =>
    cases v with
    | none => rfl
    | some c => rw [hf] at hx; simp at hx

/-! ## No duplicate edges -/

theorem nodup_insertSet {x : CellPtr} {l : List CellPtr} (h : l.Nodup) : (insertSet x l).Nodup := by
  unfold insertSet
  by_cases hx : x ∈ l
  · simp [hx, h]
  · simp only [hx, if_false]
    rw [List.nodup_append]
    refine ⟨h, List.nodup_singleton _, ?_⟩
    intro a ha hb
    simp at hb; subst hb
    exact hx ha

theorem nodup_eraseSet {x : CellPtr} {l : List CellPtr} (h : l.Nodup) : (eraseSet x l).Nodup :=
  h.filter _

theorem nodup_linkedRefs {refs : List Position} : ∀ {init : List CellPtr}, init.Nodup →
    (linkedRefs refs init).Nodup := by
  induction refs with
  | nil => intro init h; exact h
  | cons p rest ih => intro init h; rw [linkedRefs_cons]; exact ih (nodup_insertSet h)

theorem nodup_unlinkedCell {this q : CellPtr} {rs : List CellPtr} {c : Cell}
    (h : c.l_nodes.Nodup ∧ c.r_nodes.Nodup) :
    (unlinkedCell this rs q c).l_nodes.Nodup ∧ (unlinkedCell this rs q c).r_nodes.Nodup := by
  unfold unlinkedCell
  split
  · exact ⟨nodup_eraseSet h.1, h.2⟩
  · exact h

theorem edgesNodup_empty : EdgesNodup Sheet.empty := by
  intro q c hc
  simp [Sheet.deref, Sheet.find, Sheet.empty, findSlot] at hc

theorem edgesNodup_emplace {s : Sheet} {pos : Position} (h : EdgesNodup s)
    (hf : s.find pos = none) : EdgesNodup (s.emplace pos) := by
  intro q c hc
  rcases emplace_deref_cases hf hc with ⟨_, h2⟩ | ⟨_, h2⟩
  · subst h2; simp [Cell.new]
  · exact h q c h2

theorem edgesNodup_committed {s s4 : Sheet} {this : CellPtr} {c0 : Cell} {impl : Impl}
    (h : EdgesNodup s) (hthis : s.deref this = some c0)
    (h4 : ∀ q, s4.find q = committedSlot s this c0 impl q) : EdgesNodup s4 := by
  intro q c hc
  have hf := find_of_deref hc
  rw [h4] at hf
  unfold committedSlot at hf
  by_cases hq : q = this
  · simp only [hq, if_true, Option.some.injEq] at hf
    subst hf
    exact ⟨(nodup_unlinkedCell (h this c0 hthis)).1, nodup_linkedRefs List.nodup_nil⟩
  · simp only [hq, if_false] at hf
    cases hs : s.find q with
    | none =>
      rw [hs] at hf
      by_cases hm : q ∈ impl.GetReferencedCells
      · simp only [hm, if_true, Option.map, linkedSlot, Option.some.injEq] at hf
        subst hf; simp
      · simp [hm] at hf
    | some v =>
      cases v with
      | none =>
        rw [hs] at hf
        by_cases hm : q ∈ impl.GetReferencedCells <;> simp [hm, linkedSlot] at hf
      | some c2 =>
        rw [hs] at hf
        have h2 := @nodup_unlinkedCell this q c0.r_nodes c2 (h q c2 (deref_of_find hs))
        by_cases hm : q ∈ impl.GetReferencedCells
        · simp only [hm, if_true, Option.map, linkedSlot, Option.some.injEq] at hf
          subst hf
          exact ⟨nodup_insertSet h2.1, h2.2⟩
        · simp only [hm, if_false, Option.map, Option.some.injEq] at hf
          subst hf
          exact h2

theorem edgesNodup_skeleton {s s1 : Sheet} (hsk : SameSkeleton s s1) (h : EdgesNodup s) :
    EdgesNodup s1 := by
  intro q c1 hc1
  obtain ⟨c, hc, hcc⟩ := hsk.deref hc1
  obtain ⟨hl, hr, _, _⟩ := eraseCache_fields hcc
  rw [← hl, ← hr]
  exact h q c hc

theorem run_edgesNodup {pf : Parser} {s s1 : Sheet} {c : Call} (h : EdgesNodup s)
    (hrun : c.run pf s = some s1) : EdgesNodup s1 := by
  cases c with
  | SetCell pos text =>
    simp only [Call.run] at hrun
    cases ho : s.SetCell pf pos text with
    | ok s2 =>
      rw [ho] at hrun
      simp only [Outcome.sheet, Option.some.injEq] at hrun
      subst hrun
      obtain ⟨hv, s0, c0, impl, hs0, hc0, _, hsearch, hcommit⟩ := SetCell_ok ho
      have hnot : pos ∉ impl.GetReferencedCells :=
        search_false_not_ref hsearch pos Relation.ReflTransGen.refl
      obtain ⟨s4, h4, hicr, _, _⟩ := commit_ok hc0 hnot hcommit
      have h0 : EdgesNodup s0 := by
        rcases hs0 with ⟨hf, hs0⟩ | ⟨_, hs0⟩
        · subst hs0; exact edgesNodup_emplace h hf
        · subst hs0; exact h
      exact edgesNodup_skeleton (icr_skeleton _ _ _ _ _ hicr) (edgesNodup_committed h0 hc0 h4)
    | raised e s2 =>
      rw [ho] at hrun
      simp only [Outcome.sheet, Option.some.injEq] at hrun
      subst hrun
      rcases SetCell_raised_state ho with h1 | ⟨hf, _, h1⟩
      · subst h1; exact h
      · subst h1; exact edgesNodup_emplace h hf
    | ub => rw [ho] at hrun; simp [Outcome.sheet] at hrun
    | outOfFuel => rw [ho] at hrun; simp [Outcome.sheet] at hrun
  | ClearCell pos =>
    simp only [Call.run] at hrun
    rcases ClearCell_cases s pos with ⟨_, h1⟩ | ⟨_, _, h1⟩ | ⟨_, c, hc, _, h1⟩ | ⟨_, c, hc, _, h1⟩
    · rw [h1] at hrun; simp [Outcome.sheet] at hrun; subst hrun; exact h
    · rw [h1] at hrun; simp [Outcome.sheet] at hrun; subst hrun; exact h
    · rw [h1] at hrun; simp [Outcome.sheet] at hrun; subst hrun
      intro q c1 hc1
      rw [deref_reset] at hc1
      by_cases hq : q = pos
      · simp [hq] at hc1
      · simp only [hq, if_false] at hc1
        exact h q c1 hc1
    · rw [h1] at hrun; simp [Outcome.sheet] at hrun; subst hrun
      intro q c1 hc1
      rw [deref_store _ _ hc] at hc1
      by_cases hq : q = pos
      · simp only [hq, if_true, Option.some.injEq] at hc1
        subst hc1
        exact h pos c hc
      · simp only [hq, if_false] at hc1
        exact h q c1 hc1
  | GetValue pos => exact edgesNodup_skeleton (GetValue_run hrun) h

theorem runCalls_edgesNodup {pf : Parser} : ∀ {calls : List Call} {s s1 : Sheet},
    EdgesNodup s → runCalls pf calls s = some s1 → EdgesNodup s1 := by
  intro calls
  induction calls with
  | nil => intro s s1 hw h; simp [runCalls] at h; subst h; exact hw
  | cons c rest ih =>
    intro s s1 hw h
    simp only [runCalls] at h
    cases hc : c.run pf s with
    | none => rw [hc] at h; simp at h
    | some s2 =>
      rw [hc] at h
      exact ih (run_edgesNodup hw hc) h

theorem reachable_edgesNodup {pf : Parser} {s : Sheet} (h : Reachable pf s) : EdgesNodup s := by
  obtain ⟨calls, hc⟩ := h
  exact runCalls_edgesNodup edgesNodup_empty hc

/-! ## Setting a cell twice -/

theorem newImpl_no_cache {pf : Parser} {text : String} {impl : Impl}
    (h : Cell.newImpl pf text = some impl) : impl.InvalidateCache = impl := by
  unfold Cell.newImpl at h
  split at h
  · injection h with h; subst h; rfl
  · split at h
    · cases hp : pf (String.mk _) with
      | none => rw [hp] at h; simp at h
      | some f =>
        rw [hp] at h
        simp only [Option.map, Option.some.injEq] at h
        subst h; rfl
    · injection h with h; subst h; rfl

theorem invalidateCache_inj {i j : Impl} (h : i.InvalidateCache = j.InvalidateCache)
    (hi : i.InvalidateCache = i) (hj : j.InvalidateCache = j) : i = j := by
  rw [← hi, ← hj]; exact h

theorem SetCell_stored {pf : Parser} {s : Sheet} {pos : Position} {text : String} {c : Cell}
    (hv : pos.IsValid = true) (hf : s.find pos = some (some c)) :
    s.SetCell pf pos text = Cell.Set pf (Sheet.SetCellN pf (0 + 1)) s pos text := by
  have h : s.SetCell pf pos text =
      (if !pos.IsValid then Outcome.raised Exn.InvalidPosition s
      else
        match s.find pos with
        | none => Cell.Set pf (Sheet.SetCellN pf (0 + 1)) (s.emplace pos) pos text
        | some none => Outcome.ub
        | some (some _) => Cell.Set pf (Sheet.SetCellN pf (0 + 1)) s pos text) := rfl
  rw [h]
  simp [hv, hf]

theorem SetCell_twice_ok {pf : Parser} {s s1 : Sheet} {pos : Position} {text : String}
    (hw : WellFormed s) (hn1 : EdgesNodup s1) (h : s.SetCell pf pos text = .ok s1) :
    ∃ s2, s1.SetCell pf pos text = .ok s2 ∧ SameGraph s1 s2 ∧ EdgesNodup s2 := by
  obtain ⟨hv, s0, c0, impl, hs0, hc0, himpl, hsearch, hcommit⟩ := SetCell_ok h
  have hw0 : WellFormed s0 := by
    rcases hs0 with ⟨hf, hs0⟩ | ⟨_, hs0⟩
    · subst hs0; exact wellFormed_emplace hw hf hv
    · subst hs0; exact hw
  have hnot : pos ∉ impl.GetReferencedCells :=
    search_false_not_ref hsearch pos Relation.ReflTransGen.refl
  unfold Cell.commit at hcommit
  obtain ⟨s4, hrel, hicr⟩ := bind_ok hcommit
  obtain ⟨h4, hrefs, _⟩ := relink_ok hc0 hnot hrel
  have hw4 := (relink_wellFormed hw0 hc0 hsearch hrel).1
  have hsk := icr_skeleton _ _ _ _ _ hicr
  have hw1 := hsk.wellFormed hw4
  obtain ⟨c1, hc1, hi1, hall1⟩ := (icr_quiet _ _ _ _ _ hicr).2 rfl
  have hd4 := committed_this h4
  -- the cell at `pos` after the first call
  obtain ⟨c4, hc4, hcc⟩ := hsk.deref hc1
  rw [hd4] at hc4
  injection hc4 with hc4
  subst hc4
  have himpl1 : c1.impl = impl := by
    have h1 : impl.InvalidateCache = c1.impl.InvalidateCache := by
      have := congrArg Cell.impl hcc
      simpa [Cell.eraseCache] using this
    exact invalidateCache_inj h1.symm hi1 (newImpl_no_cache himpl)
  have hr1 : c1.r_nodes = linkedRefs impl.GetReferencedCells [] := by
    have := (eraseCache_fields hcc).2.1
    simpa using this.symm
  have hmem_r : ∀ q, q ∈ c1.r_nodes ↔ q ∈ impl.GetReferencedCells := by
    intro q; rw [hr1, mem_linkedRefs]; simp
  have hself : pos ∉ c1.r_nodes := wellFormed_no_self hw1 hc1
  -- the search of the second call
  have hsearch1 : Cell.SearchCircularDependency s1 pos impl = .ok false := by
    by_cases hne : impl.GetReferencedCells = []
    · exact search_no_refs _ _ _ hne
    · have hdep0 : ∀ y, DependsOn s1 pos y → DependsOn s0 pos y := by
        intro y hy
        induction hy with
        | refl => exact Relation.ReflTransGen.refl
        | tail _ hbc ih =>
          rcases committed_edge hc0 h4 (hsk.incomingEdge hbc) with h1 | ⟨_, h1⟩
          · exact Relation.ReflTransGen.tail ih h1
          · exact absurd h1 (search_false_not_ref hsearch _ ih)
      have hlive : ∀ y, DependsOn s1 pos y → s1.stored y = true := by
        intro y hy
        obtain ⟨c, hc⟩ := stored_iff.1 (search_ok_false hsearch hne y (hdep0 y hy)).1
        rw [hsk.stored]
        by_cases hyp : y = pos
        · subst hyp; exact stored_iff.2 ⟨_, hd4⟩
        · obtain ⟨c2, hc2, _⟩ := committed_old h4 hyp hc
          exact stored_iff.2 ⟨c2, hc2⟩
      obtain ⟨b, hb⟩ := search_total hlive (search_ok_valid hsearch)
      cases b with
      | false => exact hb
      | true =>
        exfalso
        obtain ⟨q, hq, _, hdep⟩ := search_ok_true hb
        obtain ⟨cq, hcq, hpq⟩ := hw1.mirror pos c1 hc1 q ((hmem_r q).2 hq)
        exact hw1.acyclic pos (Relation.TransGen.tail' hdep ⟨cq, hcq, hpq⟩)
  -- the edges are rebuilt
  have hstored_ref : ∀ q ∈ impl.GetReferencedCells, ∃ cq, s1.deref q = some cq ∧ pos ∈ cq.l_nodes :=
    fun q hq => hw1.mirror pos c1 hc1 q ((hmem_r q).2 hq)
  obtain ⟨s5, hrel5⟩ := @relink_total pf 0 s1 pos impl c1 hc1
    (fun out ho => by
      obtain ⟨cq, hcq, _⟩ := hw1.mirror pos c1 hc1 out ho
      exact stored_iff.2 ⟨cq, hcq⟩)
    (fun q hq => by
      obtain ⟨cq, hcq, _⟩ := hstored_ref q hq
      refine ⟨(hrefs q hq).1, fun hh => hnot (hh ▸ hq), ?_⟩
      rw [find_of_deref hcq]; simp)
  obtain ⟨h5, _, _⟩ := relink_ok hc1 hnot hrel5
  have hw5 := (relink_wellFormed hw1 hc1 hsearch1 hrel5).1
  have hg : SameGraph s1 s5 := by
    intro q
    rw [h5]
    unfold committedSlot
    by_cases hq : q = pos
    · left
      subst hq
      simp only [if_true]
      rw [find_of_deref hc1]
      have hu : unlinkedCell q c1.r_nodes q c1 = c1 := by
        unfold unlinkedCell; simp [hself]
      rw [hu, ← hr1, ← himpl1]
    · simp only [hq, if_false]
      by_cases hm : q ∈ impl.GetReferencedCells
      · right
        obtain ⟨cq, hcq, hpq⟩ := hstored_ref q hm
        refine ⟨cq, { unlinkedCell pos c1.r_nodes q cq with
            l_nodes := insertSet pos (unlinkedCell pos c1.r_nodes q cq).l_nodes },
          find_of_deref hcq, ?_, ?_, ?_, ?_⟩
        · simp [hm, find_of_deref hcq, linkedSlot]
        · unfold unlinkedCell; split <;> rfl
        · unfold unlinkedCell; split <;> rfl
        · intro y
          simp only [mem_insertSet, mem_unlinkedCell]
          constructor
          · rintro (h1 | h1)
            · subst h1; exact hpq
            · exact h1.1
          · intro h1
            by_cases hy : y = pos
            · exact Or.inl hy
            · exact Or.inr ⟨h1, fun _ => hy⟩
      · left
        simp only [hm, if_false]
        have hq2 : q ∉ c1.r_nodes := fun hh => hm ((hmem_r q).1 hh)
        cases hf : s1.find q with
        | none => rfl
        | some v =>
          cases v with
          | none => rfl
          | some c => simp [unlinkedCell, hq2]
  have hq5 : QuietTop s5 pos := quietTop_sameGraph hg ⟨c1, hc1, hi1, hall1⟩
  have hicr5 : Cell.InvalidateCacheRecursive s5.depthFuel s5 pos true = .ok s5 := by
    rcases quietTop_icr hq5 s5.depthFuel with h1 | h1
    · exact h1
    · exact absurd h1 (icr_top_ne_outOfFuel hw5 pos true)
  refine ⟨s5, ?_, hg, edgesNodup_committed hn1 hc1 h5⟩
  rw [SetCell_stored hv (find_of_deref hc1)]
  unfold Cell.Set
  simp only [himpl, hsearch1, Outcome.bind, Bool.false_eq_true, if_false]
  unfold Cell.commit
  rw [hrel5]
  exact hicr5

theorem SetCell_twice_raised {pf : Parser} {s s1 : Sheet} {pos : Position} {text : String}
    {e : Exn} (h : s.SetCell pf pos text = .raised e s1) :
    s1.SetCell pf pos text = .raised e s1 := by
  rcases SetCell_raised_state h with h1 | ⟨hf, hv, h1⟩
  · subst h1; exact h
  · subst h1
    unfold Sheet.SetCell at h ⊢
    simp only [Sheet.SetCellN, hv, Bool.not_true, Bool.false_eq_true, if_false, hf] at h
    have hf1 : (s.emplace pos).find pos = some (some Cell.new) := by
      rw [find_emplace s pos pos hf]; simp
    simp only [Sheet.SetCellN, hv, Bool.not_true, Bool.false_eq_true, if_false, hf1]
    exact h

/-- C15: `SetCell` is idempotent on reachable sheets.  When `SetCell(pos, text)`
returns, the same call made again returns as well, and leaves at every
position the same storedness, the same text, the same outgoing set (the same
list), the same incoming set (the same members, each once), and the same
cache-presence flag as the first call did.  When `SetCell(pos, text)` raises,
the same call made again raises the same exception and leaves the sheet as
the first call left it. -/
theorem C15_set_twice_same_as_once (pf : Parser) (s : Sheet) (hr : Reachable pf s)
    (pos : Position) (text : String) :
    (∀ s1, s.SetCell pf pos text = .ok s1 →
      ∃ s2, s1.SetCell pf pos text = .ok s2 ∧
        ∀ q, s2.stored q = s1.stored q ∧ s2.GetText q = s1.GetText q ∧
          s2.outgoing q = s1.outgoing q ∧ (∀ y, y ∈ s2.incoming q ↔ y ∈ s1.incoming q) ∧
          (s2.incoming q).Nodup ∧ (s2.outgoing q).Nodup ∧
          s2.cachePresent q = s1.cachePresent q) ∧
    (∀ e s1, s.SetCell pf pos text = .raised e s1 →
      s1.SetCell pf pos text = .raised e s1) := by
  refine ⟨fun s1 h => ?_, fun e s1 h => SetCell_twice_raised h⟩
  have hr1 : Reachable pf s1 := by
    obtain ⟨calls, hc⟩ := hr
    refine ⟨calls ++ [.SetCell pos text], ?_⟩
    have happ : ∀ (l : List Call) (a b : Sheet), runCalls pf l a = some b →
        runCalls pf (l ++ [.SetCell pos text]) a = (Call.SetCell pos text).run pf b := by
      intro l
      induction l with
      | nil => intro a b hab; simp [runCalls] at hab; subst hab; simp [runCalls]
      | cons c rest ih =>
        intro a b hab
        simp only [runCalls, List.cons_append] at hab ⊢
        cases hc : c.run pf a with
        | none => rw [hc] at hab; simp at hab
        | some a2 =>
          rw [hc] at hab
          simp only [Option.bind] at hab ⊢
          exact ih a2 b hab
    rw [happ calls _ _ hc]
    simp [Call.run, h, Outcome.sheet]
  obtain ⟨s2, h2, hg, hn2⟩ :=
    SetCell_twice_ok (reachable_wellFormed hr) (reachable_edgesNodup hr1) h
  refine ⟨s2, h2, fun q => ?_⟩
  obtain ⟨o1, o2, o3, o4, o5⟩ := sameGraph_obs hg q
  refine ⟨o1, o2, o3, o4, ?_, ?_, o5⟩
  · cases hd : s2.deref q with
    | none => simp [Sheet.incoming, hd]
    | some c => simp only [Sheet.incoming, hd]; exact (hn2 q c hd).1
  · cases hd : s2.deref q with
    | none => simp [Sheet.outgoing, hd]
    | some c => simp only [Sheet.outgoing, hd]; exact (hn2 q c hd).2

/-- C15, witness: on the reachable sheet with `B1 = "=A1"`, the call
`SetCell(B1,"=A1+C1")` succeeds, and the property holds for that sheet,
position and text. -/
theorem C15_set_twice_same_as_once_witness :
    completes ParseFormula [.SetCell B1 "=A1"] = true ∧
    (sheetAfter ParseFormula [.SetCell B1 "=A1"]).SetCell ParseFormula B1 "=A1+C1"
      = .ok (sheetAfter ParseFormula [.SetCell B1 "=A1", .SetCell B1 "=A1+C1"]) ∧
    ((∀ s1, (sheetAfter ParseFormula [.SetCell B1 "=A1"]).SetCell ParseFormula B1 "=A1+C1"
        = .ok s1 →
      ∃ s2, s1.SetCell ParseFormula B1 "=A1+C1" = .ok s2 ∧
        ∀ q, s2.stored q = s1.stored q ∧ s2.GetText q = s1.GetText q ∧
          s2.outgoing q = s1.outgoing q ∧ (∀ y, y ∈ s2.incoming q ↔ y ∈ s1.incoming q) ∧
          (s2.incoming q).Nodup ∧ (s2.outgoing q).Nodup ∧
          s2.cachePresent q = s1.cachePresent q) ∧
    (∀ e s1, (sheetAfter ParseFormula [.SetCell B1 "=A1"]).SetCell ParseFormula B1 "=A1+C1"
        = .raised e s1 →
      s1.SetCell ParseFormula B1 "=A1+C1" = .raised e s1)) :=
  ⟨by decide, by rfl,
    C15_set_twice_same_as_once ParseFormula (sheetAfter ParseFormula [.SetCell B1 "=A1"])
      (reachable_of_completes (by decide)) B1 "=A1+C1"⟩

/-! ## Cells are removed by `ClearCell` only -/

theorem SetCell_keeps_stored {pf : Parser} {s s1 : Sheet} {pos : Position} {text : String}
    (h : (s.SetCell pf pos text).sheet = some s1) :
    (∀ q, s.stored q = true → s1.stored q = true) ∧
      ((s.SetCell pf pos text).isOk = true → s1.stored pos = true) := by
  cases hr : s.SetCell pf pos text with
  | ok s2 =>
    rw [hr] at h
    simp only [Outcome.sheet, Option.some.injEq] at h
    subst h
    obtain ⟨_, s0, c0, impl, hs0, hc0, _, hsearch, hcommit⟩ := SetCell_ok hr
    have hnot : pos ∉ impl.GetReferencedCells :=
      search_false_not_ref hsearch pos Relation.ReflTransGen.refl
    obtain ⟨s4, h4, hicr, _, _⟩ := @commit_ok pf 0 s0 s2 pos impl c0 hc0 hnot hcommit
    have hsk := icr_skeleton _ _ _ _ _ hicr
    have hpos : s2.stored pos = true := by
      rw [hsk.stored pos]
      exact stored_iff.2 ⟨_, committed_this h4⟩
    refine ⟨fun q hq => ?_, fun _ => hpos⟩
    by_cases hqp : q = pos
    · subst hqp; exact hpos
    · obtain ⟨c, hc⟩ := stored_iff.1 hq
      have hc2 : s0.deref q = some c := by
        rcases hs0 with ⟨hf, he⟩ | ⟨_, he⟩
        · rw [he]; exact emplace_deref_old hf hc
        · rw [he]; exact hc
      obtain ⟨c1, hc1, _⟩ := committed_old h4 hqp hc2
      rw [hsk.stored q]
      exact stored_iff.2 ⟨c1, hc1⟩
  | raised e s2 =>
    rw [hr] at h
    simp only [Outcome.sheet, Option.some.injEq] at h
    subst h
    refine ⟨fun q hq => ?_, fun hok => by simp [Outcome.isOk] at hok⟩
    rcases SetCell_raised_state hr with h1 | ⟨hf, _, h1⟩
    · rw [h1]; exact hq
    · obtain ⟨c, hc⟩ := stored_iff.1 hq
      rw [h1]
      exact stored_iff.2 ⟨c, emplace_deref_old hf hc⟩
  | ub => rw [hr] at h; simp [Outcome.sheet] at h
  | outOfFuel => rw [hr] at h; simp [Outcome.sheet] at h

theorem ClearCell_keeps_others {s s1 : Sheet} {pos : Position}
    (h : (s.ClearCell pos).sheet = some s1) :
    (∀ q, q ≠ pos → s1.stored q = s.stored q) ∧ (s1.stored pos = true → s.stored pos = true) := by
  rcases ClearCell_cases s pos with ⟨_, h1⟩ | ⟨_, _, h1⟩ | ⟨_, c, hc, _, h1⟩ | ⟨_, c, hc, _, h1⟩ <;>
    rw [h1] at h <;> simp only [Outcome.sheet, Option.some.injEq] at h <;> subst h
  · exact ⟨fun _ _ => rfl, id⟩
  · exact ⟨fun _ _ => rfl, id⟩
  · refine ⟨fun q hq => ?_, fun _ => stored_iff.2 ⟨c, hc⟩⟩
    simp [Sheet.stored, deref_reset, hq]
  · exact ⟨fun q _ => stored_store _ hc, fun _ => stored_iff.2 ⟨c, hc⟩⟩

/-- C6 (amended): in every sheet state reachable by `SetCell` and `ClearCell`
calls, (1) a position that has non-empty text or a non-empty incoming set has
a stored cell (a position without a cell has neither); (2) a position in the
outgoing set of a stored cell, or one that the representation of a stored
cell reads, has a stored cell, and the incoming set of that cell names the
reading cell; (3) `SetCell` removes no cell: when `SetCell(y, text)` returns
or raises, every cell stored before is stored afterwards, and after a return
a cell is stored at `y`, whatever the text; (4) `ClearCell(y)` on a stored
cell returns, removes the cell from storage when its incoming set is empty
and keeps it otherwise; (5) `ClearCell(y)` changes the storage at no other
position and stores no cell at `y`. -/
theorem C6_referenced_cells_are_stored (pf : Parser) (s : Sheet) (hr : ReachableByEdits pf s)
    (x y : Position) :
    (s.GetText y ≠ "" ∨ s.incoming y ≠ [] → s.stored y = true) ∧
    (y ∈ s.outgoing x ∨ y ∈ s.refsAt x → s.stored y = true ∧ x ∈ s.incoming y) ∧
    (∀ text s1, (s.SetCell pf y text).sheet = some s1 →
      (∀ q, s.stored q = true → s1.stored q = true) ∧
        ((s.SetCell pf y text).isOk = true → s1.stored y = true)) ∧
    (s.stored y = true → s.incoming y = [] →
      ∃ s1, s.ClearCell y = .ok s1 ∧ s1.stored y = false) ∧
    (s.stored y = true → s.incoming y ≠ [] →
      ∃ s1, s.ClearCell y = .ok s1 ∧ s1.stored y = true) ∧
    (∀ s1, (s.ClearCell y).sheet = some s1 →
      (∀ q, q ≠ y → s1.stored q = s.stored q) ∧ (s1.stored y = true → s.stored y = true)) := by
  have hw := reachable_wellFormed (reachableByEdits_reachable hr)
  refine ⟨?_, ?_, fun text s1 h => SetCell_keeps_stored h, ?_, ?_,
    fun s1 h => ClearCell_keeps_others h⟩
  · intro h
    cases hd : s.deref y with
    | none => simp [Sheet.GetText, Sheet.incoming, hd] at h
    | some c => exact stored_iff.2 ⟨c, hd⟩
  · intro h
    have hx : ∃ c, s.deref x = some c ∧ y ∈ c.r_nodes := by
      cases hd : s.deref x with
      | none => simp [Sheet.outgoing, Sheet.refsAt, hd] at h
      | some c =>
        refine ⟨c, rfl, ?_⟩
        simp only [Sheet.outgoing, Sheet.refsAt, hd] at h
        rcases h with h | h
        · exact h
        · exact hw.refsLinked x c hd y h
    obtain ⟨c, hc, hy⟩ := hx
    obtain ⟨cy, hcy, hxy⟩ := hw.mirror x c hc y hy
    exact ⟨stored_iff.2 ⟨cy, hcy⟩, by simp [Sheet.incoming, hcy, hxy]⟩
  · intro hs hi
    obtain ⟨c, hc⟩ := stored_iff.1 hs
    have hvalid : y.IsValid = true := hw.keysValid y (keys_of_deref hc)
    simp only [Sheet.incoming, hc] at hi
    rcases ClearCell_cases s y with ⟨h1, _⟩ | ⟨_, h1, _⟩ | ⟨_, c2, hc2, _, h1⟩ | ⟨_, c2, hc2, hl, _⟩
    · rw [hvalid] at h1; cases h1
    · rw [hc] at h1; cases h1
    · refine ⟨_, h1, ?_⟩
      simp [Sheet.stored, deref_reset]
    · rw [hc] at hc2
      injection hc2 with hc2
      subst hc2
      exact absurd hi hl
  · intro hs hi
    obtain ⟨c, hc⟩ := stored_iff.1 hs
    have hvalid : y.IsValid = true := hw.keysValid y (keys_of_deref hc)
    simp only [Sheet.incoming, hc] at hi
    rcases ClearCell_cases s y with ⟨h1, _⟩ | ⟨_, h1, _⟩ | ⟨_, c2, hc2, hl, _⟩ | ⟨_, c2, hc2, _, h1⟩
    · rw [hvalid] at h1; cases h1
    · rw [hc] at h1; cases h1
    · rw [hc] at hc2
      injection hc2 with hc2
      subst hc2
      exact absurd hl hi
    · refine ⟨_, h1, ?_⟩
      exact stored_iff.2 ⟨_, deref_store_same _ hc2⟩

/-- C6 (amended), witness: after `SetCell(B1,"=A1")` the placeholder `A1` is in
the outgoing set of `B1`; it is stored and names `B1` in its incoming set, and
`ClearCell(A1)` returns and keeps it stored. -/
theorem C6_referenced_cells_are_stored_witness :
    ReachableByEdits ParseFormula (sheetAfter ParseFormula [.SetCell B1 "=A1"]) ∧
    (A1 ∈ (sheetAfter ParseFormula [.SetCell B1 "=A1"]).outgoing B1 ∨
        A1 ∈ (sheetAfter ParseFormula [.SetCell B1 "=A1"]).refsAt B1) ∧
    ((sheetAfter ParseFormula [.SetCell B1 "=A1"]).stored A1 = true ∧
      B1 ∈ (sheetAfter ParseFormula [.SetCell B1 "=A1"]).incoming A1) ∧
    ∃ s1, (sheetAfter ParseFormula [.SetCell B1 "=A1"]).ClearCell A1 = .ok s1 ∧
      s1.stored A1 = true :=
  ⟨reachableByEdits_of_completes (by decide) (by decide), Or.inl (by decide),
    (C6_referenced_cells_are_stored ParseFormula _
      (reachableByEdits_of_completes (by decide) (by decide)) B1 A1).2.1 (Or.inl (by decide)),
    (C6_referenced_cells_are_stored ParseFormula _
      (reachableByEdits_of_completes (by decide) (by decide)) B1 A1).2.2.2.2.1
      (by decide) (by decide)⟩

/-! ## The representation `Set` installs -/

theorem forEach_ne_ub {α : Type} {f : Sheet → α → Outcome Sheet} (I : Sheet → Prop)
    {l : List α} (hstep : ∀ st x, x ∈ l → I st → f st x ≠ .ub)
    (hpres : ∀ st x st1, x ∈ l → I st → f st x = .ok st1 → I st1) :
    ∀ {s : Sheet}, I s → forEach f l s ≠ .ub := by
  induction l with
  | nil => intro s _; simp [forEach]
  | cons x rest ih =>
    intro s hs
    simp only [forEach]
    cases hx : f s x with
    | ok st =>
      simp only
      exact ih (fun st y hy => hstep st y (List.mem_cons_of_mem _ hy))
        (fun st y st1 hy => hpres st y st1 (List.mem_cons_of_mem _ hy))
        (hpres s x st (List.mem_cons_self _ _) hs hx)
    | raised e s1 => simp
    | ub => exact absurd hx (hstep s x (List.mem_cons_self _ _) hs)
    | outOfFuel => simp

theorem closed_skeleton {s s1 : Sheet} (h : SameSkeleton s s1)
    (hclosed : ∀ x c, s.deref x = some c → ∀ y ∈ c.l_nodes, s.stored y = true) :
    ∀ x c, s1.deref x = some c → ∀ y ∈ c.l_nodes, s1.stored y = true := by
  intro x c1 hc1 y hy
  obtain ⟨c, hc, hcc⟩ := h.deref hc1
  rw [h.stored y]
  exact hclosed x c hc y (by rw [(eraseCache_fields hcc).1]; exact hy)

theorem icr_ne_ub : ∀ (d : Nat) (st : Sheet) (x : CellPtr) (b : Bool),
    (∀ x c, st.deref x = some c → ∀ y ∈ c.l_nodes, st.stored y = true) →
    st.stored x = true → Cell.InvalidateCacheRecursive d st x b ≠ .ub := by
  intro d
  induction d with
  | zero => intro st x b _ _; simp [Cell.InvalidateCacheRecursive]
  | succ d ih =>
    intro st x b hclosed hx
    obtain ⟨c, hc⟩ := stored_iff.1 hx
    rw [icr_succ]
    simp only [hc]
    split
    · have h0 : SameSkeleton st (st.store x { c with impl := c.impl.InvalidateCache }) :=
        SameSkeleton.store hc (by simp [Cell.eraseCache, InvalidateCache_idem])
      exact forEach_ne_ub (fun t => SameSkeleton st t)
        (fun t y hy hI => ih t y false (closed_skeleton hI hclosed)
          (by rw [hI.stored y]; exact hclosed x c hc y hy))
        (fun t y t1 _ hI ht => hI.trans (icr_skeleton _ _ _ _ _ ht)) h0
    · simp

theorem Set_installs {pf : Parser} {n : Nat} {s s1 : Sheet} {this : CellPtr} {text : String}
    {c0 : Cell} (hthis : s.deref this = some c0)
    (h : Cell.Set pf (Sheet.SetCellN pf (n + 1)) s this text = .ok s1) :
    ∃ impl c1, Cell.newImpl pf text = some impl ∧ s1.deref this = some c1 ∧ c1.impl = impl := by
  obtain ⟨impl, himpl, hsearch, hcommit⟩ := Set_ok h
  have hnot : this ∉ impl.GetReferencedCells :=
    search_false_not_ref hsearch this Relation.ReflTransGen.refl
  obtain ⟨s4, h4, hicr, _, _⟩ := commit_ok hthis hnot hcommit
  have hsk := icr_skeleton _ _ _ _ _ hicr
  obtain ⟨c1, hc1, hi1, _⟩ := (icr_quiet _ _ _ _ _ hicr).2 rfl
  obtain ⟨c4, hc4, hcc⟩ := hsk.deref hc1
  rw [committed_this h4] at hc4
  injection hc4 with hc4
  subst hc4
  refine ⟨impl, c1, himpl, hc1, ?_⟩
  have h1 : impl.InvalidateCache = c1.impl.InvalidateCache := by
    have h2 := congrArg Cell.impl hcc
    simpa [Cell.eraseCache] using h2
  exact invalidateCache_inj h1.symm hi1 (newImpl_no_cache himpl)

theorem SetCell_absent {pf : Parser} {s : Sheet} {pos : Position} {text : String}
    (hv : pos.IsValid = true) (hf : s.find pos = none) :
    s.SetCell pf pos text = Cell.Set pf (Sheet.SetCellN pf (0 + 1)) (s.emplace pos) pos text := by
  have h : s.SetCell pf pos text =
      (if !pos.IsValid then Outcome.raised Exn.InvalidPosition s
      else
        match s.find pos with
        | none => Cell.Set pf (Sheet.SetCellN pf (0 + 1)) (s.emplace pos) pos text
        | some none => Outcome.ub
        | some (some _) => Cell.Set pf (Sheet.SetCellN pf (0 + 1)) s pos text) := rfl
  rw [h]
  simp [hv, hf]

theorem Set_total_plain {pf : Parser} {n : Nat} {s : Sheet} {this : CellPtr} {text : String}
    {impl : Impl} {c0 : Cell} (hw : WellFormed s) (ho : SetOnly s)
    (hthis : s.deref this = some c0) (himpl : Cell.newImpl pf text = some impl)
    (hrefs : impl.GetReferencedCells = []) :
    ∃ s1, Cell.Set pf (Sheet.SetCellN pf (n + 1)) s this text = .ok s1 := by
  have hsearch := search_no_refs s this impl hrefs
  obtain ⟨s4, hrel⟩ := @relink_total pf n s this impl c0 hthis
    (fun out hout => by
      obtain ⟨cq, hcq, _⟩ := hw.mirror this c0 hthis out hout
      exact stored_iff.2 ⟨cq, hcq⟩)
    (fun q hq => by rw [hrefs] at hq; simp at hq)
  obtain ⟨hw4, ho4⟩ := relink_wellFormed hw hthis hsearch hrel
  obtain ⟨h4, _, _⟩ := relink_ok hthis (by rw [hrefs]; simp) hrel
  have hclosed : ∀ x c, s4.deref x = some c → ∀ y ∈ c.l_nodes, s4.stored y = true := by
    intro x c hc y hy
    obtain ⟨cy, hcy, _⟩ := (ho4 ho).mirrorBack x c hc y hy
    exact stored_iff.2 ⟨cy, hcy⟩
  have hst : s4.stored this = true := stored_iff.2 ⟨_, committed_this h4⟩
  have hset : Cell.Set pf (Sheet.SetCellN pf (n + 1)) s this text
      = Cell.InvalidateCacheRecursive s4.depthFuel s4 this true := by
    unfold Cell.Set
    simp only [himpl, hsearch, Outcome.bind, Bool.false_eq_true, if_false]
    unfold Cell.commit
    rw [hrel]
    rfl
  rw [hset]
  cases hicr : Cell.InvalidateCacheRecursive s4.depthFuel s4 this true with
  | ok s1 => exact ⟨s1, rfl⟩
  | raised e s1 => exact absurd hicr (icr_not_raised _ _ _ _ _ _)
  | ub => exact absurd hicr (icr_ne_ub _ _ _ _ hclosed hst)
  | outOfFuel => exact absurd hicr (icr_top_ne_outOfFuel hw4 this true)

theorem newImpl_plain {pf : Parser} {text : String}
    (h : ¬ (text.data.head? = some '=' ∧ 1 < text.length)) :
    Cell.newImpl pf text = some (if text.length = 0 then .empty else .text text) := by
  rw [newImpl_eq]
  by_cases h0 : text.length = 0
  · simp [h0]
  · simp only [h0, if_false]
    rw [if_neg]
    exact h

/-- C16: `Cell::Set` classifies the text as follows.  (1) When `Set(text)` on a
stored cell returns, the cell holds: for the empty text the Empty
representation, with `GetText()` "" and value ""; for a text that starts with
`=` and is longer than one character the formula parsed from the remainder
after the `=`, with no cache; for every other text (the one-character text
"=" included) the Text representation of the text verbatim, whose `GetText()`
is the text and whose `GetValue()` is the text without its first character
when it starts with the escape marker and the text verbatim otherwise.
(2) When the remainder after the `=` does not parse, `Set` raises
`FormulaException` and leaves the sheet as it was.  (3) On a sheet reached by
`SetCell` calls, `SetCell` at a valid position with a text that is not a
formula text returns, and the cell then holds the Empty representation for
the empty text and the Text representation of the text otherwise. -/
theorem C16_set_classifies_text (pf : Parser) (n d : Nat) (s : Sheet) (this : CellPtr)
    (text : String) :
    (∀ s1, s.stored this = true →
      Cell.Set pf (Sheet.SetCellN pf (n + 1)) s this text = .ok s1 →
      ∃ c, s1.deref this = some c ∧
        (text.length = 0 → c.impl = .empty ∧ s1.GetText this = "" ∧
          Cell.GetValue (d + 1) s1 this = .ok (s1, .str "", 0)) ∧
        (text.data.head? = some '=' ∧ 1 < text.length →
          ∃ f, pf (String.mk (text.data.drop 1)) = some f ∧ c.impl = .formula f none) ∧
        (0 < text.length → ¬ (text.data.head? = some '=' ∧ 1 < text.length) →
          c.impl = .text text ∧ s1.GetText this = text ∧
          Cell.GetValue (d + 1) s1 this
            = .ok (s1, .str (if text.data.head? = some ESCAPE_SIGN
                then String.mk (text.data.drop 1) else text), 0))) ∧
    (text.data.head? = some '=' ∧ 1 < text.length →
      pf (String.mk (text.data.drop 1)) = none →
      Cell.Set pf (Sheet.SetCellN pf (n + 1)) s this text = .raised .FormulaException s) ∧
    (ReachableBySet pf s → this.IsValid = true →
      ¬ (text.data.head? = some '=' ∧ 1 < text.length) →
      ∃ s1 c, s.SetCell pf this text = .ok s1 ∧ s1.deref this = some c ∧
        c.impl = (if text.length = 0 then .empty else .text text)) := by
  refine ⟨?_, ?_, ?_⟩
  · intro s1 hst h
    obtain ⟨c0, hc0⟩ := stored_iff.1 hst
    obtain ⟨impl, c, himpl, hc, hci⟩ := Set_installs hc0 h
    rw [newImpl_eq] at himpl
    refine ⟨c, hc, ?_, ?_, ?_⟩
    · intro h0
      simp only [h0, if_true, Option.some.injEq] at himpl
      have hi : c.impl = .empty := by rw [hci, ← himpl]
      refine ⟨hi, ?_, ?_⟩
      · simp [Sheet.GetText, hc, hi, Impl.GetText]
      · simp [Cell.GetValue, hc, hi]
    · intro hf
      have h0 : ¬ text.length = 0 := by omega
      simp only [h0, if_false] at himpl
      have hf2 : text.data.head? = some FORMULA_SIGN ∧ 1 < text.length := hf
      rw [if_pos hf2] at himpl
      cases hp : pf (String.mk (text.data.drop 1)) with
      | none => rw [hp] at himpl; simp at himpl
      | some f =>
        rw [hp] at himpl
        simp only [Option.map_some', Option.some.injEq] at himpl
        exact ⟨f, rfl, by rw [hci, ← himpl]⟩
    · intro hpos hnf
      have h0 : ¬ text.length = 0 := by omega
      simp only [h0, if_false] at himpl
      have hnf2 : ¬ (text.data.head? = some FORMULA_SIGN ∧ 1 < text.length) := hnf
      rw [if_neg hnf2] at himpl
      simp only [Option.some.injEq] at himpl
      have hi : c.impl = .text text := by rw [hci, ← himpl]
      refine ⟨hi, ?_, ?_⟩
      · simp [Sheet.GetText, hc, hi, Impl.GetText]
      · simp only [Cell.GetValue, hc, hi, TextImpl_GetValue_eq]
  · intro hf hp
    have himpl : Cell.newImpl pf text = none := by
      rw [newImpl_eq]
      have h0 : ¬ text.length = 0 := by omega
      simp only [h0, if_false]
      have hf2 : text.data.head? = some FORMULA_SIGN ∧ 1 < text.length := hf
      rw [if_pos hf2, hp]
      rfl
    unfold Cell.Set
    rw [himpl]
  · intro hr hv hnf
    obtain ⟨hw, ho⟩ := reachableBySet_inv hr
    have himpl := @newImpl_plain pf text hnf
    have hrefs : (if text.length = 0 then Impl.empty else Impl.text text).GetReferencedCells
        = [] := by
      split <;> rfl
    have key : ∀ s0 c0, WellFormed s0 → SetOnly s0 → s0.deref this = some c0 →
        s.SetCell pf this text = Cell.Set pf (Sheet.SetCellN pf (0 + 1)) s0 this text →
        ∃ s1 c, s.SetCell pf this text = .ok s1 ∧ s1.deref this = some c ∧
          c.impl = (if text.length = 0 then .empty else .text text) := by
      intro s0 c0 hw0 ho0 hc0 heq
      obtain ⟨s1, h1⟩ := @Set_total_plain pf 0 s0 this text _ c0 hw0 ho0 hc0 himpl hrefs
      obtain ⟨impl, c, himpl2, hc, hci⟩ := Set_installs hc0 h1
      rw [himpl] at himpl2
      simp only [Option.some.injEq] at himpl2
      exact ⟨s1, c, by rw [heq]; exact h1, hc, by rw [hci, ← himpl2]⟩
    cases hf : s.find this with
    | none =>
      have hd : (s.emplace this).deref this = some Cell.new := by
        rw [deref_emplace s this this hf]; simp
      exact key _ _ (wellFormed_emplace hw hf hv) (setOnly_emplace ho hf) hd
        (SetCell_absent hv hf)
    | some v =>
      cases v with
      | none => exact absurd hf (ho.noReset this)
      | some c0 => exact key s c0 hw ho (deref_of_find hf) (SetCell_stored hv hf)

/-- C16, witness: on the sheet with an Empty cell at `A1` and the escaped text
at `B1`, which was reached by `SetCell` calls, `SetCell(A1, "=")` returns and
`A1` then holds the Text representation of "="; and `Set` with the escaped
text on the cell `B1` returns the same sheet, where `B1` holds that text and
has the value "x". -/
theorem C16_set_classifies_text_witness :
    (ReachableBySet ParseFormula textSheet ∧ A1.IsValid = true ∧
      ¬ ("=".data.head? = some '=' ∧ 1 < "=".length)) ∧
    (∃ s1 c, textSheet.SetCell ParseFormula A1 "=" = .ok s1 ∧ s1.deref A1 = some c ∧
      c.impl = (if "=".length = 0 then .empty else .text "=")) ∧
    (textSheet.stored B1 = true ∧
      Cell.Set ParseFormula (Sheet.SetCellN ParseFormula (0 + 1)) textSheet B1 escapedX
        = .ok textSheet) ∧
    ∃ c, textSheet.deref B1 = some c ∧ c.impl = .text escapedX ∧
      textSheet.GetText B1 = escapedX ∧
      Cell.GetValue (0 + 1) textSheet B1
        = .ok (textSheet, .str (if escapedX.data.head? = some ESCAPE_SIGN
            then String.mk (escapedX.data.drop 1) else escapedX), 0) :=
  ⟨⟨reachableBySet_of_completes (by decide) (by decide), by decide, by decide⟩,
    (C16_set_classifies_text ParseFormula 0 0 textSheet A1 "=").2.2
      (reachableBySet_of_completes (by decide) (by decide)) (by decide) (by decide),
    ⟨by decide, by rfl⟩,
    by
      obtain ⟨c, hc, _, _, h3⟩ :=
        (C16_set_classifies_text ParseFormula 0 0 textSheet B1 escapedX).1 textSheet
          (by decide) (by rfl)
      exact ⟨c, hc, h3 (by decide) (by decide)⟩⟩

/-! ## Present caches rest on valid inputs -/

end Spreadsheet
